import Mathlib

/-!
# The SkSL byte-code interpreter

A shallow embedding of `src/sksl/SkSLInterpreter.cpp`: the invocation driver
`Interpreter::run(f, args, inputs)`, the fetch/decode/execute loop
`Interpreter::run()` and the lane-width (`kVector`) layer.

Conventions of the embedding.

* A `Value` is the 32-bit pattern of the union `Interpreter::Value`; the members
  `fSigned`, `fUnsigned`, `fBool` are views of that pattern.
* `fStack` and `fGlobals` are lists, the top of the stack being the last element.
* Every statement of the source that can go wrong returns in `Exec`: a failed
  `SkASSERT` is the fault `assertion`; an access outside a container, the code
  array or a local buffer that no assertion stopped is the fault `undefined`.
* The numbering of `ByteCodeInstruction` and the float unit are declared outside
  `SkSLInterpreter.cpp`; they are the fields of `Target`.
* The constructor `Value(bool)`, by which `BINARY_OP` and `VECTOR_BINARY_OP` build the
  result of a comparison, writes the one byte of the member `fBool`; the other three
  bytes of the slot are indeterminate. They are the field `boolPad` of `Target`, and
  what is proved of a boolean result is proved of its view `fBool`.
* The loop may run forever, so `runLoop` takes a step budget and answers
  `timeout` when it is used up.
-/

namespace SkSL

/-! ## Values -/

/-- A slot of the stack or of the global table: a 32-bit pattern, kept as a natural
number. The views and constructors below are stated on `Nat`. -/
abbrev Value := Nat

/-- The member `fUnsigned` of a slot. -/
def fUnsigned (v : Nat) : Nat := v % 2 ^ 32

/-- The member `fSigned` of a slot: the pattern read in two's complement. -/
def fSigned (v : Nat) : Int :=
  if v % 2 ^ 32 < 2 ^ 31 then ((v % 2 ^ 32 : Nat) : Int) else ((v % 2 ^ 32 : Nat) : Int) - 2 ^ 32

/-- The member `fBool` of a slot: its low byte, non-zero meaning true. -/
def fBool (v : Nat) : Bool := v % 256 != 0

/-- `Value(int32_t)`, the integer taken modulo `2 ^ 32`. -/
def ofSigned (i : Int) : Nat := (i % 2 ^ 32).toNat

/-- `Value(uint32_t)`, the natural number taken modulo `2 ^ 32`. -/
def ofUnsigned (u : Nat) : Nat := u % 2 ^ 32

/-- The byte that `Value(bool)` and an assignment to the member `fBool` write: 1 or 0. -/
def ofBool (b : Bool) : Nat := if b then 1 else 0

/-- `Value(bool)`: the constructor writes the low byte of the slot; `pad` stands for the
three bytes above it, which the constructor leaves indeterminate. -/
def boolSlot (pad : Nat) (b : Bool) : Nat := pad % 2 ^ 24 * 256 + ofBool b

/-- Assignment to the member `fBool`: only the low byte of the slot changes. -/
def setBool (v : Nat) (b : Bool) : Nat := v % 2 ^ 32 / 256 * 256 + ofBool b

/-- The constant `UNINITIALIZED` as the slot `Value((int) UNINITIALIZED)`. -/
def UNINITIALIZED : Nat := 0xDEADBEEF

/-- The capacity `VECTOR_MAX` of the lane buffer `result`. -/
def VECTOR_MAX : Nat := 16

/-! ## Faults -/

/-- How a statement of the source goes wrong. -/
inductive Fault where
  /-- A failed `SkASSERT`. -/
  | assertion
  /-- An access the language leaves undefined: outside a vector, the code array or a
  local buffer, an uninitialised buffer element, an integer division by zero. -/
  | undefined
  deriving DecidableEq, Repr

/-- A computation of the source that may fault. -/
abbrev Exec := Except Fault

/-- Modelled from the spec: the assertion macro `SkASSERT` is declared outside
`SkSLInterpreter.cpp`; the spec makes a violated check fatal ("violation is fatal", "abort the
invocation; no recovery"), so a false condition stops the invocation with the fault
`assertion` and a true one does nothing. A build that compiles the macro out (the spec
notes that the source checks in debug builds only) is not modelled. -/
def SkASSERT (cond : Bool) : Exec Unit :=
  if cond then .ok () else .error .assertion

/-- The cast `(int) v.size()` of a container size: the low 32 bits, two's complement. -/
def intCast (n : Nat) : Int := fSigned n

/-- The read `xs[i]` of a vector (or of the arrays `args`, `inputs`), the index being
any integer; outside the vector the access is undefined. -/
def elemAt (xs : List Value) (i : Int) : Exec Value :=
  if i < 0 then .error .undefined
  else match xs[i.toNat]? with
    | some v => .ok v
    | none => .error .undefined

/-- The assignment `xs[i] = v`. -/
def assignAt (xs : List Value) (i : Int) (v : Value) : Exec (List Value) :=
  if 0 ≤ i ∧ i.toNat < xs.length then .ok (xs.set i.toNat v) else .error .undefined

/-- The call `xs.insert(xs.begin() + i, v)`. -/
def insertAt (xs : List Value) (i : Int) (v : Value) : Exec (List Value) :=
  if 0 ≤ i ∧ i.toNat ≤ xs.length then .ok (xs.take i.toNat ++ v :: xs.drop i.toNat)
  else .error .undefined

/-- A local array such as `Value vec[4]`: its elements start uninitialised. -/
abbrev Buffer := List (Option Value)

/-- The declaration of a local array of the given capacity. -/
def newBuffer (capacity : Nat) : Buffer := List.replicate capacity none

/-- The assignment `buf[i] = v` of a local array. -/
def bufferSet (buf : Buffer) (i : Nat) (v : Value) : Exec Buffer :=
  if i < buf.length then .ok (buf.set i (some v)) else .error .undefined

/-- The read `buf[i]` of a local array. -/
def bufferGet (buf : Buffer) (i : Nat) : Exec Value :=
  match buf[i]? with
  | some (some v) => .ok v
  | _ => .error .undefined

/-! ## Loops -/

/-- The loop `for (int i = lo; i < lo + n; ++i) body`, as `forUp body n lo`. -/
def forUp {σ : Type} (body : Nat → σ → Exec σ) : Nat → Nat → σ → Exec σ
  | 0, _, s => .ok s
  | n + 1, i, s => body i s >>= forUp body n (i + 1)

/-- The loop `for (int i = n - 1; i >= 0; --i) body`. -/
def forDown {σ : Type} (body : Nat → σ → Exec σ) : Nat → σ → Exec σ
  | 0, s => .ok s
  | n + 1, s => body n s >>= forDown body n

/-! ## Instructions and the target -/

/-- The enumerators of `ByteCodeInstruction` that the source file names. -/
inductive ByteCodeInstruction where
  | kAddF | kAddI | kAndB | kAndI | kBranch
  | kCompareIEQ | kCompareINEQ
  | kCompareFEQ | kCompareFGT | kCompareFGTEQ | kCompareFLT | kCompareFLTEQ | kCompareFNEQ
  | kCompareSGT | kCompareSGTEQ | kCompareSLT | kCompareSLTEQ
  | kCompareUGT | kCompareUGTEQ | kCompareULT | kCompareULTEQ
  | kConditionalBranch | kDebugPrint
  | kDivideF | kDivideS | kDivideU
  | kDup | kDupDown | kFloatToInt
  | kLoad | kLoadGlobal | kLoadSwizzle
  | kMultiplyF | kMultiplyS | kMultiplyU
  | kNegateF | kNegateS | kNop | kNot | kOrB | kOrI | kParameter
  | kPop | kPushImmediate | kRemainderS | kRemainderU | kReturn
  | kSignedToFloat | kStore | kStoreGlobal | kStoreSwizzle
  | kSubtractF | kSubtractI | kSwizzle | kUnsignedToFloat | kVector
  deriving DecidableEq, Repr

/-- What the source file takes from declarations outside it: the numbering of the enumeration
(`decode b` is the enumerator whose value is the byte `b`, if any), the float unit,
acting on 32-bit patterns, and the bytes that `Value(bool)` leaves indeterminate:
`boolPad inst a b` stands for the three upper bytes of the slot built for the result of
the comparison `inst` on the operands `a` and `b`. -/
structure Target where
  decode : Nat → Option ByteCodeInstruction
  boolPad : ByteCodeInstruction → Value → Value → Nat
  addF : Value → Value → Value
  subF : Value → Value → Value
  mulF : Value → Value → Value
  divF : Value → Value → Value
  eqF : Value → Value → Bool
  neF : Value → Value → Bool
  gtF : Value → Value → Bool
  geF : Value → Value → Bool
  ltF : Value → Value → Bool
  leF : Value → Value → Bool
  negF : Value → Value
  floatToInt : Value → Value
  signedToFloat : Int → Value
  unsignedToFloat : Nat → Value

/-- An operator on `int32_t` operands with an `int32_t` result (`+`, `-`, `*`), with
the machine's wrap-around. -/
def int32Op (op : Int → Int → Int) (a b : Value) : Exec Value :=
  .ok (ofSigned (op (fSigned a) (fSigned b)))

/-- A comparison of `int32_t` operands; the result is built by `Value(bool)`. -/
def int32Cmp (pad : Value → Value → Nat) (op : Int → Int → Bool) (a b : Value) :
    Exec Value :=
  .ok (boolSlot (pad a b) (op (fSigned a) (fSigned b)))

/-- The operators `/` and `%` on `int32_t`: truncation toward zero; the division by
zero and `INT_MIN / -1` are undefined. -/
def int32Div (op : Int → Int → Int) (a b : Value) : Exec Value :=
  if fSigned b = 0 ∨ (fSigned a = -2 ^ 31 ∧ fSigned b = -1) then .error .undefined
  else .ok (ofSigned (op (fSigned a) (fSigned b)))

/-- An operator on `uint32_t` operands with a `uint32_t` result. -/
def uint32Op (op : Nat → Nat → Nat) (a b : Value) : Exec Value :=
  .ok (ofUnsigned (op (fUnsigned a) (fUnsigned b)))

/-- A comparison of `uint32_t` operands; the result is built by `Value(bool)`. -/
def uint32Cmp (pad : Value → Value → Nat) (op : Nat → Nat → Bool) (a b : Value) :
    Exec Value :=
  .ok (boolSlot (pad a b) (op (fUnsigned a) (fUnsigned b)))

/-- The operators `/` and `%` on `uint32_t`; the division by zero is undefined. -/
def uint32Div (op : Nat → Nat → Nat) (a b : Value) : Exec Value :=
  if fUnsigned b = 0 then .error .undefined
  else .ok (ofUnsigned (op (fUnsigned a) (fUnsigned b)))

/-- An operator on `float` operands with a `float` result. -/
def floatOp (op : Value → Value → Value) (a b : Value) : Exec Value := .ok (op a b)

/-- A comparison of `float` operands; the result is built by `Value(bool)`. -/
def floatCmp (pad : Value → Value → Nat) (op : Value → Value → Bool) (a b : Value) :
    Exec Value :=
  .ok (boolSlot (pad a b) (op a b))

/-- The instantiations `(inst, type, field, op)` of the macros `BINARY_OP` and
`VECTOR_BINARY_OP`; both switches list the same ones. The function returned computes
`Value(a.field op b.field)`. -/
def binaryCase (T : Target) : ByteCodeInstruction → Option (Value → Value → Exec Value)
  | .kAddI => some (int32Op (· + ·))
  | .kAddF => some (floatOp T.addF)
  | .kCompareIEQ => some (int32Cmp (T.boolPad .kCompareIEQ) (fun x y => decide (x = y)))
  | .kCompareFEQ => some (floatCmp (T.boolPad .kCompareFEQ) T.eqF)
  | .kCompareINEQ => some (int32Cmp (T.boolPad .kCompareINEQ) (fun x y => decide (x ≠ y)))
  | .kCompareFNEQ => some (floatCmp (T.boolPad .kCompareFNEQ) T.neF)
  | .kCompareSGT => some (int32Cmp (T.boolPad .kCompareSGT) (fun x y => decide (x > y)))
  | .kCompareUGT => some (uint32Cmp (T.boolPad .kCompareUGT) (fun x y => decide (x > y)))
  | .kCompareFGT => some (floatCmp (T.boolPad .kCompareFGT) T.gtF)
  | .kCompareSGTEQ => some (int32Cmp (T.boolPad .kCompareSGTEQ) (fun x y => decide (x ≥ y)))
  | .kCompareUGTEQ => some (uint32Cmp (T.boolPad .kCompareUGTEQ) (fun x y => decide (x ≥ y)))
  | .kCompareFGTEQ => some (floatCmp (T.boolPad .kCompareFGTEQ) T.geF)
  | .kCompareSLT => some (int32Cmp (T.boolPad .kCompareSLT) (fun x y => decide (x < y)))
  | .kCompareULT => some (uint32Cmp (T.boolPad .kCompareULT) (fun x y => decide (x < y)))
  | .kCompareFLT => some (floatCmp (T.boolPad .kCompareFLT) T.ltF)
  | .kCompareSLTEQ => some (int32Cmp (T.boolPad .kCompareSLTEQ) (fun x y => decide (x ≤ y)))
  | .kCompareULTEQ => some (uint32Cmp (T.boolPad .kCompareULTEQ) (fun x y => decide (x ≤ y)))
  | .kCompareFLTEQ => some (floatCmp (T.boolPad .kCompareFLTEQ) T.leF)
  | .kDivideS => some (int32Div Int.tdiv)
  | .kDivideU => some (uint32Div (· / ·))
  | .kDivideF => some (floatOp T.divF)
  | .kMultiplyS => some (int32Op (· * ·))
  | .kMultiplyU => some (uint32Op (· * ·))
  | .kMultiplyF => some (floatOp T.mulF)
  | .kRemainderS => some (int32Div Int.tmod)
  | .kRemainderU => some (uint32Div (· % ·))
  | .kSubtractI => some (int32Op (· - ·))
  | .kSubtractF => some (floatOp T.subF)
  | _ => none

/-! ## The interpreter state -/

/-- The mutable members of `Interpreter`: the stack and the global table. -/
structure Interpreter where
  fStack : List Value
  fGlobals : List Value
  deriving DecidableEq, Repr

namespace Interpreter

/-- The method `Interpreter::push`. -/
def push (m : Interpreter) (v : Value) : Interpreter :=
  { m with fStack := m.fStack ++ [v] }

/-- The call `fStack.back()`. -/
def back (m : Interpreter) : Exec Value :=
  match m.fStack.getLast? with
  | some v => .ok v
  | none => .error .undefined

/-- The method `Interpreter::pop`. -/
def pop (m : Interpreter) : Exec (Value × Interpreter) :=
  match m.fStack.getLast? with
  | some v => .ok (v, { m with fStack := m.fStack.dropLast })
  | none => .error .undefined

/-- An assignment through the reference `fStack.back()`. -/
def setBack (m : Interpreter) (v : Value) : Exec Interpreter :=
  match m.fStack.getLast? with
  | some _ => .ok { m with fStack := m.fStack.dropLast ++ [v] }
  | none => .error .undefined

/-- The assignment `fStack[i] = v`. -/
def setStack (m : Interpreter) (i : Int) (v : Value) : Exec Interpreter := do
  let s ← assignAt m.fStack i v
  pure { m with fStack := s }

/-- The assignment `fGlobals[i] = v`. -/
def setGlobal (m : Interpreter) (i : Int) (v : Value) : Exec Interpreter := do
  let g ← assignAt m.fGlobals i v
  pure { m with fGlobals := g }

end Interpreter

/-! ## Decoding -/

/-- The macro `READ8`: the byte at `ip` and the advanced `ip`. -/
def READ8 (code : List Nat) (ip : Nat) : Exec (Nat × Nat) :=
  match code[ip]? with
  | some b => .ok (b, ip + 1)
  | none => .error .undefined

/-- The macro `READ16`: an aligned little-endian 16-bit operand. -/
def READ16 (code : List Nat) (ip : Nat) : Exec (Nat × Nat) := do
  SkASSERT (ip % 2 == 0)
  match code[ip]?, code[ip + 1]? with
  | some b0, some b1 => pure (b0 + 256 * b1, ip + 2)
  | _, _ => .error .undefined

/-- The macro `READ32`: an aligned little-endian 32-bit operand. -/
def READ32 (code : List Nat) (ip : Nat) : Exec (Nat × Nat) := do
  SkASSERT (ip % 4 == 0)
  match code[ip]?, code[ip + 1]?, code[ip + 2]?, code[ip + 3]? with
  | some b0, some b1, some b2, some b3 =>
    pure (b0 + 256 * b1 + 65536 * b2 + 16777216 * b3, ip + 4)
  | _, _, _, _ => .error .undefined

/-- The read `fCurrentFunction->fCode[i]`. -/
def codeAt (code : List Nat) (i : Nat) : Exec Nat :=
  match code[i]? with
  | some b => .ok b
  | none => .error .undefined

/-! ## The fetch/decode/execute loop -/

/-- What one turn of the loop `for (;;)` ends in: the next turn, or `return`. -/
inductive Step where
  | next (ip : Nat) (m : Interpreter)
  | returned (m : Interpreter)
  deriving DecidableEq, Repr

/-- The body of the macro `BINARY_OP`. -/
def BINARY_OP (f : Value → Value → Exec Value) (m : Interpreter) : Exec Interpreter := do
  let (b, m) ← m.pop
  let a ← m.back
  let r ← f a b
  m.setBack r

/-- The body of the macro `VECTOR_BINARY_OP`. -/
def VECTOR_BINARY_OP (f : Value → Value → Exec Value) (count : Nat) (m : Interpreter) :
    Exec Interpreter := do
  let (result, m) ← forDown (fun i (st : Buffer × Interpreter) => do
      let (v, m) ← st.2.pop
      let result ← bufferSet st.1 i v
      pure (result, m)) count (newBuffer VECTOR_MAX, m)
  let (result, m) ← forDown (fun i (st : Buffer × Interpreter) => do
      let (a, m) ← st.2.pop
      let b ← bufferGet st.1 i
      let r ← f a b
      let result ← bufferSet st.1 i r
      pure (result, m)) count (result, m)
  forUp (fun i (m : Interpreter) => do
      let v ← bufferGet result i
      pure (m.push v)) count 0 m

/-- The loop of the lane-width conversions: `v.field = conv(v)` for the `count`
topmost slots, from the top downwards. -/
def vectorConvert (conv : Value → Value) (count : Nat) (m : Interpreter) : Exec Interpreter :=
  forUp (fun i (m : Interpreter) => do
      let v ← elemAt m.fStack ((m.fStack.length : Int) - i - 1)
      m.setStack ((m.fStack.length : Int) - i - 1) (conv v)) count 0 m

/-- The default case of both switches: the message is printed and `SkASSERT(false)`
is met; the turn of the loop ends after it. -/
def unsupported (ip : Nat) (m : Interpreter) : Exec Step := do
  SkASSERT false
  pure (.next ip m)

/-- The inner switch of `kVector`, `ip` standing after the sub-opcode. -/
def executeVector (T : Target) (code : List Nat) (count : Nat)
    (inst : Option ByteCodeInstruction) (ip : Nat) (m : Interpreter) : Exec Step :=
  match inst with
  | none => unsupported ip m
  | some inst =>
  match binaryCase T inst with
  | some f => do
    let m ← VECTOR_BINARY_OP f count m
    pure (.next ip m)
  | none =>
  match inst with
  | .kBranch => do
    let (target, _) ← READ16 code ip
    pure (.next target m)
  | .kConditionalBranch => do
    let (target, ip) ← READ16 code ip
    let (v, m) ← m.pop
    pure (.next (if fBool v then target else ip) m)
  | .kFloatToInt => do
    let m ← vectorConvert T.floatToInt count m
    pure (.next ip m)
  | .kSignedToFloat => do
    let m ← vectorConvert (fun v => T.signedToFloat (fSigned v)) count m
    pure (.next ip m)
  | .kUnsignedToFloat => do
    let m ← vectorConvert (fun v => T.unsignedToFloat (fUnsigned v)) count m
    pure (.next ip m)
  | .kLoad => do
    let (t, m) ← m.pop
    let (_, m) ← forUp (fun _ (st : Int × Interpreter) => do
        SkASSERT (st.1 < intCast st.2.fStack.length)
        let v ← elemAt st.2.fStack st.1
        pure (st.1 + 1, st.2.push v)) count 0 (fSigned t, m)
    pure (.next ip m)
  | .kLoadGlobal => do
    let (target, ip) ← READ8 code ip
    SkASSERT ((target : Int) < intCast m.fGlobals.length)
    let v ← elemAt m.fGlobals target
    pure (.next ip (m.push v))
  | .kStore => do
    let t ← elemAt m.fStack ((m.fStack.length : Int) - count - 1)
    let (_, m) ← forDown (fun _ (st : Int × Interpreter) => do
        SkASSERT (st.1 < intCast st.2.fStack.length)
        let (v, m) ← st.2.pop
        let m ← m.setStack (st.1 - 1) v
        pure (st.1 - 1, m)) count (fSigned t + count, m)
    pure (.next ip m)
  | _ => unsupported ip m

/-- The outer switch of `Interpreter::run()`, `ip` standing after the opcode. -/
def execute (T : Target) (code : List Nat) (inst : Option ByteCodeInstruction) (ip : Nat)
    (m : Interpreter) : Exec Step :=
  match inst with
  | none => unsupported ip m
  | some inst =>
  match binaryCase T inst with
  | some f => do
    let m ← BINARY_OP f m
    pure (.next ip m)
  | none =>
  match inst with
  | .kBranch => do
    let (target, _) ← READ16 code ip
    pure (.next target m)
  | .kConditionalBranch => do
    let (target, ip) ← READ16 code ip
    let (v, m) ← m.pop
    pure (.next (if fBool v then target else ip) m)
  | .kDebugPrint => do
    let (_, m) ← m.pop
    pure (.next ip m)
  | .kDup => do
    let v ← m.back
    pure (.next ip (m.push v))
  | .kDupDown => do
    let (count, ip) ← READ8 code ip
    let m ← forUp (fun i (m : Interpreter) => do
        let v ← elemAt m.fStack ((m.fStack.length : Int) - i - 1)
        let s ← insertAt m.fStack ((m.fStack.length : Int) - i - count - 1) v
        pure { m with fStack := s }) count 0 m
    pure (.next ip m)
  | .kFloatToInt => do
    let top ← m.back
    let m ← m.setBack (T.floatToInt top)
    pure (.next ip m)
  | .kSignedToFloat => do
    let top ← m.back
    let m ← m.setBack (T.signedToFloat (fSigned top))
    pure (.next ip m)
  | .kUnsignedToFloat => do
    let top ← m.back
    let m ← m.setBack (T.unsignedToFloat (fUnsigned top))
    pure (.next ip m)
  | .kLoad => do
    let (t, m) ← m.pop
    SkASSERT (fSigned t < intCast m.fStack.length)
    let v ← elemAt m.fStack (fSigned t)
    pure (.next ip (m.push v))
  | .kLoadGlobal => do
    let (target, ip) ← READ8 code ip
    SkASSERT ((target : Int) < intCast m.fGlobals.length)
    let v ← elemAt m.fGlobals target
    pure (.next ip (m.push v))
  | .kLoadSwizzle => do
    let (target, m) ← m.pop
    let (count, ip) ← READ8 code ip
    let m ← forUp (fun i (m : Interpreter) => do
        let off ← codeAt code (ip + i)
        SkASSERT (fSigned target + off < intCast m.fStack.length)
        let v ← elemAt m.fStack (fSigned target + off)
        pure (m.push v)) count 0 m
    pure (.next (ip + count) m)
  | .kNot => do
    let top ← m.back
    let m ← m.setBack (setBool top (!fBool top))
    pure (.next ip m)
  | .kNegateF => do
    let top ← m.back
    let m ← m.setBack (T.negF top)
    pure (.next ip m)
  | .kNegateS => do
    let top ← m.back
    let m ← m.setBack (ofSigned (-fSigned top))
    pure (.next ip m)
  | .kNop => pure (.next ip m)
  | .kPop => do
    let (count, ip) ← READ8 code ip
    let m ← forDown (fun _ (m : Interpreter) => do
        let (_, m) ← m.pop
        pure m) count m
    pure (.next ip m)
  | .kPushImmediate => do
    let (v, ip) ← READ32 code ip
    pure (.next ip (m.push (ofUnsigned v)))
  | .kReturn => do
    let (count, _) ← READ8 code ip
    let m ← forUp (fun i (m : Interpreter) => do
        let v ← elemAt m.fStack ((m.fStack.length : Int) - count + i)
        m.setStack i v) count 0 m
    pure (.returned m)
  | .kStore => do
    let (value, m) ← m.pop
    let (t, m) ← m.pop
    SkASSERT (fSigned t < intCast m.fStack.length)
    let m ← m.setStack (fSigned t) value
    pure (.next ip m)
  | .kStoreGlobal => do
    let (value, m) ← m.pop
    let (t, m) ← m.pop
    SkASSERT (fSigned t < intCast m.fGlobals.length)
    let m ← m.setGlobal (fSigned t) value
    pure (.next ip m)
  | .kStoreSwizzle => do
    let (count, ip) ← READ8 code ip
    let t ← elemAt m.fStack ((m.fStack.length : Int) - count - 1)
    let m ← forDown (fun i (m : Interpreter) => do
        let off ← codeAt code (ip + i)
        SkASSERT (fSigned t + off < intCast m.fStack.length)
        let (v, m) ← m.pop
        m.setStack (fSigned t + off) v) count m
    let (_, m) ← m.pop
    pure (.next (ip + count) m)
  | .kSwizzle => do
    let (srcCount, ip) ← READ8 code ip
    let (vec, m) ← forDown (fun i (st : Buffer × Interpreter) => do
        let (v, m) ← st.2.pop
        let vec ← bufferSet st.1 i v
        pure (vec, m)) srcCount (newBuffer 4, m)
    let (dstCount, ip) ← READ8 code ip
    let (ip, m) ← forDown (fun _ (st : Nat × Interpreter) => do
        let (index, ip) ← READ8 code st.1
        let v ← bufferGet vec index
        pure (ip, st.2.push v)) dstCount (ip, m)
    pure (.next ip m)
  | .kVector => do
    let (count, ip) ← READ8 code ip
    let (sub, ip) ← READ8 code ip
    executeVector T code count (T.decode sub) ip m
  | _ => unsupported ip m

/-- One turn of the loop: fetch the opcode, then the switch. -/
def step (T : Target) (code : List Nat) (ip : Nat) (m : Interpreter) : Exec Step := do
  let (b, ip) ← READ8 code ip
  execute T code (T.decode b) ip m

/-- How a run ends. -/
inductive Outcome (α : Type) where
  | finished (a : α)
  | fault (f : Fault)
  | timeout
  deriving DecidableEq, Repr

/-- The method `Interpreter::run()` from a given `ip`, with a budget of turns. -/
def runLoop (T : Target) (code : List Nat) : Nat → Nat → Interpreter → Outcome Interpreter
  | 0, _, _ => .timeout
  | fuel + 1, ip, m =>
    match step T code ip m with
    | .error f => .fault f
    | .ok (.returned m) => .finished m
    | .ok (.next ip m) => runLoop T code fuel ip m

/-! ## The invocation driver -/

/-- A formal parameter: the flag `kOut_Flag` of its modifiers and the `columns()` and
`rows()` of its type. -/
structure Parameter where
  out : Bool
  columns : Nat
  rows : Nat
  deriving DecidableEq, Repr

/-- The members of `ByteCodeFunction` that the interpreter reads: `fGlobalCount` and
`fInputSlots` are those of `fOwner`, `fParameters` those of `fDeclaration`. -/
structure ByteCodeFunction where
  fParameterCount : Nat
  fLocalCount : Nat
  fCode : List Nat
  fGlobalCount : Nat
  fInputSlots : List Nat
  fParameters : List Parameter
  deriving DecidableEq, Repr

/-- The part of `Interpreter::run(f, args, inputs)` before the call `run()`. -/
def setup (f : ByteCodeFunction) (args inputs : List Value) (m : Interpreter) :
    Exec Interpreter := do
  let m : Interpreter := { m with fStack := [] }
  let m : Interpreter := { m with fGlobals := [] }
  let m ← forUp (fun i (m : Interpreter) => do
      let a ← elemAt args i
      pure (m.push a)) f.fParameterCount 0 m
  let m ← forUp (fun _ (m : Interpreter) =>
      pure (m.push UNINITIALIZED)) f.fLocalCount 0 m
  let m ← forUp (fun _ (m : Interpreter) =>
      pure { m with fGlobals := m.fGlobals ++ [UNINITIALIZED] }) f.fGlobalCount 0 m
  forDown (fun i (m : Interpreter) => do
      let slot ← codeAt f.fInputSlots i
      let v ← elemAt inputs i
      m.setGlobal slot v) f.fInputSlots.length m

/-- The part of `Interpreter::run(f, args, inputs)` after the call `run()`: the loop
over the formal parameters, from the given `offset`. -/
def writeBack (stack : List Value) : List Parameter → Nat → List Value → Exec (List Value)
  | [], _, args => .ok args
  | p :: ps, offset, args =>
    if p.out then do
      let (offset, args) ← forDown (fun _ (st : Nat × List Value) => do
          let v ← elemAt stack st.1
          let args ← assignAt st.2 st.1 v
          pure (st.1 + 1, args)) (p.columns * p.rows) (offset, args)
      writeBack stack ps offset args
    else writeBack stack ps (offset + p.columns * p.rows) args

/-- The method `Interpreter::run(f, args, inputs)` on an interpreter in state `m`: the
array `args` after the call together with the final state, whose `fStack` is what the
returned pointer views. -/
def run (T : Target) (fuel : Nat) (f : ByteCodeFunction) (args inputs : List Value)
    (m : Interpreter) : Outcome (List Value × Interpreter) :=
  match setup f args inputs m with
  | .error e => .fault e
  | .ok m =>
    match runLoop T f.fCode fuel 0 m with
    | .timeout => .timeout
    | .fault e => .fault e
    | .finished m =>
      match writeBack m.fStack f.fParameters 0 args with
      | .error e => .fault e
      | .ok args => .finished (args, m)

/-! ## A concrete target

The numbering below counts the enumerators from 0 in the order of the type
`ByteCodeInstruction` above; the float unit is left trivial. It serves to run the
embedding on concrete byte-code. -/

/-- The enumerators in the order of `ByteCodeInstruction`, as listed above. -/
def allInstructions : List ByteCodeInstruction :=
  [.kAddF, .kAddI, .kAndB, .kAndI, .kBranch, .kCompareIEQ, .kCompareINEQ,
   .kCompareFEQ, .kCompareFGT, .kCompareFGTEQ, .kCompareFLT, .kCompareFLTEQ, .kCompareFNEQ,
   .kCompareSGT, .kCompareSGTEQ, .kCompareSLT, .kCompareSLTEQ,
   .kCompareUGT, .kCompareUGTEQ, .kCompareULT, .kCompareULTEQ,
   .kConditionalBranch, .kDebugPrint, .kDivideF, .kDivideS, .kDivideU,
   .kDup, .kDupDown, .kFloatToInt, .kLoad, .kLoadGlobal, .kLoadSwizzle,
   .kMultiplyF, .kMultiplyS, .kMultiplyU, .kNegateF, .kNegateS, .kNop, .kNot, .kOrB, .kOrI,
   .kParameter, .kPop, .kPushImmediate, .kRemainderS, .kRemainderU, .kReturn,
   .kSignedToFloat, .kStore, .kStoreGlobal, .kStoreSwizzle,
   .kSubtractF, .kSubtractI, .kSwizzle, .kUnsignedToFloat, .kVector]

/-- A target numbering the enumerators from 0 in the order of `allInstructions`. -/
def demoTarget : Target where
  decode := fun b => allInstructions[b]?
  boolPad := fun _ _ _ => 0
  addF := fun a _ => a
  subF := fun a _ => a
  mulF := fun a _ => a
  divF := fun a _ => a
  eqF := fun a b => a == b
  neF := fun a b => a != b
  gtF := fun _ _ => false
  geF := fun _ _ => false
  ltF := fun _ _ => false
  leF := fun _ _ => false
  negF := fun a => a
  floatToInt := fun a => a
  signedToFloat := fun i => ofSigned i
  unsignedToFloat := fun u => ofUnsigned u

/-- The demo target with another content of the bytes that `Value(bool)` leaves
indeterminate: the three upper bytes of the left operand. -/
def keepTarget : Target := { demoTarget with boolPad := fun _ a _ => a / 256 }

/-! ## Byte-code of the scenarios -/

/-- The four bytes of a 32-bit immediate, low byte first. -/
def le32 (v : Nat) : List Nat := [v % 256, v / 256 % 256, v / 65536 % 256, v / 16777216 % 256]

/-- The byte-code `pushImmediate a, pushImmediate b, addI, return 1`, the opcodes being
the bytes `nop`, `push`, `add`, `ret`; three `nop` before each `pushImmediate` put its
immediate at the offsets 4 and 12. -/
def addProgram (nop push add ret a b : Nat) : List Nat :=
  [nop, nop, nop, push] ++ le32 a ++ [nop, nop, nop, push] ++ le32 b ++ [add, ret, 1]

/-- A function without parameters, locals, globals or inputs around a body. -/
def bareFunction (code : List Nat) : ByteCodeFunction :=
  { fParameterCount := 0, fLocalCount := 0, fCode := code, fGlobalCount := 0,
    fInputSlots := [], fParameters := [] }

/-- The write cursor of the spec's post-processing after the parameters `ps`: the sum
of their widths `columns * rows`. -/
def widthSum (ps : List Parameter) : Nat := (ps.map (fun p => p.columns * p.rows)).sum

/-- The function of scenario 4 on the demo target: a width-1 parameter that is not
"out" followed by a width-2 "out" parameter; the body stores 77 to slot 1 and 88 to
slot 2 (`pushImmediate 1, pushImmediate 77, store, pushImmediate 2, pushImmediate 88,
store`) and ends with `return 0`. -/
def outScenario : ByteCodeFunction :=
  { fParameterCount := 3, fLocalCount := 0,
    fCode := [37, 37, 37, 43, 1, 0, 0, 0, 37, 37, 37, 43, 77, 0, 0, 0, 48,
              37, 37, 43, 2, 0, 0, 0, 37, 37, 37, 43, 88, 0, 0, 0, 48, 46, 0],
    fGlobalCount := 0, fInputSlots := [],
    fParameters := [⟨false, 1, 1⟩, ⟨true, 2, 1⟩] }

/-- A function with two parameter components, one local and three globals, of which
the slots 2 and 0 are input slots; its body is `return 0` on the demo target. -/
def inputsExample : ByteCodeFunction :=
  { fParameterCount := 2, fLocalCount := 1, fCode := [46, 0], fGlobalCount := 3,
    fInputSlots := [2, 0], fParameters := [] }

/-- The two's-complement reading of a 32-bit pattern `a < 2 ^ 32`, in the words of the
spec: patterns with the top bit set stand for `a - 2 ^ 32`. -/
def twosComplement (a : Nat) : Int := if a < 2 ^ 31 then (a : Int) else (a : Int) - 2 ^ 32

/-- What the spec asks of the eight ordered integer comparisons on the patterns `a`
(below) and `b` (top): the unsigned ones compare the patterns as natural numbers, the
signed ones compare their two's-complement readings. -/
def compareSpec : ByteCodeInstruction → Nat → Nat → Option Bool
  | .kCompareUGT, a, b => some (decide (a > b))
  | .kCompareUGTEQ, a, b => some (decide (a ≥ b))
  | .kCompareULT, a, b => some (decide (a < b))
  | .kCompareULTEQ, a, b => some (decide (a ≤ b))
  | .kCompareSGT, a, b => some (decide (twosComplement a > twosComplement b))
  | .kCompareSGTEQ, a, b => some (decide (twosComplement a ≥ twosComplement b))
  | .kCompareSLT, a, b => some (decide (twosComplement a < twosComplement b))
  | .kCompareSLTEQ, a, b => some (decide (twosComplement a ≤ twosComplement b))
  | _, _, _ => none

/-- The byte-code for `a > b ? a : b`: `pushImmediate a, pushImmediate b, compareSGT,
conditionalBranch 30, pushImmediate b, return 1`, and at offset 30
`pushImmediate a, return 1`; the opcodes are the bytes `nop`, `push`, `sgt`, `cbr`,
`ret`, and `nop` bytes put every immediate at a multiple of 4 (offsets 4, 12, 24, 32)
and the branch target at the even offset 18. -/
def maxProgram (nop push sgt cbr ret a b : Nat) : List Nat :=
  [nop, nop, nop, push] ++ le32 a ++ [nop, nop, nop, push] ++ le32 b ++ [sgt, cbr, 30, 0]
    ++ [nop, nop, nop, push] ++ le32 b ++ [ret, 1] ++ [nop, push] ++ le32 a ++ [ret, 1]

/-- The quotient of `a` by `b` truncated toward zero, in the words of the spec: the
quotient of the magnitudes, rounded down, with the sign of `a` times the sign of `b`. -/
def truncQuotient (a b : Int) : Int :=
  Int.sign a * Int.sign b * ((a.natAbs / b.natAbs : Nat) : Int)

/-- What the spec asks of the slot `q` that replaces `a` (below) and `b` (top) under the
four integer division opcodes: for `divideS` the truncated quotient of the signed
readings; for `remainderS` the `r` with `a = b * trunc(a / b) + r`, its sign following
the dividend; for `divideU` and `remainderU` the quotient and remainder of the patterns
read as natural numbers. -/
def divisionSpec (inst : ByteCodeInstruction) (a b q : Nat) : Bool :=
  match inst with
  | .kDivideS =>
    decide (q < 2 ^ 32 ∧
      twosComplement q = truncQuotient (twosComplement a) (twosComplement b))
  | .kRemainderS =>
    decide (q < 2 ^ 32 ∧
      twosComplement a
        = twosComplement b * truncQuotient (twosComplement a) (twosComplement b)
          + twosComplement q ∧
      (0 ≤ twosComplement a → 0 ≤ twosComplement q) ∧
      (twosComplement a ≤ 0 → twosComplement q ≤ 0))
  | .kDivideU => decide (q < 2 ^ 32 ∧ q = a / b)
  | .kRemainderU => decide (q < 2 ^ 32 ∧ q = a % b ∧ a = b * (a / b) + q)
  | _ => false

/-- A function on the demo target with one "out" parameter of width 1 whose body is
`pushImmediate 99, return 1`: the return value overwrites the slot of the parameter. -/
def returnScenario : ByteCodeFunction :=
  { fParameterCount := 1, fLocalCount := 0,
    fCode := [37, 37, 37, 43, 99, 0, 0, 0, 46, 1],
    fGlobalCount := 0, fInputSlots := [],
    fParameters := [⟨true, 1, 1⟩] }

/-- The `int32_t` that the machine leaves for the exact result `i` of `+`, `-` or `*`:
the integer congruent to `i` modulo `2 ^ 32` between `-2 ^ 31` and `2 ^ 31 - 1`. -/
def wrap32 (i : Int) : Int := (i + 2 ^ 31) % 2 ^ 32 - 2 ^ 31

/-- The integer instantiations of `VECTOR_BINARY_OP`: the arithmetic, division and
comparison opcodes on `int32_t` and `uint32_t`. -/
def integerBinary : List ByteCodeInstruction :=
  [.kAddI, .kSubtractI, .kMultiplyS, .kMultiplyU, .kDivideS, .kDivideU, .kRemainderS,
   .kRemainderU, .kCompareIEQ, .kCompareINEQ, .kCompareSGT, .kCompareSGTEQ, .kCompareSLT,
   .kCompareSLTEQ, .kCompareUGT, .kCompareUGTEQ, .kCompareULT, .kCompareULTEQ]

/-- Whether `a op b` has a value for the operands `a` (left) and `b` (right) of one lane:
a division or remainder needs a non-zero divisor, and the signed ones operands other
than `-2 ^ 31` and `-1`. -/
def laneDefined (inst : ByteCodeInstruction) (a b : Nat) : Bool :=
  match inst with
  | .kDivideS | .kRemainderS =>
    decide (b ≠ 0 ∧ ¬ (twosComplement a = -2 ^ 31 ∧ twosComplement b = -1))
  | .kDivideU | .kRemainderU => decide (b ≠ 0)
  | _ => true

/-- What the spec asks of the slot `q` that an integer opcode leaves for the operands `a`
(left) and `b` (right), "native machine semantics for the claimed type": the wrapped sum,
difference or product of the signed readings; the product of the patterns modulo
`2 ^ 32`; for a division what `divisionSpec` asks; for a comparison a slot whose boolean
view is the comparison of the signed readings, or of the patterns for the unsigned
ones. -/
def laneSpec (inst : ByteCodeInstruction) (a b q : Nat) : Bool :=
  match inst with
  | .kAddI =>
    decide (q < 2 ^ 32 ∧ twosComplement q = wrap32 (twosComplement a + twosComplement b))
  | .kSubtractI =>
    decide (q < 2 ^ 32 ∧ twosComplement q = wrap32 (twosComplement a - twosComplement b))
  | .kMultiplyS =>
    decide (q < 2 ^ 32 ∧ twosComplement q = wrap32 (twosComplement a * twosComplement b))
  | .kMultiplyU => decide (q = a * b % 2 ^ 32)
  | .kCompareIEQ =>
    decide (q < 2 ^ 32 ∧ fBool q = decide (twosComplement a = twosComplement b))
  | .kCompareINEQ =>
    decide (q < 2 ^ 32 ∧ fBool q = decide (twosComplement a ≠ twosComplement b))
  | .kDivideS | .kDivideU | .kRemainderS | .kRemainderU => divisionSpec inst a b q
  | _ =>
    match compareSpec inst a b with
    | some r => decide (q < 2 ^ 32 ∧ fBool q = r)
    | none => false

/-- A function without parameters whose body on the demo numbering is
`pushImmediate 0x80000000, pushImmediate 1, compareUGT, return 1`. -/
def compareScenario : ByteCodeFunction :=
  bareFunction [37, 37, 37, 43, 0, 0, 0, 128, 37, 37, 37, 43, 1, 0, 0, 0, 17, 46, 1]

/-! ## The case labels of the two switches -/

/-- The case labels of the outer switch of `Interpreter::run()`, in source order. -/
def loopCases : List ByteCodeInstruction :=
  [.kAddI, .kAddF, .kBranch, .kCompareIEQ, .kCompareFEQ, .kCompareINEQ, .kCompareFNEQ,
   .kCompareSGT, .kCompareUGT, .kCompareFGT, .kCompareSGTEQ, .kCompareUGTEQ, .kCompareFGTEQ,
   .kCompareSLT, .kCompareULT, .kCompareFLT, .kCompareSLTEQ, .kCompareULTEQ, .kCompareFLTEQ,
   .kConditionalBranch, .kDebugPrint, .kDivideS, .kDivideU, .kDivideF, .kDup, .kDupDown,
   .kFloatToInt, .kSignedToFloat, .kUnsignedToFloat, .kLoad, .kLoadGlobal, .kLoadSwizzle,
   .kMultiplyS, .kMultiplyU, .kMultiplyF, .kNot, .kNegateF, .kNegateS, .kNop, .kPop,
   .kPushImmediate, .kRemainderS, .kRemainderU, .kReturn, .kStore, .kStoreGlobal,
   .kStoreSwizzle, .kSubtractI, .kSubtractF, .kSwizzle, .kVector]

/-- The case labels of the inner switch under `kVector`, in source order. -/
def vectorCases : List ByteCodeInstruction :=
  [.kAddI, .kAddF, .kBranch, .kCompareIEQ, .kCompareFEQ, .kCompareINEQ, .kCompareFNEQ,
   .kCompareSGT, .kCompareUGT, .kCompareFGT, .kCompareSGTEQ, .kCompareUGTEQ, .kCompareFGTEQ,
   .kCompareSLT, .kCompareULT, .kCompareFLT, .kCompareSLTEQ, .kCompareULTEQ, .kCompareFLTEQ,
   .kConditionalBranch, .kDivideS, .kDivideU, .kDivideF, .kFloatToInt, .kSignedToFloat,
   .kUnsignedToFloat, .kLoad, .kLoadGlobal, .kMultiplyS, .kMultiplyU, .kMultiplyF,
   .kRemainderS, .kRemainderU, .kStore, .kSubtractI, .kSubtractF]

/-- Whether a switch with the given case labels has a case for the decoded byte; a byte
that is no enumerator has none. -/
def hasCase (labels : List ByteCodeInstruction) : Option ByteCodeInstruction → Bool
  | some inst => decide (inst ∈ labels)
  | none => false

/-! ## Basic facts -/

theorem bind_ok_eq {α β : Type} (a : α) (f : α → Exec β) :
    ((Except.ok a : Exec α) >>= f) = f a := rfl

theorem bind_error_eq {α β : Type} (e : Fault) (f : α → Exec β) :
    ((Except.error e : Exec α) >>= f) = Except.error e := rfl

theorem elemAt_of {xs : List Value} {i : Int} {n : Nat} {v : Value}
    (hi : i = (n : Int)) (h : xs[n]? = some v) : elemAt xs i = .ok v := by
  subst hi
  simp [elemAt, h]

theorem assignAt_of {xs : List Value} {i : Int} {n : Nat} (v : Value)
    (hi : i = (n : Int)) (hn : n < xs.length) : assignAt xs i v = .ok (xs.set n v) := by
  subst hi
  simp [assignAt, hn]

theorem pop_concat (s g : List Value) (v : Value) :
    Interpreter.pop ⟨s ++ [v], g⟩ = .ok (v, ⟨s, g⟩) := by
  simp [Interpreter.pop]

theorem back_concat (s g : List Value) (v : Value) :
    Interpreter.back ⟨s ++ [v], g⟩ = .ok v := by
  simp [Interpreter.back]

theorem setBack_concat (s g : List Value) (v w : Value) :
    Interpreter.setBack ⟨s ++ [v], g⟩ w = .ok ⟨s ++ [w], g⟩ := by
  simp [Interpreter.setBack]

theorem step_eq_execute {T : Target} {code : List Nat} {ip b : Nat} (m : Interpreter)
    (hop : code[ip]? = some b) :
    step T code ip m = execute T code (T.decode b) (ip + 1) m := by
  simp [step, READ8, hop, bind, Except.bind]

theorem READ8_of {code : List Nat} {ip b : Nat} (h : code[ip]? = some b) :
    READ8 code ip = .ok (b, ip + 1) := by
  simp [READ8, h]

/-! ## `kReturn` -/

/-- The copy loop of `kReturn`, started at index `i` on a stack whose slots below `i`
already hold the returned values and whose other slots are the original ones. -/
theorem return_loop (orig g : List Value) (count : Nat) (hle : count ≤ orig.length) :
    ∀ (n i : Nat) (cur : List Value), i + n = count → cur.length = orig.length →
      (∀ j, j < i → cur[j]? = orig[orig.length - count + j]?) →
      (∀ j, i ≤ j → cur[j]? = orig[j]?) →
      ∃ s', forUp (fun i (m : Interpreter) => do
          let v ← elemAt m.fStack ((m.fStack.length : Int) - count + i)
          m.setStack i v) n i ⟨cur, g⟩ = .ok ⟨s', g⟩ ∧ s'.length = orig.length ∧
        (∀ j, j < count → s'[j]? = orig[orig.length - count + j]?) ∧
        (∀ j, count ≤ j → s'[j]? = orig[j]?) := by
  intro n
  induction n with
  | zero =>
    intro i cur hi hlen hlow hhigh
    have : i = count := by omega
    subst this
    exact ⟨cur, rfl, hlen, hlow, hhigh⟩
  | succ n ih =>
    intro i cur hi hlen hlow hhigh
    have hidx : orig.length - count + i < orig.length := by omega
    have hread : cur[orig.length - count + i]? = some (orig[orig.length - count + i]) := by
      rw [hhigh _ (by omega)]
      exact List.getElem?_eq_getElem hidx
    have h1 : elemAt cur ((cur.length : Int) - count + i) = .ok (orig[orig.length - count + i]) :=
      elemAt_of (by rw [hlen]; omega) hread
    have h2 : assignAt cur (i : Int) (orig[orig.length - count + i])
        = .ok (cur.set i (orig[orig.length - count + i])) :=
      assignAt_of _ rfl (by omega)
    obtain ⟨s', hs, hl, hlo, hhi⟩ := ih (i + 1) (cur.set i (orig[orig.length - count + i]))
      (by omega) (by simpa using hlen)
      (by
        intro j hj
        rw [List.getElem?_set]
        by_cases hji : i = j
        · subst hji
          simp [show i < cur.length by omega, List.getElem?_eq_getElem hidx]
        · simp [hji]
          exact hlow j (by omega))
      (by
        intro j hj
        rw [List.getElem?_set]
        have : i ≠ j := by omega
        simp [this]
        exact hhigh j (by omega))
    refine ⟨s', ?_, hl, hlo, hhi⟩
    rw [forUp]
    simp only [h1, Interpreter.setStack, h2, bind_ok_eq, bind, Except.bind, pure, Except.pure]
    exact hs

/-- The instruction `kReturn` on a stack that holds at least `count` slots. -/
theorem step_kReturn (T : Target) (code : List Nat) (ip b count : Nat)
    (s g : List Value) (hop : code[ip]? = some b) (hdec : T.decode b = some .kReturn)
    (hcount : code[ip + 1]? = some count) (hle : count ≤ s.length) :
    ∃ s', step T code ip ⟨s, g⟩ = .ok (.returned ⟨s', g⟩) ∧
      (∀ fuel, runLoop T code (fuel + 1) ip ⟨s, g⟩ = .finished ⟨s', g⟩) ∧
      s'.length = s.length ∧
      (∀ i, i < count → s'[i]? = s[s.length - count + i]?) ∧
      (∀ i, count ≤ i → s'[i]? = s[i]?) := by
  obtain ⟨s', hs, hl, hlo, hhi⟩ := return_loop s g count hle count 0 s (by omega) rfl
    (by intro j hj; omega) (by intro j _; rfl)
  have hstep : step T code ip ⟨s, g⟩ = .ok (.returned ⟨s', g⟩) := by
    rw [step_eq_execute _ hop, hdec]
    simp only [execute, binaryCase, READ8_of hcount, bind_ok_eq]
    simp only [bind, Except.bind] at hs ⊢
    rw [hs]
    rfl
  refine ⟨s', hstep, ?_, hl, hlo, hhi⟩
  intro fuel
  simp [runLoop, hstep]

/-- C1: on a stack of length `n` and for `count ≤ n`, `return(count)` leaves at every
position `i < count` the slot that was at `n - count + i` (the former top `count` slots
in their order, also when the two ranges overlap), keeps the length and every slot from
`count` on, leaves the globals alone, and exits the loop. -/
theorem C1_return_copies_top (T : Target) (code : List Nat) (ip b count : Nat)
    (s g : List Value) (hop : code[ip]? = some b) (hdec : T.decode b = some .kReturn)
    (hcount : code[ip + 1]? = some count) (hle : count ≤ s.length) :
    ∃ s', step T code ip ⟨s, g⟩ = .ok (.returned ⟨s', g⟩) ∧
      (∀ fuel, runLoop T code (fuel + 1) ip ⟨s, g⟩ = .finished ⟨s', g⟩) ∧
      s'.length = s.length ∧
      (∀ i, i < count → s'[i]? = s[s.length - count + i]?) ∧
      (∀ i, count ≤ i → s'[i]? = s[i]?) :=
  step_kReturn T code ip b count s g hop hdec hcount hle

/-- C1 at a concrete input: `return(2)` on the three-slot stack `[1, 2, 3]`, where the
source range `1..2` and the destination range `0..1` overlap. -/
theorem C1_return_copies_top_witness :
    ∃ s', step demoTarget [46, 2] 0 ⟨[1, 2, 3], []⟩ = .ok (.returned ⟨s', []⟩) ∧
      (∀ fuel, runLoop demoTarget [46, 2] (fuel + 1) 0 ⟨[1, 2, 3], []⟩ = .finished ⟨s', []⟩) ∧
      s'.length = [1, 2, 3].length ∧
      (∀ i, i < 2 → s'[i]? = [1, 2, 3][[1, 2, 3].length - 2 + i]?) ∧
      (∀ i, 2 ≤ i → s'[i]? = [1, 2, 3][i]?) :=
  C1_return_copies_top demoTarget [46, 2] 0 46 2 [1, 2, 3] [] (by decide) (by decide)
    (by decide) (by decide)

/-! ## Single instructions -/

theorem runLoop_next {T : Target} {code : List Nat} {ip ip' : Nat} {m m' : Interpreter}
    (fuel : Nat) (h : step T code ip m = .ok (.next ip' m')) :
    runLoop T code (fuel + 1) ip m = runLoop T code fuel ip' m' := by
  simp [runLoop, h]

theorem runLoop_returned {T : Target} {code : List Nat} {ip : Nat} {m m' : Interpreter}
    (fuel : Nat) (h : step T code ip m = .ok (.returned m')) :
    runLoop T code (fuel + 1) ip m = .finished m' := by
  simp [runLoop, h]

theorem runLoop_fault {T : Target} {code : List Nat} {ip : Nat} {m : Interpreter} {e : Fault}
    (fuel : Nat) (h : step T code ip m = .error e) :
    runLoop T code (fuel + 1) ip m = .fault e := by
  simp [runLoop, h]

theorem step_kNop {T : Target} {code : List Nat} {ip b : Nat} (m : Interpreter)
    (hop : code[ip]? = some b) (hdec : T.decode b = some .kNop) :
    step T code ip m = .ok (.next (ip + 1) m) := by
  rw [step_eq_execute _ hop, hdec]
  rfl

theorem step_kPushImmediate {T : Target} {code : List Nat} {ip b w x y z : Nat}
    (m : Interpreter) (hop : code[ip]? = some b) (hdec : T.decode b = some .kPushImmediate)
    (hal : (ip + 1) % 4 = 0) (h0 : code[ip + 1]? = some w) (h1 : code[ip + 2]? = some x)
    (h2 : code[ip + 3]? = some y) (h3 : code[ip + 4]? = some z) :
    step T code ip m = .ok (.next (ip + 5)
      (m.push (ofUnsigned (w + 256 * x + 65536 * y + 16777216 * z)))) := by
  rw [step_eq_execute _ hop, hdec]
  simp [execute, binaryCase, READ32, SkASSERT, hal, h0, h1, h2, h3, bind, Except.bind, pure,
    Except.pure]

theorem step_binary {T : Target} {code : List Nat} {ip b : Nat} {inst : ByteCodeInstruction}
    {f : Value → Value → Exec Value} {x y r : Value} (s g : List Value)
    (hop : code[ip]? = some b) (hdec : T.decode b = some inst)
    (hf : binaryCase T inst = some f) (hr : f x y = .ok r) :
    step T code ip ⟨s ++ [x, y], g⟩ = .ok (.next (ip + 1) ⟨s ++ [r], g⟩) := by
  rw [step_eq_execute _ hop, hdec]
  have hpop : Interpreter.pop ⟨s ++ [x, y], g⟩ = .ok (y, ⟨s ++ [x], g⟩) := by
    have := pop_concat (s ++ [x]) g y
    simpa using this
  simp [execute, hf, BINARY_OP, hpop, back_concat, hr, setBack_concat, bind, Except.bind, pure,
    Except.pure]

theorem le32_value (a : Nat) (ha : a < 2 ^ 32) :
    a % 256 + 256 * (a / 256 % 256) + 65536 * (a / 65536 % 256)
      + 16777216 * (a / 16777216 % 256) = a := by
  omega

theorem ofSigned_add (a b : Nat) : ofSigned (fSigned a + fSigned b) = (a + b) % 2 ^ 32 := by
  unfold ofSigned fSigned
  split <;> split <;> omega

theorem ofUnsigned_of_lt {a : Nat} (ha : a < 2 ^ 32) : ofUnsigned a = a := by
  unfold ofUnsigned
  omega

/-- C2: for 32-bit `a` and `b`, the function without parameters, locals and globals
whose body is `pushImmediate a, pushImmediate b, addI, return 1` (immediates aligned by
`nop`) finishes within ten turns of the loop, whatever state the interpreter was left
in, and its result slot 0 holds `a + b` modulo `2 ^ 32`. -/
theorem C2_push_add_return (T : Target) (nop push add ret a b fuel : Nat) (m0 : Interpreter)
    (hnop : T.decode nop = some .kNop) (hpush : T.decode push = some .kPushImmediate)
    (hadd : T.decode add = some .kAddI) (hret : T.decode ret = some .kReturn)
    (ha : a < 2 ^ 32) (hb : b < 2 ^ 32) (hfuel : 10 ≤ fuel) :
    run T fuel (bareFunction (addProgram nop push add ret a b)) [] [] m0
      = .finished ([], ⟨[(a + b) % 2 ^ 32], []⟩) := by
  obtain ⟨k, rfl⟩ : ∃ k, fuel = k + 10 := ⟨fuel - 10, by omega⟩
  have hsetup : setup (bareFunction (addProgram nop push add ret a b)) [] [] m0
      = .ok ⟨[], []⟩ := by
    simp [setup, bareFunction, forUp, forDown, bind, Except.bind]
  have hloop : runLoop T (addProgram nop push add ret a b) (k + 10) 0 ⟨[], []⟩
      = .finished ⟨[(a + b) % 2 ^ 32], []⟩ := by
    rw [runLoop_next _ (step_kNop _ (b := nop) (by simp [addProgram]) hnop)]
    rw [runLoop_next _ (step_kNop _ (b := nop) (by simp [addProgram]) hnop)]
    rw [runLoop_next _ (step_kNop _ (b := nop) (by simp [addProgram]) hnop)]
    rw [runLoop_next _ (step_kPushImmediate _ (b := push) (w := a % 256)
      (x := a / 256 % 256) (y := a / 65536 % 256) (z := a / 16777216 % 256)
      (by simp [addProgram]) hpush (by decide) (by simp [addProgram, le32])
      (by simp [addProgram, le32]) (by simp [addProgram, le32]) (by simp [addProgram, le32]))]
    rw [le32_value a ha, ofUnsigned_of_lt ha]
    rw [runLoop_next _ (step_kNop _ (b := nop) (by simp [addProgram, le32]) hnop)]
    rw [runLoop_next _ (step_kNop _ (b := nop) (by simp [addProgram, le32]) hnop)]
    rw [runLoop_next _ (step_kNop _ (b := nop) (by simp [addProgram, le32]) hnop)]
    rw [runLoop_next _ (step_kPushImmediate _ (b := push) (w := b % 256)
      (x := b / 256 % 256) (y := b / 65536 % 256) (z := b / 16777216 % 256)
      (by simp [addProgram, le32]) hpush (by decide) (by simp [addProgram, le32])
      (by simp [addProgram, le32]) (by simp [addProgram, le32]) (by simp [addProgram, le32]))]
    rw [le32_value b hb, ofUnsigned_of_lt hb]
    have hst : (Interpreter.push (Interpreter.push ⟨[], []⟩ a) b) = ⟨[] ++ [a, b], []⟩ := rfl
    rw [hst]
    rw [runLoop_next _ (step_binary (f := int32Op (· + ·)) (r := (a + b) % 2 ^ 32) [] []
      (b := add) (by simp [addProgram, le32]) hadd rfl
      (by simp only [int32Op]; rw [ofSigned_add])) ]
    apply runLoop_returned
    rw [step_eq_execute (b := ret) _ (by simp [addProgram, le32]), hret]
    have hc : READ8 (addProgram nop push add ret a b) (0 + 1 + 1 + 1 + 5 + 1 + 1 + 1 + 5 + 1 + 1)
        = .ok (1, 19) := by
      simp [READ8, addProgram, le32]
    simp [execute, binaryCase, hc, forUp, elemAt, Interpreter.setStack, assignAt, bind,
      Except.bind, pure, Except.pure]
  simp only [run, hsetup]
  have hcode : (bareFunction (addProgram nop push add ret a b)).fCode
      = addProgram nop push add ret a b := rfl
  rw [hcode, hloop]
  simp [bareFunction, writeBack]

/-- C2 at `a = 2`, `b = 3` on the demo target: the result is `[5]`. -/
theorem C2_push_add_return_witness :
    run demoTarget 10 (bareFunction (addProgram 37 43 1 46 2 3)) [] [] ⟨[7], [8]⟩
      = .finished ([], ⟨[5], []⟩) :=
  C2_push_add_return demoTarget 37 43 1 46 2 3 10 ⟨[7], [8]⟩ (by decide) (by decide)
    (by decide) (by decide) (by decide) (by decide) (by decide)

/-! ## The lane-width binary operators -/

theorem exists_concat_of_length_succ {α : Type} {n : Nat} (l : List α) (h : l.length = n + 1) :
    ∃ l' a, l = l' ++ [a] ∧ l'.length = n := by
  have hne : l ≠ [] := by
    intro h0
    simp [h0] at h
  refine ⟨l.dropLast, l.getLast hne, (List.dropLast_append_getLast hne).symm, ?_⟩
  simp [h]

theorem drop_set_self {α : Type} (a : α) :
    ∀ (l : List α) (n : Nat), n < l.length → (l.set n a).drop n = a :: l.drop (n + 1) := by
  intro l
  induction l with
  | nil => intro n h; simp at h
  | cons x xs ih =>
    intro n h
    cases n with
    | zero => simp
    | succ n =>
      simp only [List.set_cons_succ, List.drop_succ_cons]
      exact ih n (by simpa using h)

theorem pop_append_concat (s l g : List Value) (v : Value) :
    Interpreter.pop ⟨s ++ (l ++ [v]), g⟩ = .ok (v, ⟨s ++ l, g⟩) := by
  rw [← List.append_assoc]
  exact pop_concat (s ++ l) g v

/-- The first loop of `VECTOR_BINARY_OP`: the `n` topmost slots move to the first `n`
elements of the buffer, in stack order. -/
theorem vector_pop_loop (s g : List Value) :
    ∀ (n : Nat) (R : List Value) (buf : Buffer), R.length = n → n ≤ buf.length →
      forDown (fun i (st : Buffer × Interpreter) => do
        let (v, m) ← st.2.pop
        let result ← bufferSet st.1 i v
        pure (result, m)) n (buf, ⟨s ++ R, g⟩)
      = .ok (R.map some ++ buf.drop n, ⟨s, g⟩) := by
  intro n
  induction n with
  | zero =>
    intro R buf hR _
    have : R = [] := List.length_eq_zero.mp hR
    subst this
    simp [forDown]
  | succ n ih =>
    intro R buf hR hbuf
    obtain ⟨R', r, rfl, hR'⟩ := exists_concat_of_length_succ R hR
    have hset : bufferSet buf n r = .ok (buf.set n (some r)) := by
      simp [bufferSet, show n < buf.length by omega]
    rw [forDown]
    simp only [pop_append_concat, hset, bind_ok_eq, bind, Except.bind, pure, Except.pure]
    have := ih R' (buf.set n (some r)) hR' (by simp; omega)
    simp only [bind, Except.bind, pure, Except.pure] at this
    rw [this, drop_set_self _ _ _ (by omega)]
    simp

/-- The second loop of `VECTOR_BINARY_OP`: lane `i` pops the left operand `L[i]`, pairs
it with the right operand `R[i]` kept in the buffer, and leaves the result there. -/
theorem vector_apply_loop (f : Value → Value → Exec Value) (s g : List Value) (rest : Buffer) :
    ∀ (n : Nat) (L R res : List Value), L.length = n → R.length = n → res.length = n →
      List.zipWith f L R = res.map Except.ok →
      forDown (fun i (st : Buffer × Interpreter) => do
        let (a, m) ← st.2.pop
        let b ← bufferGet st.1 i
        let r ← f a b
        let result ← bufferSet st.1 i r
        pure (result, m)) n (R.map some ++ rest, ⟨s ++ L, g⟩)
      = .ok (res.map some ++ rest, ⟨s, g⟩) := by
  intro n
  induction n generalizing rest with
  | zero =>
    intro L R res hL hR hres _
    have h1 : L = [] := List.length_eq_zero.mp hL
    have h2 : R = [] := List.length_eq_zero.mp hR
    have h3 : res = [] := List.length_eq_zero.mp hres
    subst h1 h2 h3
    simp [forDown]
  | succ n ih =>
    intro L R res hL hR hres hz
    obtain ⟨L', a, rfl, hL'⟩ := exists_concat_of_length_succ L hL
    obtain ⟨R', b, rfl, hR'⟩ := exists_concat_of_length_succ R hR
    obtain ⟨res', r, rfl, hres'⟩ := exists_concat_of_length_succ res hres
    rw [List.zipWith_append _ _ _ _ _ (by omega)] at hz
    simp only [List.zipWith_cons_cons, List.zipWith_nil_right, List.map_append, List.map_cons,
      List.map_nil] at hz
    have hlen : (List.zipWith f L' R').length
        = (res'.map (Except.ok : Value → Exec Value)).length := by
      simp [hL', hR', hres']
    obtain ⟨hz', hlast⟩ := List.append_inj hz hlen
    have hr : f a b = .ok r := by simpa using hlast
    have hget : bufferGet ((R' ++ [b]).map some ++ rest) n = .ok b := by
      have : ((R' ++ [b]).map some ++ rest)[n]? = some (some b) := by
        rw [List.map_append, List.append_assoc, List.getElem?_append_right (by simp [hR'])]
        simp [hR']
      simp only [bufferGet, this]
    have hset : bufferSet ((R' ++ [b]).map some ++ rest) n r
        = .ok (R'.map some ++ (some r :: rest)) := by
      simp [bufferSet, hR', List.set_append_left, List.set_append_right]
    rw [forDown]
    simp only [pop_append_concat, hget, hr, hset, bind_ok_eq, bind, Except.bind, pure,
      Except.pure]
    have := ih (some r :: rest) L' R' res' hL' hR' hres' hz'
    simp only [bind, Except.bind, pure, Except.pure] at this
    rw [this]
    simp

/-- The third loop of `VECTOR_BINARY_OP`: the buffer elements from `i` on are pushed
in ascending order. -/
theorem vector_push_loop (g : List Value) (res : List Value) (rest : Buffer) :
    ∀ (n i : Nat) (acc : List Value), i + n = res.length →
      forUp (fun i (m : Interpreter) => do
        let v ← bufferGet (res.map some ++ rest) i
        pure (m.push v)) n i ⟨acc, g⟩
      = .ok ⟨acc ++ res.drop i, g⟩ := by
  intro n
  induction n with
  | zero =>
    intro i acc hi
    simp [forUp, List.drop_of_length_le (show res.length ≤ i by omega)]
  | succ n ih =>
    intro i acc hi
    have hlt : i < res.length := by omega
    have hget : bufferGet (res.map some ++ rest) i = .ok res[i] := by
      simp [bufferGet, List.getElem?_append_left, hlt, List.getElem?_eq_getElem]
    rw [forUp]
    simp only [hget, bind_ok_eq, bind, Except.bind, pure, Except.pure, Interpreter.push]
    have := ih (i + 1) (acc ++ [res[i]]) (by omega)
    simp only [bind, Except.bind, pure, Except.pure, Interpreter.push] at this
    rw [this, List.drop_eq_getElem_cons hlt]
    simp

theorem newBuffer_length (n : Nat) : (newBuffer n).length = n := by
  simp [newBuffer]

/-- The macro body `VECTOR_BINARY_OP` on a stack `s ++ L ++ R` with `count` lanes. -/
theorem VECTOR_BINARY_OP_spec (f : Value → Value → Exec Value) (count : Nat)
    (s L R res g : List Value) (hcount : count ≤ VECTOR_MAX) (hL : L.length = count)
    (hR : R.length = count) (hres : res.length = count)
    (hz : List.zipWith f L R = res.map Except.ok) :
    VECTOR_BINARY_OP f count ⟨s ++ L ++ R, g⟩ = .ok ⟨s ++ res, g⟩ := by
  have h1 := vector_pop_loop (s ++ L) g count R (newBuffer VECTOR_MAX) hR
    (by rw [newBuffer_length]; exact hcount)
  have h2 := vector_apply_loop f s g ((newBuffer VECTOR_MAX).drop count) count L R res hL hR
    hres hz
  have h3 := vector_push_loop g res ((newBuffer VECTOR_MAX).drop count) count 0 s (by omega)
  unfold VECTOR_BINARY_OP
  simp only [bind, Except.bind, pure, Except.pure] at h1 h2 h3 ⊢
  rw [h1]
  simp only []
  rw [h2]
  simp only []
  rw [h3]
  simp

/-- The instruction `vector(count, op)` for a binary operator `op`. -/
theorem step_vector_binary {T : Target} {code : List Nat} {ip b c count : Nat}
    {inst : ByteCodeInstruction} {f : Value → Value → Exec Value} (s L R res g : List Value)
    (hop : code[ip]? = some b) (hdec : T.decode b = some .kVector)
    (hcnt : code[ip + 1]? = some count) (hsub : code[ip + 2]? = some c)
    (hinst : T.decode c = some inst) (hf : binaryCase T inst = some f)
    (hcount : count ≤ 16) (hL : L.length = count) (hR : R.length = count)
    (hres : res.length = count) (hz : List.zipWith f L R = res.map Except.ok) :
    step T code ip ⟨s ++ L ++ R, g⟩ = .ok (.next (ip + 3) ⟨s ++ res, g⟩) := by
  rw [step_eq_execute _ hop, hdec]
  have hv : binaryCase T .kVector = none := rfl
  simp only [execute, hv, READ8_of hcnt, READ8_of hsub, bind_ok_eq, hinst, executeVector, hf]
  have := VECTOR_BINARY_OP_spec f count s L R res g hcount hL hR hres hz
  simp only [bind, Except.bind, pure, Except.pure] at this ⊢
  rw [this]

/-! ## Lane count 1 against the scalar instructions -/

theorem intCast_of_lt {n : Nat} (h : n < 2 ^ 31) : intCast n = (n : Int) := by
  unfold intCast fSigned
  split <;> omega

theorem fSigned_of_lt {n : Nat} (h : n < 2 ^ 31) : fSigned n = (n : Int) := by
  unfold fSigned
  split <;> omega

theorem fSigned_ofSigned {i : Int} (h1 : -2 ^ 31 ≤ i) (h2 : i < 2 ^ 31) :
    fSigned (ofSigned i) = i := by
  unfold fSigned ofSigned
  split <;> omega

theorem pop_two (s g : List Value) (x y : Value) :
    Interpreter.pop ⟨s ++ [x, y], g⟩ = .ok (y, ⟨s ++ [x], g⟩) := by
  have := pop_concat (s ++ [x]) g y
  simpa using this

/-- The instruction `kStore` on a stack `s ++ [t, v]` whose target `t` lies in `s`. -/
theorem step_kStore {T : Target} {code : List Nat} {ip b : Nat} (s g : List Value)
    (t v : Nat) (hop : code[ip]? = some b) (hdec : T.decode b = some .kStore)
    (ht : t < s.length) (hlen : s.length < 2 ^ 31) :
    step T code ip ⟨s ++ [t, v], g⟩ = .ok (.next (ip + 1) ⟨s.set t v, g⟩) := by
  rw [step_eq_execute _ hop, hdec]
  have hv : binaryCase T .kStore = none := rfl
  have hassert : SkASSERT (decide (fSigned t < intCast s.length)) = .ok () := by
    rw [fSigned_of_lt (by omega), intCast_of_lt hlen]
    simp [SkASSERT, ht]
  have hset : assignAt s (fSigned t) v = .ok (s.set t v) :=
    assignAt_of v (fSigned_of_lt (by omega)) ht
  simp only [execute, hv, pop_two, pop_concat, hassert, Interpreter.setStack, hset, bind_ok_eq,
    bind, Except.bind, pure, Except.pure]

/-- The instruction `kLoad` on a stack `s ++ [t]` whose target `t` lies in `s`. -/
theorem step_kLoad {T : Target} {code : List Nat} {ip b : Nat} (s g : List Value)
    (t : Nat) (hop : code[ip]? = some b) (hdec : T.decode b = some .kLoad)
    (ht : t < s.length) (hlen : s.length < 2 ^ 31) :
    step T code ip ⟨s ++ [t], g⟩ = .ok (.next (ip + 1) ⟨s ++ [s[t]], g⟩) := by
  rw [step_eq_execute _ hop, hdec]
  have hv : binaryCase T .kLoad = none := rfl
  have hassert : SkASSERT (decide (fSigned t < intCast s.length)) = .ok () := by
    rw [fSigned_of_lt (by omega), intCast_of_lt hlen]
    simp [SkASSERT, ht]
  have hget : elemAt s (fSigned t) = .ok s[t] :=
    elemAt_of (fSigned_of_lt (by omega)) (List.getElem?_eq_getElem ht)
  simp only [execute, hv, pop_concat, hassert, hget, Interpreter.push, bind_ok_eq,
    bind, Except.bind, pure, Except.pure]

/-- C4, at the input where it fails: on the stack `[9, 0, 5]` (base 0 under the value 5)
the scalar `store` pops the value and the target and leaves `[5]`, while
`vector(1, store)` writes slot 0 but pops the value only and leaves `[5, 0]`. -/
theorem C4_vector_one_store_differs :
    step demoTarget [48] 0 ⟨[9, 0, 5], []⟩ = .ok (.next 1 ⟨[5], []⟩) ∧
    step demoTarget [55, 1, 48] 0 ⟨[9, 0, 5], []⟩ = .ok (.next 3 ⟨[5, 0], []⟩) :=
  ⟨rfl, rfl⟩

/-- C5: from a stack `s ++ [t, v]` with `t < |s|`, `store` leaves `s` with slot `t`
replaced by `v`; pushing `t` and executing `load` then leaves that stack with `v` pushed
on top. No other slot of `s` and no global changes. The stack size is one that the cast
`(int) fStack.size()` of the source keeps. -/
theorem C5_store_then_load (T : Target) (code : List Nat) (ip ip' b b' : Nat)
    (s g : List Value) (t v : Nat)
    (hop : code[ip]? = some b) (hdec : T.decode b = some .kStore)
    (hop' : code[ip']? = some b') (hdec' : T.decode b' = some .kLoad)
    (ht : t < s.length) (hlen : s.length < 2 ^ 31) :
    step T code ip ⟨s ++ [t, v], g⟩ = .ok (.next (ip + 1) ⟨s.set t v, g⟩) ∧
    step T code ip' (Interpreter.push ⟨s.set t v, g⟩ t)
      = .ok (.next (ip' + 1) ⟨s.set t v ++ [v], g⟩) := by
  refine ⟨step_kStore s g t v hop hdec ht hlen, ?_⟩
  have h := step_kLoad (T := T) (s.set t v) g t hop' hdec' (by simpa using ht)
    (by simpa using hlen)
  simpa using h

/-- C5 at a concrete input: slot 1 of `[7, 8, 9]` is stored to and read back. -/
theorem C5_store_then_load_witness :
    step demoTarget [48, 29] 0 ⟨[7, 8, 9] ++ [1, 5], [3]⟩
        = .ok (.next (0 + 1) ⟨[7, 8, 9].set 1 5, [3]⟩) ∧
    step demoTarget [48, 29] 1 (Interpreter.push ⟨[7, 8, 9].set 1 5, [3]⟩ 1)
      = .ok (.next (1 + 1) ⟨[7, 8, 9].set 1 5 ++ [5], [3]⟩) :=
  C5_store_then_load demoTarget [48, 29] 0 1 48 29 [7, 8, 9] [3] 1 5 (by decide) (by decide)
    (by decide) (by decide) (by decide) (by decide)

/-! ## Lane count 1: the cases other than `kStore` -/

theorem stack_top (st : List Value) : st = [] ∨ ∃ s a, st = s ++ [a] := by
  rcases List.eq_nil_or_concat st with rfl | ⟨s, a, rfl⟩
  · exact Or.inl rfl
  · exact Or.inr ⟨s, a, by simp⟩

theorem stack_shape (st : List Value) :
    st = [] ∨ (∃ b, st = [b]) ∨ ∃ s a b, st = s ++ [a, b] := by
  rcases stack_top st with rfl | ⟨s, b, rfl⟩
  · exact Or.inl rfl
  · rcases stack_top s with rfl | ⟨s', a, rfl⟩
    · exact Or.inr (Or.inl ⟨b, rfl⟩)
    · exact Or.inr (Or.inr ⟨s', a, b, by simp⟩)

/-- With one lane, `VECTOR_BINARY_OP` is `BINARY_OP`, on every state. -/
theorem VECTOR_BINARY_OP_one (f : Value → Value → Exec Value) (m : Interpreter) :
    VECTOR_BINARY_OP f 1 m = BINARY_OP f m := by
  obtain ⟨st, g⟩ := m
  rcases stack_shape st with rfl | ⟨b, rfl⟩ | ⟨s, a, b, rfl⟩
  · rfl
  · rfl
  · have hpop2 := pop_two s g a b
    have hpop1 := pop_concat s g a
    have hback := back_concat s g a
    have hsetb : ∀ r, Interpreter.setBack ⟨s ++ [a], g⟩ r = .ok ⟨s ++ [r], g⟩ :=
      fun r => setBack_concat s g a r
    cases hf : f a b with
    | error e =>
      simp [VECTOR_BINARY_OP, BINARY_OP, forDown, forUp, hpop2, hpop1, hback, hf, bufferSet,
        bufferGet, newBuffer, VECTOR_MAX, bind, Except.bind, pure, Except.pure]
    | ok r =>
      simp [VECTOR_BINARY_OP, BINARY_OP, forDown, forUp, hpop2, hpop1, hback, hsetb, hf,
        bufferSet, bufferGet, newBuffer, VECTOR_MAX, Interpreter.push, bind, Except.bind, pure,
        Except.pure]

/-- With one lane, the conversion loop is the scalar conversion, on every state. -/
theorem vectorConvert_one (conv : Value → Value) (m : Interpreter) :
    vectorConvert conv 1 m = (do
      let top ← m.back
      m.setBack (conv top)) := by
  obtain ⟨st, g⟩ := m
  rcases stack_top st with rfl | ⟨s, a, rfl⟩
  · rfl
  · have hget : elemAt (s ++ [a]) (((s ++ [a]).length : Int) - (0 : Nat) - 1) = .ok a :=
      elemAt_of (n := s.length) (by simp) (by simp)
    have hset : assignAt (s ++ [a]) (((s ++ [a]).length : Int) - (0 : Nat) - 1) (conv a)
        = .ok (s ++ [conv a]) := by
      rw [assignAt_of (n := s.length) _ (by simp) (by simp)]
      simp
    simp only [vectorConvert, forUp, hget, Interpreter.setStack, hset, back_concat,
      setBack_concat, bind_ok_eq, bind, Except.bind, pure, Except.pure]

/-- With one lane, every case of the lane-width wrapper other than `kStore` does what
the scalar instruction does, on every state: same stack, same globals, same next `ip`,
same fault. For a comparison the slots agree in the byte `fBool`, and in the other three
bytes for as much as `boolPad` gives both forms the same ones. -/
theorem executeVector_one_eq_execute (T : Target) (code : List Nat)
    (inst : ByteCodeInstruction) (ip : Nat) (m : Interpreter)
    (hcase : inst ∈ vectorCases) (hne : inst ≠ .kStore) :
    executeVector T code 1 (some inst) ip m = execute T code (some inst) ip m := by
  cases inst <;> first
    | (exfalso; revert hcase; decide)
    | exact absurd rfl hne
    | rfl
    | (simp only [executeVector, execute, binaryCase, VECTOR_BINARY_OP_one]; done)
    | (simp only [executeVector, execute, binaryCase, vectorConvert_one, bind_assoc]; done)
    | (obtain ⟨st, g⟩ := m
       rcases stack_top st with rfl | ⟨s, a, rfl⟩
       · rfl
       · simp only [executeVector, execute, binaryCase, pop_concat, forUp, bind_ok_eq]
         cases SkASSERT (decide (fSigned a < intCast s.length)) with
         | error e => rfl
         | ok u =>
           cases elemAt s (fSigned a) with
           | error e => rfl
           | ok v => rfl)

/-! ## `kLoadSwizzle` -/

theorem codeAt_of {code : List Nat} {i b : Nat} (h : code[i]? = some b) :
    codeAt code i = .ok b := by
  simp [codeAt, h]

/-- The loop of `kLoadSwizzle` from index `i`: the offsets still to be read are `offs`,
and each `base + o` is an index of `s` whose slot is the matching element of `vals`. -/
theorem loadSwizzle_loop (code : List Nat) (ip : Nat) (target : Nat) (s g : List Value) :
    ∀ (offs : List Nat) (vals : List Value),
      List.Forall₂ (fun (o : Nat) (v : Value) =>
        ∃ k : Nat, fSigned target + (o : Int) = (k : Int) ∧ s[k]? = some v) offs vals →
      ∀ (i : Nat) (acc : List Value),
        (∀ j, j < offs.length → code[ip + i + j]? = offs[j]?) →
        s.length + acc.length + offs.length < 2 ^ 31 →
        forUp (fun i (m : Interpreter) => do
          let off ← codeAt code (ip + i)
          SkASSERT (fSigned target + off < intCast m.fStack.length)
          let v ← elemAt m.fStack (fSigned target + off)
          pure (m.push v)) offs.length i ⟨s ++ acc, g⟩
        = .ok ⟨s ++ acc ++ vals, g⟩ := by
  intro offs vals h
  induction h with
  | nil =>
    intro i acc _ _
    simp [forUp]
  | @cons o v offs vals hov _ ih =>
    intro i acc hcode hlen
    obtain ⟨k, hk, hsk⟩ := hov
    have hklt : k < s.length := by
      by_contra hge
      rw [List.getElem?_eq_none (by omega)] at hsk
      exact Option.noConfusion hsk
    have hoff : codeAt code (ip + i) = .ok o := by
      apply codeAt_of
      have := hcode 0 (by simp)
      simpa using this
    have hassert : SkASSERT (decide (fSigned target + (o : Int)
        < intCast (s ++ acc).length)) = .ok () := by
      rw [intCast_of_lt (by simp at hlen ⊢; omega), hk]
      have : (k : Int) < ((s ++ acc).length : Int) := by
        simp
        omega
      simp only [SkASSERT, this, decide_True, if_true]
    have hget : elemAt (s ++ acc) (fSigned target + (o : Int)) = .ok v :=
      elemAt_of hk (by rw [List.getElem?_append_left hklt]; exact hsk)
    have hrec := ih (i + 1) (acc ++ [v])
      (by
        intro j hj
        have := hcode (j + 1) (by simp; omega)
        simpa [Nat.add_assoc, Nat.add_comm 1 j] using this)
      (by simp at hlen ⊢; omega)
    simp only [List.length_cons]
    rw [forUp]
    simp only [hoff, hassert, hget, Interpreter.push, bind_ok_eq, bind, Except.bind, pure,
      Except.pure] at hrec ⊢
    simp only [List.append_assoc] at hrec ⊢
    rw [hrec]
    simp

/-- C6: on a stack `s` with the base index `base` pushed, `load-swizzle` with the offset
list `offs` pops the base and pushes `s[base + offs[0]], s[base + offs[1]], ...` in list
order (`vals` names these slots), leaves the slots of `s` and the globals unchanged, and
moves `ip` past the opcode, the count byte and all offset bytes. The stack size is one
that the cast `(int) fStack.size()` of the source keeps. -/
theorem C6_load_swizzle (T : Target) (pre post offs : List Nat) (b : Nat) (base : Int)
    (s g vals : List Value) (hdec : T.decode b = some .kLoadSwizzle)
    (hbase : -2 ^ 31 ≤ base ∧ base < 2 ^ 31)
    (hvals : List.Forall₂ (fun (o : Nat) (v : Value) =>
      ∃ k : Nat, base + (o : Int) = (k : Int) ∧ s[k]? = some v) offs vals)
    (hlen : s.length + offs.length < 2 ^ 31) :
    step T (pre ++ (b :: offs.length :: offs) ++ post) pre.length ⟨s ++ [ofSigned base], g⟩
      = .ok (.next (pre.length + 2 + offs.length) ⟨s ++ vals, g⟩) := by
  have hlay : ∀ j, j < (b :: offs.length :: offs).length →
      (pre ++ (b :: offs.length :: offs) ++ post)[pre.length + j]?
        = (b :: offs.length :: offs)[j]? := by
    intro j hj
    rw [List.append_assoc, List.getElem?_append_right (by omega)]
    simp only [Nat.add_sub_cancel_left]
    exact List.getElem?_append_left hj
  have hop : (pre ++ (b :: offs.length :: offs) ++ post)[pre.length]? = some b := by
    simpa using hlay 0 (by simp)
  have hcnt : (pre ++ (b :: offs.length :: offs) ++ post)[pre.length + 1]?
      = some offs.length := by
    simpa using hlay 1 (by simp)
  have hoffs : ∀ j, j < offs.length →
      (pre ++ (b :: offs.length :: offs) ++ post)[pre.length + 1 + 1 + 0 + j]? = offs[j]? := by
    intro j hj
    have := hlay (j + 2) (by simp; omega)
    rw [show pre.length + 1 + 1 + 0 + j = pre.length + (j + 2) by omega, this]
    simp
  have hv : binaryCase T .kLoadSwizzle = none := rfl
  have hloop := loadSwizzle_loop (pre ++ (b :: offs.length :: offs) ++ post) (pre.length + 1 + 1)
    (ofSigned base) s g offs vals
    (by rw [fSigned_ofSigned hbase.1 hbase.2]; exact hvals) 0 [] hoffs (by simpa using hlen)
  rw [step_eq_execute _ hop, hdec]
  simp only [execute, hv, pop_concat, READ8_of hcnt, bind_ok_eq]
  simp only [bind, Except.bind, pure, Except.pure, List.append_nil] at hloop ⊢
  rw [hloop]

/-- C6 at a concrete input: base 1 and offsets `[2, 0, 2]` on the stack `[5, 6, 7, 8]`
push `8, 6, 8`. -/
theorem C6_load_swizzle_witness :
    step demoTarget ([37] ++ (31 :: [2, 0, 2].length :: [2, 0, 2]) ++ [46, 0]) [37].length
        ⟨[5, 6, 7, 8] ++ [ofSigned 1], []⟩
      = .ok (.next ([37].length + 2 + [2, 0, 2].length) ⟨[5, 6, 7, 8] ++ [8, 6, 8], []⟩) :=
  C6_load_swizzle demoTarget [37] [46, 0] [2, 0, 2] 31 1 [5, 6, 7, 8] [] [8, 6, 8]
    (by decide) (by decide)
    (.cons ⟨3, by decide, by decide⟩ (.cons ⟨1, by decide, by decide⟩
      (.cons ⟨3, by decide, by decide⟩ .nil)))
    (by decide)

/-! ## The copy-back of "out" parameters -/

theorem bind_eq_ok {α β : Type} {x : Exec α} {f : α → Exec β} {b : β}
    (h : (x >>= f) = .ok b) : ∃ a, x = .ok a ∧ f a = .ok b := by
  cases x with
  | error e => exact Except.noConfusion h
  | ok a => exact ⟨a, rfl, h⟩

theorem elemAt_natCast_ok {xs : List Value} {n : Nat} {v : Value}
    (h : elemAt xs (n : Int) = .ok v) : xs[n]? = some v := by
  unfold elemAt at h
  simp only [Int.toNat_ofNat] at h
  split at h
  · exact Except.noConfusion h
  · split at h
    · rename_i w hw
      rw [hw]
      cases h
      rfl
    · exact Except.noConfusion h

theorem assignAt_natCast_ok {xs xs' : List Value} {n : Nat} {v : Value}
    (h : assignAt xs (n : Int) v = .ok xs') : n < xs.length ∧ xs' = xs.set n v := by
  unfold assignAt at h
  simp only [Int.toNat_ofNat] at h
  split at h
  · rename_i hc
    cases h
    exact ⟨hc.2, rfl⟩
  · exact Except.noConfusion h

/-- The inner loop of the copy-back, for one "out" parameter of width `n` at `off`. -/
theorem writeBack_loop (stack : List Value) :
    ∀ (n off : Nat) (a : List Value) (off' : Nat) (a' : List Value),
      forDown (fun _ (st : Nat × List Value) => do
          let v ← elemAt stack st.1
          let args ← assignAt st.2 st.1 v
          pure (st.1 + 1, args)) n (off, a) = .ok (off', a') →
      off' = off + n ∧ a'.length = a.length ∧
      (∀ j, off ≤ j → j < off + n → ∃ v, stack[j]? = some v ∧ a'[j]? = some v) ∧
      (∀ j, j < off ∨ off + n ≤ j → a'[j]? = a[j]?) := by
  intro n
  induction n with
  | zero =>
    intro off a off' a' h
    simp only [forDown] at h
    cases h
    exact ⟨rfl, rfl, by intro j h1 h2; omega, by intro j _; rfl⟩
  | succ n ih =>
    intro off a off' a' h
    rw [forDown] at h
    cases h1 : elemAt stack (off : Int) with
    | error e =>
      simp [h1, bind, Except.bind] at h
    | ok v =>
      cases h2 : assignAt a (off : Int) v with
      | error e =>
        simp [h1, h2, bind, Except.bind] at h
      | ok a1 =>
        simp only [h1, h2, bind, Except.bind, pure, Except.pure] at h
        obtain ⟨hlt, rfl⟩ := assignAt_natCast_ok h2
        have hv := elemAt_natCast_ok h1
        have hrec := ih (off + 1) (a.set off v) off' a'
          (by simpa only [bind, Except.bind, pure, Except.pure] using h)
        obtain ⟨ho, hl, hin, hout⟩ := hrec
        refine ⟨by omega, by simpa using hl, ?_, ?_⟩
        · intro j hj1 hj2
          by_cases hj : j = off
          · subst hj
            refine ⟨v, hv, ?_⟩
            rw [hout j (by omega)]
            simp [hlt]
          · exact hin j (by omega) (by omega)
        · intro j hj
          rw [hout j (by omega), List.getElem?_set]
          have : off ≠ j := by omega
          simp [this]

/-- The copy-back loop over the formal parameters `ps`, started at the cursor `off`. -/
theorem writeBack_spec (stack : List Value) :
    ∀ (ps : List Parameter) (off : Nat) (args args' : List Value),
      writeBack stack ps off args = .ok args' →
      args'.length = args.length ∧ (∀ j, j < off → args'[j]? = args[j]?) ∧
      (∀ pre p post, ps = pre ++ p :: post → ∀ k, k < p.columns * p.rows →
        (p.out = true → ∃ v, stack[off + widthSum pre + k]? = some v ∧
          args'[off + widthSum pre + k]? = some v) ∧
        (p.out = false → args'[off + widthSum pre + k]? = args[off + widthSum pre + k]?)) := by
  intro ps
  induction ps with
  | nil =>
    intro off args args' h
    simp only [writeBack] at h
    cases h
    refine ⟨rfl, fun _ _ => rfl, ?_⟩
    intro pre p post hps
    simp at hps
  | cons q qs ih =>
    intro off args args' h
    rw [writeBack] at h
    by_cases hq : q.out = true
    · simp only [hq, if_true] at h
      obtain ⟨r, h1, h⟩ := bind_eq_ok h
      obtain ⟨off2, args2⟩ := r
      · have h : writeBack stack qs off2 args2 = .ok args' := h
        obtain ⟨ho, hl, hin, hout⟩ := writeBack_loop stack _ _ _ _ _ h1
        subst ho
        obtain ⟨hl', hlow, hps⟩ := ih _ _ _ h
        refine ⟨by omega, ?_, ?_⟩
        · intro j hj
          rw [hlow j (by omega), hout j (Or.inl hj)]
        · intro pre p post hsplit k hk
          cases pre with
          | nil =>
            simp only [List.nil_append, List.cons.injEq] at hsplit
            obtain ⟨rfl, rfl⟩ := hsplit
            simp only [widthSum, List.map_nil, List.sum_nil, Nat.add_zero]
            refine ⟨fun _ => ?_, fun hf => ?_⟩
            · obtain ⟨v, hv, hav⟩ := hin (off + k) (by omega) (by omega)
              exact ⟨v, hv, by rw [hlow _ (by omega), hav]⟩
            · rw [hq] at hf
              exact Bool.noConfusion hf
          | cons q' pre' =>
            simp only [List.cons_append, List.cons.injEq] at hsplit
            obtain ⟨rfl, hsplit⟩ := hsplit
            have hw : off + widthSum (q :: pre') + k
                = off + q.columns * q.rows + widthSum pre' + k := by
              simp [widthSum]
              omega
            rw [hw]
            obtain ⟨hA, hB⟩ := hps pre' p post hsplit k hk
            refine ⟨hA, fun hf => ?_⟩
            rw [hB hf, hout _ (Or.inr (by omega))]
    · have hq' : q.out = false := by simpa using hq
      simp only [hq', Bool.false_eq_true, if_false] at h
      obtain ⟨hl', hlow, hps⟩ := ih _ _ _ h
      refine ⟨hl', ?_, ?_⟩
      · intro j hj
        exact hlow j (by omega)
      · intro pre p post hsplit k hk
        cases pre with
        | nil =>
          simp only [List.nil_append, List.cons.injEq] at hsplit
          obtain ⟨rfl, rfl⟩ := hsplit
          simp only [widthSum, List.map_nil, List.sum_nil, Nat.add_zero]
          refine ⟨fun ht => ?_, fun _ => ?_⟩
          · rw [hq'] at ht
            exact Bool.noConfusion ht
          · exact hlow _ (by omega)
        | cons q' pre' =>
          simp only [List.cons_append, List.cons.injEq] at hsplit
          obtain ⟨rfl, hsplit⟩ := hsplit
          have hw : off + widthSum (q :: pre') + k
              = off + q.columns * q.rows + widthSum pre' + k := by
            simp [widthSum]
            omega
          rw [hw]
          exact hps pre' p post hsplit k hk

theorem run_finished {T : Target} {fuel : Nat} {f : ByteCodeFunction}
    {args inputs : List Value} {m0 : Interpreter} {args' : List Value} {m' : Interpreter}
    (h : run T fuel f args inputs m0 = .finished (args', m')) :
    ∃ m, setup f args inputs m0 = .ok m ∧ runLoop T f.fCode fuel 0 m = .finished m' ∧
      writeBack m'.fStack f.fParameters 0 args = .ok args' := by
  unfold run at h
  cases hs : setup f args inputs m0 with
  | error e => simp [hs] at h
  | ok m =>
    simp only [hs] at h
    cases hl : runLoop T f.fCode fuel 0 m with
    | timeout => simp [hl] at h
    | fault e => simp [hl] at h
    | finished m1 =>
      simp only [hl] at h
      cases hw : writeBack m1.fStack f.fParameters 0 args with
      | error e => simp [hw] at h
      | ok a =>
        simp only [hw, Outcome.finished.injEq, Prod.mk.injEq] at h
        obtain ⟨rfl, rfl⟩ := h
        exact ⟨m, rfl, hl, hw⟩

/-- C7: when `run(f, args, inputs)` completes with the array `args'` and the final
stack `m'.fStack`, walk the formal parameters in order with a cursor that advances by
each parameter's width `columns * rows` (`widthSum pre` after the parameters `pre`):
every entry of an "out" parameter equals the final stack slot of the same offset, every
entry of a parameter that is not "out" is the caller's value, and `args` keeps its
length. In particular, in scenario 4 (`outScenario`: width-1 "in" then width-2 "out",
the body overwriting stack slots 1 and 2 with 77 and 88) the call on `[10, 20, 30]`
completes with `args = [10, 77, 88]`. -/
theorem C7_out_parameters_written_back (T : Target) (fuel : Nat) (f : ByteCodeFunction)
    (args inputs : List Value) (m0 : Interpreter) (args' : List Value) (m' : Interpreter)
    (hrun : run T fuel f args inputs m0 = .finished (args', m')) :
    (args'.length = args.length ∧
      ∀ pre p post, f.fParameters = pre ++ p :: post → ∀ k, k < p.columns * p.rows →
        (p.out = true → ∃ v, m'.fStack[widthSum pre + k]? = some v ∧
          args'[widthSum pre + k]? = some v) ∧
        (p.out = false → args'[widthSum pre + k]? = args[widthSum pre + k]?)) ∧
    run demoTarget 18 outScenario [10, 20, 30] [] ⟨[], []⟩
      = .finished ([10, 77, 88], ⟨[10, 77, 88], []⟩) := by
  obtain ⟨m, _, _, hw⟩ := run_finished hrun
  obtain ⟨hl, _, hps⟩ := writeBack_spec m'.fStack f.fParameters 0 args args' hw
  refine ⟨⟨hl, ?_⟩, by decide⟩
  intro pre p post hsplit k hk
  have := hps pre p post hsplit k hk
  simpa using this

/-- C7 at a concrete input: the run of scenario 4. -/
theorem C7_out_parameters_written_back_witness :
    run demoTarget 18 outScenario [10, 20, 30] [] ⟨[], []⟩
      = .finished ([10, 77, 88], ⟨[10, 77, 88], []⟩) ∧
    (([10, 77, 88] : List Value).length = ([10, 20, 30] : List Value).length ∧
      ∀ pre p post, outScenario.fParameters = pre ++ p :: post → ∀ k, k < p.columns * p.rows →
        (p.out = true → ∃ v, ([10, 77, 88] : List Value)[widthSum pre + k]? = some v ∧
          ([10, 77, 88] : List Value)[widthSum pre + k]? = some v) ∧
        (p.out = false → ([10, 77, 88] : List Value)[widthSum pre + k]?
          = ([10, 20, 30] : List Value)[widthSum pre + k]?)) :=
  ⟨by decide, (C7_out_parameters_written_back demoTarget 18 outScenario [10, 20, 30] []
    ⟨[], []⟩ [10, 77, 88] ⟨[10, 77, 88], []⟩ (by decide)).1⟩

/-! ## The state at the start of the loop -/

/-- The loop pushing the parameter components `args[i]`, `args[i + 1]`, ... -/
theorem setup_args_loop (args g : List Value) :
    ∀ (n i : Nat) (acc : List Value), i + n ≤ args.length →
      forUp (fun i (m : Interpreter) => do
        let a ← elemAt args i
        pure (m.push a)) n i ⟨acc, g⟩
      = .ok ⟨acc ++ (args.drop i).take n, g⟩ := by
  intro n
  induction n with
  | zero =>
    intro i acc _
    simp [forUp]
  | succ n ih =>
    intro i acc hi
    have hlt : i < args.length := by omega
    have hget : elemAt args (i : Int) = .ok args[i] :=
      elemAt_of rfl (List.getElem?_eq_getElem hlt)
    have hrec := ih (i + 1) (acc ++ [args[i]]) (by omega)
    rw [forUp]
    simp only [hget, Interpreter.push, bind_ok_eq, bind, Except.bind, pure, Except.pure]
      at hrec ⊢
    have hdrop : args.drop i = args[i] :: args.drop (i + 1) := List.drop_eq_getElem_cons hlt
    rw [hrec, hdrop, List.take_succ_cons]
    simp only [List.append_assoc, List.singleton_append]

/-- The loop pushing `n` sentinel slots. -/
theorem setup_locals_loop (g : List Value) :
    ∀ (n i : Nat) (acc : List Value),
      forUp (fun _ (m : Interpreter) => (pure (m.push UNINITIALIZED) : Exec Interpreter))
        n i ⟨acc, g⟩
      = .ok ⟨acc ++ List.replicate n UNINITIALIZED, g⟩ := by
  intro n
  induction n with
  | zero =>
    intro i acc
    simp [forUp]
  | succ n ih =>
    intro i acc
    have hrec := ih (i + 1) (acc ++ [UNINITIALIZED])
    rw [forUp]
    simp only [Interpreter.push, bind_ok_eq, bind, Except.bind, pure, Except.pure] at hrec ⊢
    rw [hrec]
    simp [List.replicate_succ]

/-- The loop allocating `n` sentinel globals. -/
theorem setup_globals_loop (s : List Value) :
    ∀ (n i : Nat) (acc : List Value),
      forUp (fun _ (m : Interpreter) =>
        (pure { m with fGlobals := m.fGlobals ++ [UNINITIALIZED] } : Exec Interpreter))
        n i ⟨s, acc⟩
      = .ok ⟨s, acc ++ List.replicate n UNINITIALIZED⟩ := by
  intro n
  induction n with
  | zero =>
    intro i acc
    simp [forUp]
  | succ n ih =>
    intro i acc
    have hrec := ih (i + 1) (acc ++ [UNINITIALIZED])
    rw [forUp]
    simp only [bind_ok_eq, bind, Except.bind, pure, Except.pure] at hrec ⊢
    rw [hrec]
    simp [List.replicate_succ]

/-- The loop writing the inputs `n - 1, ..., 0` into their slots. -/
theorem setup_inputs_loop (slots : List Nat) (inputs s : List Value) :
    ∀ (n : Nat) (g : List Value), n ≤ slots.length → n ≤ inputs.length →
      (∀ i (h : i < slots.length), slots[i] < g.length) →
      ∃ g', forDown (fun i (m : Interpreter) => do
          let slot ← codeAt slots i
          let v ← elemAt inputs i
          m.setGlobal slot v) n ⟨s, g⟩ = .ok ⟨s, g'⟩ ∧
        g'.length = g.length ∧
        (∀ j, (∀ i (h : i < slots.length), i < n → slots[i] ≠ j) → g'[j]? = g[j]?) ∧
        ((∀ i j (hi : i < slots.length) (hj : j < slots.length), slots[i] = slots[j] → i = j) →
          ∀ i (h : i < slots.length), i < n → g'[slots[i]]? = inputs[i]?) := by
  intro n
  induction n with
  | zero =>
    intro g _ _ _
    exact ⟨g, rfl, rfl, fun _ _ => rfl, fun _ i _ hi => absurd hi (Nat.not_lt_zero i)⟩
  | succ n ih =>
    intro g hn hin hslots
    have hlt : n < slots.length := by omega
    have hlt' : n < inputs.length := by omega
    have hslot : codeAt slots n = .ok slots[n] := codeAt_of (List.getElem?_eq_getElem hlt)
    have hget : elemAt inputs (n : Int) = .ok inputs[n] :=
      elemAt_of rfl (List.getElem?_eq_getElem hlt')
    have hset : assignAt g ((slots[n] : Nat) : Int) inputs[n] = .ok (g.set slots[n] inputs[n]) :=
      assignAt_of _ rfl (hslots n hlt)
    obtain ⟨g', hrun, hl, hother, hin'⟩ := ih (g.set slots[n] inputs[n]) (by omega) (by omega)
      (by intro i h; simpa using hslots i h)
    refine ⟨g', ?_, by simpa using hl, ?_, ?_⟩
    · rw [forDown]
      simp only [hslot, hget, Interpreter.setGlobal, hset, bind_ok_eq, bind, Except.bind, pure,
        Except.pure] at hrun ⊢
      exact hrun
    · intro j hj
      rw [hother j (fun i h hi => hj i h (by omega)), List.getElem?_set]
      have : slots[n] ≠ j := hj n hlt (by omega)
      simp [this]
    · intro hinj i h hi
      by_cases hin2 : i = n
      · subst hin2
        rw [hother slots[i] (fun k hk hki heq => by
          have := hinj k i hk h heq
          omega), List.getElem?_set]
        simp [hslots i h, List.getElem?_eq_getElem hlt']
      · exact hin' hinj i h (by omega)

/-- C8: when `args` holds the `fParameterCount` parameter components, `inputs` an entry
per declared input slot, and every input slot is a global of the owner, the code of
`run(f, args, inputs)` before the loop always ends, whatever state the interpreter was
left in, and at the start of the loop: the stack is the first `fParameterCount` entries
of `args` followed by `fLocalCount` sentinels `0xDEADBEEF`; the global table has
`fGlobalCount` slots; every global that is not an input slot holds the sentinel; and,
when the input slots are pairwise distinct, `globals[inputSlots[i]] = inputs[i]`. -/
theorem C8_state_at_loop_start (f : ByteCodeFunction) (args inputs : List Value)
    (m0 : Interpreter) (hargs : f.fParameterCount ≤ args.length)
    (hinputs : f.fInputSlots.length ≤ inputs.length)
    (hslots : ∀ slot, slot ∈ f.fInputSlots → slot < f.fGlobalCount) :
    ∃ m, setup f args inputs m0 = .ok m ∧
      (∀ T fuel, run T fuel f args inputs m0 =
        match runLoop T f.fCode fuel 0 m with
        | .timeout => .timeout
        | .fault e => .fault e
        | .finished m' =>
          match writeBack m'.fStack f.fParameters 0 args with
          | .error e => .fault e
          | .ok args' => .finished (args', m')) ∧
      m.fStack = args.take f.fParameterCount ++ List.replicate f.fLocalCount 0xDEADBEEF ∧
      m.fGlobals.length = f.fGlobalCount ∧
      (∀ j, j < f.fGlobalCount → j ∉ f.fInputSlots → m.fGlobals[j]? = some 0xDEADBEEF) ∧
      (f.fInputSlots.Nodup →
        ∀ i (h : i < f.fInputSlots.length), m.fGlobals[f.fInputSlots[i]]? = inputs[i]?) := by
  have h1 := setup_args_loop args [] f.fParameterCount 0 [] (by omega)
  have h2 := setup_locals_loop [] f.fLocalCount 0 ([] ++ (args.drop 0).take f.fParameterCount)
  have h3 := setup_globals_loop
    ([] ++ (args.drop 0).take f.fParameterCount ++ List.replicate f.fLocalCount UNINITIALIZED)
    f.fGlobalCount 0 []
  obtain ⟨g', h4, hl, hother, hin⟩ := setup_inputs_loop f.fInputSlots inputs
    ([] ++ (args.drop 0).take f.fParameterCount ++ List.replicate f.fLocalCount UNINITIALIZED)
    f.fInputSlots.length ([] ++ List.replicate f.fGlobalCount UNINITIALIZED) (le_refl _) hinputs
    (by
      intro i h
      simpa using hslots _ (List.getElem_mem h))
  have hsetup : setup f args inputs m0 = .ok
      ⟨[] ++ (args.drop 0).take f.fParameterCount ++ List.replicate f.fLocalCount UNINITIALIZED,
        g'⟩ := by
    unfold setup
    simp only [bind, Except.bind, pure, Except.pure] at h1 h2 h3 h4 ⊢
    rw [h1]
    simp only []
    rw [h2]
    simp only []
    rw [h3]
    simp only []
    rw [h4]
  refine ⟨_, hsetup, ?_, ?_, ?_, ?_, ?_⟩
  · intro T fuel
    simp only [run, hsetup]
  · simp [UNINITIALIZED]
  · simpa using hl
  · intro j hj hnot
    rw [hother j (fun i h _ heq => hnot (heq ▸ List.getElem_mem h))]
    simp [hj, UNINITIALIZED]
  · intro hnd i h
    exact hin (fun a b ha hb hab => (List.Nodup.getElem_inj_iff hnd).mp hab) i h h

/-- C8 at a concrete input: `inputsExample` (two parameters, one local, three globals
of which slots 2 and 0 are inputs) on an interpreter left with stale state. -/
theorem C8_state_at_loop_start_witness :
    ∃ m, setup inputsExample [5, 6] [70, 80] ⟨[1, 1, 1, 1], [9]⟩ = .ok m ∧
      (∀ T fuel, run T fuel inputsExample [5, 6] [70, 80] ⟨[1, 1, 1, 1], [9]⟩ =
        match runLoop T inputsExample.fCode fuel 0 m with
        | .timeout => .timeout
        | .fault e => .fault e
        | .finished m' =>
          match writeBack m'.fStack inputsExample.fParameters 0 [5, 6] with
          | .error e => .fault e
          | .ok args' => .finished (args', m')) ∧
      m.fStack = ([5, 6] : List Value).take inputsExample.fParameterCount
        ++ List.replicate inputsExample.fLocalCount 0xDEADBEEF ∧
      m.fGlobals.length = inputsExample.fGlobalCount ∧
      (∀ j, j < inputsExample.fGlobalCount → j ∉ inputsExample.fInputSlots →
        m.fGlobals[j]? = some 0xDEADBEEF) ∧
      (inputsExample.fInputSlots.Nodup →
        ∀ i (h : i < inputsExample.fInputSlots.length),
          m.fGlobals[inputsExample.fInputSlots[i]]? = ([70, 80] : List Value)[i]?) :=
  C8_state_at_loop_start inputsExample [5, 6] [70, 80] ⟨[1, 1, 1, 1], [9]⟩
    (by decide) (by decide) (by decide)

/-! ## Bytes without a case -/

theorem unsupported_eq (ip : Nat) (m : Interpreter) : unsupported ip m = .error .assertion := rfl

/-- The outer switch on a byte it has no case for. -/
theorem execute_no_case (T : Target) (code : List Nat) (o : Option ByteCodeInstruction)
    (ip : Nat) (m : Interpreter) (h : hasCase loopCases o = false) :
    execute T code o ip m = .error .assertion := by
  cases o with
  | none => rfl
  | some inst =>
    cases inst <;> first
      | rfl
      | (exfalso; revert h; decide)

/-- The inner switch on a sub-opcode it has no case for. -/
theorem executeVector_no_case (T : Target) (code : List Nat) (count : Nat)
    (o : Option ByteCodeInstruction) (ip : Nat) (m : Interpreter)
    (h : hasCase vectorCases o = false) :
    executeVector T code count o ip m = .error .assertion := by
  cases o with
  | none => rfl
  | some inst =>
    cases inst <;> first
      | rfl
      | (exfalso; revert h; decide)

theorem hasCase_vector_of_loop (o : Option ByteCodeInstruction)
    (h : hasCase loopCases o = false) : hasCase vectorCases o = false := by
  cases o with
  | none => rfl
  | some inst =>
    cases inst <;> first
      | rfl
      | (exfalso; revert h; decide)

/-- C9: a byte `b` for which the outer switch of the loop has no case (no enumerator at
all, or one of those only the disassembler names: `kAndB`, `kAndI`, `kOrB`, `kOrI`,
`kParameter`), met as the next opcode or as the sub-opcode of a `kVector` wrapper, stops
the invocation with the assertion fault: the turn does not end in a next `ip`, and the
loop started there yields the fault and no result, whatever the budget. -/
theorem C9_unknown_opcode_faults (T : Target) (code : List Nat) (ip b : Nat) (m : Interpreter)
    (hb : hasCase loopCases (T.decode b) = false)
    (hmet : code[ip]? = some b ∨
      ∃ v count, code[ip]? = some v ∧ T.decode v = some .kVector ∧
        code[ip + 1]? = some count ∧ code[ip + 2]? = some b) :
    step T code ip m = .error .assertion ∧
    (∀ fuel, runLoop T code (fuel + 1) ip m = .fault .assertion) ∧
    (∀ inst, inst ∈ [ByteCodeInstruction.kAndB, .kAndI, .kOrB, .kOrI, .kParameter] →
      hasCase loopCases (some inst) = false) := by
  have hstep : step T code ip m = .error .assertion := by
    rcases hmet with hop | ⟨v, count, hop, hdec, hcnt, hsub⟩
    · rw [step_eq_execute _ hop]
      exact execute_no_case T code _ _ m hb
    · rw [step_eq_execute _ hop, hdec]
      have hv : binaryCase T .kVector = none := rfl
      simp only [execute, hv, READ8_of hcnt, READ8_of hsub, bind_ok_eq]
      exact executeVector_no_case T code count _ _ m (hasCase_vector_of_loop _ hb)
  exact ⟨hstep, fun fuel => runLoop_fault fuel hstep, by decide⟩

/-- C9 at a concrete input: the byte 2 (`kAndB` on the demo target) as the sub-opcode
of `vector 1` at offset 1 of the byte-code `[2, 55, 1, 2]`. -/
theorem C9_unknown_opcode_faults_witness :
    step demoTarget [2, 55, 1, 2] 1 ⟨[1, 1], []⟩ = .error .assertion ∧
    (∀ fuel, runLoop demoTarget [2, 55, 1, 2] (fuel + 1) 1 ⟨[1, 1], []⟩ = .fault .assertion) ∧
    (∀ inst, inst ∈ [ByteCodeInstruction.kAndB, .kAndI, .kOrB, .kOrI, .kParameter] →
      hasCase loopCases (some inst) = false) :=
  C9_unknown_opcode_faults demoTarget [2, 55, 1, 2] 1 2 ⟨[1, 1], []⟩ (by decide)
    (Or.inr ⟨55, 1, by decide, by decide, by decide, by decide⟩)

/-! ## Targets outside the stack -/

/-- A target at or above the stack size is stopped by the check of `load`. -/
theorem load_target_too_large (T : Target) (code : List Nat) (ip : Nat) (s g : List Value)
    (t : Nat) (hlen : s.length < 2 ^ 31) (ht : (s.length : Int) ≤ fSigned t) :
    execute T code (some .kLoad) ip ⟨s ++ [t], g⟩ = .error .assertion := by
  have hassert : SkASSERT (decide (fSigned t < intCast s.length)) = .error .assertion := by
    rw [intCast_of_lt hlen]
    simp [SkASSERT, ht]
  have hv : binaryCase T .kLoad = none := rfl
  simp only [execute, hv, pop_concat, hassert, bind_ok_eq, bind_error_eq]

/-- A negative target passes the check of `load` and is then read outside the stack. -/
theorem load_target_negative (T : Target) (code : List Nat) (ip : Nat) (s g : List Value)
    (t : Nat) (hlen : s.length < 2 ^ 31) (ht : fSigned t < 0) :
    SkASSERT (decide (fSigned t < intCast s.length)) = .ok () ∧
    execute T code (some .kLoad) ip ⟨s ++ [t], g⟩ = .error .undefined := by
  have hassert : SkASSERT (decide (fSigned t < intCast s.length)) = .ok () := by
    rw [intCast_of_lt hlen]
    have : fSigned t < (s.length : Int) := by omega
    simp [SkASSERT, this]
  have hget : elemAt s (fSigned t) = .error .undefined := by
    simp [elemAt, ht]
  have hv : binaryCase T .kLoad = none := rfl
  refine ⟨hassert, ?_⟩
  simp only [execute, hv, pop_concat, hassert, hget, bind_ok_eq, bind_error_eq]

/-- A target at or above the stack size is stopped by the check of `store`. -/
theorem store_target_too_large (T : Target) (code : List Nat) (ip : Nat) (s g : List Value)
    (t v : Nat) (hlen : s.length < 2 ^ 31) (ht : (s.length : Int) ≤ fSigned t) :
    execute T code (some .kStore) ip ⟨s ++ [t, v], g⟩ = .error .assertion := by
  have hassert : SkASSERT (decide (fSigned t < intCast s.length)) = .error .assertion := by
    rw [intCast_of_lt hlen]
    simp [SkASSERT, ht]
  have hv : binaryCase T .kStore = none := rfl
  simp only [execute, hv, pop_two, pop_concat, hassert, bind_ok_eq, bind_error_eq]

/-- A negative target passes the check of `store` and is then written outside the
stack. -/
theorem store_target_negative (T : Target) (code : List Nat) (ip : Nat) (s g : List Value)
    (t v : Nat) (hlen : s.length < 2 ^ 31) (ht : fSigned t < 0) :
    SkASSERT (decide (fSigned t < intCast s.length)) = .ok () ∧
    execute T code (some .kStore) ip ⟨s ++ [t, v], g⟩ = .error .undefined := by
  have hassert : SkASSERT (decide (fSigned t < intCast s.length)) = .ok () := by
    rw [intCast_of_lt hlen]
    have : fSigned t < (s.length : Int) := by omega
    simp [SkASSERT, this]
  have hset : assignAt s (fSigned t) v = .error .undefined := by
    have : ¬ (0 ≤ fSigned t) := by omega
    simp [assignAt, this]
  have hv : binaryCase T .kStore = none := rfl
  refine ⟨hassert, ?_⟩
  simp only [execute, hv, pop_two, pop_concat, hassert, Interpreter.setStack, hset, bind_ok_eq,
    bind_error_eq]

/-- A target at or above the size of the global table is stopped by the check of
`store-global`, and a negative one passes it and is written outside the table. -/
theorem storeGlobal_target_outside (T : Target) (code : List Nat) (ip : Nat)
    (s g : List Value) (t v : Nat) (hlen : g.length < 2 ^ 31) :
    ((g.length : Int) ≤ fSigned t →
      execute T code (some .kStoreGlobal) ip ⟨s ++ [t, v], g⟩ = .error .assertion) ∧
    (fSigned t < 0 →
      execute T code (some .kStoreGlobal) ip ⟨s ++ [t, v], g⟩ = .error .undefined) := by
  have hv : binaryCase T .kStoreGlobal = none := rfl
  constructor
  · intro ht
    have hassert : SkASSERT (decide (fSigned t < intCast g.length)) = .error .assertion := by
      rw [intCast_of_lt hlen]
      simp [SkASSERT, ht]
    simp only [execute, hv, pop_two, pop_concat, hassert, bind_ok_eq, bind_error_eq]
  · intro ht
    have hassert : SkASSERT (decide (fSigned t < intCast g.length)) = .ok () := by
      rw [intCast_of_lt hlen]
      have : fSigned t < (g.length : Int) := by omega
      simp [SkASSERT, this]
    have hset : assignAt g (fSigned t) v = .error .undefined := by
      have : ¬ (0 ≤ fSigned t) := by omega
      simp [assignAt, this]
    simp only [execute, hv, pop_two, pop_concat, hassert, Interpreter.setGlobal, hset,
      bind_ok_eq, bind_error_eq]

/-- An immediate index at or above the size of the global table is stopped by the check
of `load-global`; the index is a byte read by `READ8`, so it is never negative. -/
theorem loadGlobal_index_too_large (T : Target) (code : List Nat) (ip index : Nat)
    (m : Interpreter) (hidx : code[ip]? = some index) (hlen : m.fGlobals.length < 2 ^ 31)
    (ht : m.fGlobals.length ≤ index) :
    execute T code (some .kLoadGlobal) ip m = .error .assertion := by
  have hassert : SkASSERT (decide ((index : Int) < intCast m.fGlobals.length))
      = .error .assertion := by
    rw [intCast_of_lt hlen]
    have : ¬ ((index : Int) < (m.fGlobals.length : Int)) := by omega
    simp [SkASSERT, this]
  have hv : binaryCase T .kLoadGlobal = none := rfl
  simp only [execute, hv, READ8_of hidx, hassert, bind_ok_eq, bind_error_eq]

/-- C10, at inputs where it fails: with the target `-1` (the slot `0xFFFFFFFF`) the
check `SkASSERT(target < (int) fStack.size())` of `load` holds, and `load`, `store` and
`store-global` go on to the access outside the container (the fault `undefined`), while
the too large target 1 on a one-slot stack is stopped by the check. -/
theorem C10_negative_target_passes_check :
    (SkASSERT (decide (fSigned 0xFFFFFFFF < intCast ([9] : List Value).length)) = .ok () ∧
      step demoTarget [29] 0 ⟨[9, 0xFFFFFFFF], []⟩ = .error .undefined) ∧
    step demoTarget [48] 0 ⟨[9, 0xFFFFFFFF, 5], []⟩ = .error .undefined ∧
    step demoTarget [49] 0 ⟨[0xFFFFFFFF, 5], [9]⟩ = .error .undefined ∧
    step demoTarget [29] 0 ⟨[9, 1], []⟩ = .error .assertion :=
  ⟨⟨rfl, rfl⟩, rfl, rfl, rfl⟩

/-! ## The outcome does not depend on the state left behind -/

theorem setup_ignores_state (f : ByteCodeFunction) (args inputs : List Value)
    (m m' : Interpreter) : setup f args inputs m = setup f args inputs m' := rfl

/-- C11, at an input where it fails: `compareScenario` has no parameters and no inputs
and returns the result of the unsigned `0x80000000 > 1`. The targets `demoTarget` and
`keepTarget` have the same numbering and differ in the bytes that `Value(bool)` leaves
indeterminate; the same invocation from the same interpreter state ends with the result
slot `1` on the one and `0x80000001` on the other, so the result slots are not a function
of the function, `args` and `inputs` only. -/
theorem C11_outcome_depends_on_bool_bytes :
    keepTarget.decode = demoTarget.decode ∧
    run demoTarget 10 compareScenario [] [] ⟨[], []⟩ = .finished ([], ⟨[1], []⟩) ∧
    run keepTarget 10 compareScenario [] [] ⟨[], []⟩
      = .finished ([], ⟨[0x80000001], []⟩) ∧
    run demoTarget 10 compareScenario [] [] ⟨[], []⟩
      ≠ run keepTarget 10 compareScenario [] [] ⟨[], []⟩ :=
  ⟨rfl, by decide, by decide, by decide⟩

/-- C11 as amended: for every function, `args` and `inputs`, every budget and every
target, which fixes the bytes that `Value(bool)` leaves indeterminate, `run` started on
two interpreters whose stack and global table hold arbitrary, different contents yields
the same outcome: the same written-back `args`, the same final stack (the result slots)
and the same final globals, or the same fault. -/
theorem C11_run_ignores_prior_state (T : Target) (fuel : Nat) (f : ByteCodeFunction)
    (args inputs : List Value) (m m' : Interpreter) :
    run T fuel f args inputs m = run T fuel f args inputs m' := by
  simp only [run, setup_ignores_state f args inputs m m']

/-- C11 as amended, at a concrete input: `compareScenario` on `keepTarget`, started on a
state left behind by an earlier invocation and on the empty state. -/
theorem C11_run_ignores_prior_state_witness :
    run keepTarget 10 compareScenario [] [] ⟨[7, 7], [8]⟩
      = run keepTarget 10 compareScenario [] [] ⟨[], []⟩ :=
  C11_run_ignores_prior_state keepTarget 10 compareScenario [] [] ⟨[7, 7], [8]⟩ ⟨[], []⟩

/-! ## Comparisons -/

theorem fUnsigned_of_lt {a : Nat} (ha : a < 2 ^ 32) : fUnsigned a = a := by
  unfold fUnsigned
  omega

theorem fSigned_eq_twosComplement {a : Nat} (ha : a < 2 ^ 32) :
    fSigned a = twosComplement a := by
  unfold fSigned twosComplement
  split <;> split <;> omega

/-- The boolean view of a slot built by `Value(bool)` is the boolean, whatever the
bytes left indeterminate. -/
theorem fBool_boolSlot (p : Nat) (r : Bool) : fBool (boolSlot p r) = r := by
  cases r
  · have h : (p % 2 ^ 24 * 256 + 0) % 256 = 0 := by omega
    simp only [fBool, boolSlot, ofBool, Bool.false_eq_true, if_false, h]
    rfl
  · have h : (p % 2 ^ 24 * 256 + 1) % 256 = 1 := by omega
    simp only [fBool, boolSlot, ofBool, if_true, h]
    rfl

theorem boolSlot_lt (p : Nat) (r : Bool) : boolSlot p r < 2 ^ 32 := by
  cases r
  · simp only [boolSlot, ofBool, Bool.false_eq_true, if_false]
    omega
  · simp only [boolSlot, ofBool, if_true]
    omega

/-- The eight ordered integer comparisons leave a slot built by `Value(bool)` from what
`compareSpec` asks. -/
theorem step_compare {T : Target} {code : List Nat} {ip c : Nat}
    {inst : ByteCodeInstruction} (s g : List Value) (a b : Nat) (r : Bool)
    (hop : code[ip]? = some c) (hdec : T.decode c = some inst)
    (ha : a < 2 ^ 32) (hb : b < 2 ^ 32) (hr : compareSpec inst a b = some r) :
    step T code ip ⟨s ++ [a, b], g⟩
      = .ok (.next (ip + 1) ⟨s ++ [boolSlot (T.boolPad inst a b) r], g⟩) := by
  cases inst <;> first
    | exact Option.noConfusion hr
    | (simp only [compareSpec, Option.some.injEq] at hr
       subst hr
       refine step_binary s g hop hdec rfl ?_
       simp only [uint32Cmp, int32Cmp, fUnsigned_of_lt ha, fUnsigned_of_lt hb,
         fSigned_eq_twosComplement ha, fSigned_eq_twosComplement hb])

/-- C14: on 32-bit slots `a` (below) and `b` (top), `compareUGT`, `compareUGTEQ`,
`compareULT`, `compareULTEQ` replace the two slots with one slot `q` whose boolean view
`fBool q` is the result of comparing `a` and `b` as natural numbers below `2 ^ 32`, and
`compareSGT`, `compareSGTEQ`, `compareSLT`, `compareSLTEQ` with one whose boolean view
is that of comparing their two's-complement readings (`compareSpec` lists the eight);
for `a = 0x80000000`, `b = 1` the unsigned `>` is true and the signed `>` is false. The
three bytes of `q` above `fBool` are not determined: on `keepTarget` the unsigned `>`
leaves `0x80000001`, which reads true. -/
theorem C14_unsigned_and_signed_compare (T : Target) (code : List Nat) (ip byte : Nat)
    (inst : ByteCodeInstruction) (s g : List Value) (a b : Nat) (r : Bool)
    (hop : code[ip]? = some byte) (hdec : T.decode byte = some inst)
    (ha : a < 2 ^ 32) (hb : b < 2 ^ 32) (hr : compareSpec inst a b = some r) :
    (∃ q, step T code ip ⟨s ++ [a, b], g⟩ = .ok (.next (ip + 1) ⟨s ++ [q], g⟩) ∧
      q < 2 ^ 32 ∧ fBool q = r) ∧
    compareSpec .kCompareUGT 0x80000000 1 = some true ∧
    compareSpec .kCompareSGT 0x80000000 1 = some false ∧
    step keepTarget [17] 0 ⟨[0x80000000, 1], []⟩ = .ok (.next 1 ⟨[0x80000001], []⟩) ∧
    fBool 0x80000001 = true :=
  ⟨⟨boolSlot (T.boolPad inst a b) r, step_compare s g a b r hop hdec ha hb hr,
      boolSlot_lt _ _, fBool_boolSlot _ _⟩,
    by decide, by decide, rfl, by decide⟩

/-- C14 at a concrete input: `compareUGT` on `a = 0x80000000`, `b = 1` leaves true. -/
theorem C14_unsigned_and_signed_compare_witness :
    (∃ q, step demoTarget [17] 0 ⟨[5] ++ [0x80000000, 1], []⟩
        = .ok (.next (0 + 1) ⟨[5] ++ [q], []⟩) ∧
      q < 2 ^ 32 ∧ fBool q = true) ∧
    compareSpec .kCompareUGT 0x80000000 1 = some true ∧
    compareSpec .kCompareSGT 0x80000000 1 = some false ∧
    step keepTarget [17] 0 ⟨[0x80000000, 1], []⟩ = .ok (.next 1 ⟨[0x80000001], []⟩) ∧
    fBool 0x80000001 = true :=
  C14_unsigned_and_signed_compare demoTarget [17] 0 17 .kCompareUGT [5] [] 0x80000000 1 true
    (by decide) (by decide) (by decide) (by decide) (by decide)

/-! ## `kDup` and `kPop` -/

/-- The instruction `kDup` on a non-empty stack. -/
theorem step_kDup {T : Target} {code : List Nat} {ip b : Nat} (s g : List Value) (v : Value)
    (hop : code[ip]? = some b) (hdec : T.decode b = some .kDup) :
    step T code ip ⟨s ++ [v], g⟩ = .ok (.next (ip + 1) ⟨s ++ [v, v], g⟩) := by
  rw [step_eq_execute _ hop, hdec]
  have hv : binaryCase T .kDup = none := rfl
  simp only [execute, hv, back_concat, Interpreter.push, bind_ok_eq, bind, Except.bind, pure,
    Except.pure, List.append_assoc, List.singleton_append]

/-- The instruction `kPop` with the count 1 on a non-empty stack. -/
theorem step_kPop_one {T : Target} {code : List Nat} {ip b : Nat} (s g : List Value)
    (v : Value) (hop : code[ip]? = some b) (hdec : T.decode b = some .kPop)
    (hcnt : code[ip + 1]? = some 1) :
    step T code ip ⟨s ++ [v], g⟩ = .ok (.next (ip + 2) ⟨s, g⟩) := by
  rw [step_eq_execute _ hop, hdec]
  have hv : binaryCase T .kPop = none := rfl
  simp only [execute, hv, READ8_of hcnt, forDown, pop_concat, bind_ok_eq, bind, Except.bind,
    pure, Except.pure]

/-- C15: on every non-empty stack `s ++ [v]`, `dup` leaves `s ++ [v, v]` and `pop` with
the count 1 then leaves `s ++ [v]`, the stack before the two instructions; the globals
are untouched. -/
theorem C15_dup_then_pop (T : Target) (code : List Nat) (ip ip' b b' : Nat)
    (s g : List Value) (v : Value)
    (hop : code[ip]? = some b) (hdec : T.decode b = some .kDup)
    (hop' : code[ip']? = some b') (hdec' : T.decode b' = some .kPop)
    (hcnt : code[ip' + 1]? = some 1) :
    step T code ip ⟨s ++ [v], g⟩ = .ok (.next (ip + 1) ⟨s ++ [v, v], g⟩) ∧
    step T code ip' ⟨s ++ [v, v], g⟩ = .ok (.next (ip' + 2) ⟨s ++ [v], g⟩) := by
  refine ⟨step_kDup s g v hop hdec, ?_⟩
  have h := step_kPop_one (T := T) (s ++ [v]) g v hop' hdec' hcnt
  simpa using h

/-- C15 at a concrete input: `dup, pop 1` on the stack `[4, 7]`. -/
theorem C15_dup_then_pop_witness :
    step demoTarget [26, 42, 1] 0 ⟨[4] ++ [7], [3]⟩
      = .ok (.next (0 + 1) ⟨[4] ++ [7, 7], [3]⟩) ∧
    step demoTarget [26, 42, 1] 1 ⟨[4] ++ [7, 7], [3]⟩
      = .ok (.next (1 + 2) ⟨[4] ++ [7], [3]⟩) :=
  C15_dup_then_pop demoTarget [26, 42, 1] 0 1 26 42 [4] [3] 7 (by decide) (by decide)
    (by decide) (by decide) (by decide)

/-! ## Globals: computed store, immediate load -/

/-- The instruction `kStoreGlobal` on a stack `s ++ [t, v]` whose target is a global. -/
theorem step_kStoreGlobal {T : Target} {code : List Nat} {ip b : Nat} (s g : List Value)
    (t v : Nat) (hop : code[ip]? = some b) (hdec : T.decode b = some .kStoreGlobal)
    (ht : t < g.length) (hlen : g.length < 2 ^ 31) :
    step T code ip ⟨s ++ [t, v], g⟩ = .ok (.next (ip + 1) ⟨s, g.set t v⟩) := by
  rw [step_eq_execute _ hop, hdec]
  have hv : binaryCase T .kStoreGlobal = none := rfl
  have hassert : SkASSERT (decide (fSigned t < intCast g.length)) = .ok () := by
    rw [fSigned_of_lt (by omega), intCast_of_lt hlen]
    simp [SkASSERT, ht]
  have hset : assignAt g (fSigned t) v = .ok (g.set t v) :=
    assignAt_of v (fSigned_of_lt (by omega)) ht
  simp only [execute, hv, pop_two, pop_concat, hassert, Interpreter.setGlobal, hset, bind_ok_eq,
    bind, Except.bind, pure, Except.pure]

/-- The instruction `kLoadGlobal` with an immediate index inside the global table. -/
theorem step_kLoadGlobal {T : Target} {code : List Nat} {ip b : Nat} (s g : List Value)
    (t : Nat) (hop : code[ip]? = some b) (hdec : T.decode b = some .kLoadGlobal)
    (hidx : code[ip + 1]? = some t) (ht : t < g.length) (hlen : g.length < 2 ^ 31) :
    step T code ip ⟨s, g⟩ = .ok (.next (ip + 2) ⟨s ++ [g[t]], g⟩) := by
  rw [step_eq_execute _ hop, hdec]
  have hv : binaryCase T .kLoadGlobal = none := rfl
  have hassert : SkASSERT (decide ((t : Int) < intCast g.length)) = .ok () := by
    rw [intCast_of_lt hlen]
    have : (t : Int) < (g.length : Int) := by omega
    simp [SkASSERT, this]
  have hget : elemAt g (t : Int) = .ok g[t] := elemAt_of rfl (List.getElem?_eq_getElem ht)
  simp only [execute, hv, READ8_of hidx, hassert, hget, Interpreter.push, bind_ok_eq, bind,
    Except.bind, pure, Except.pure]

/-- C20: for a global table `g`, an index `t < |g|` (any such `t`, so also every
`t ≤ 255` that fits the immediate byte), a value `v` and a stack `s`: from `s ++ [t, v]`, `store-global` (target taken from the stack) leaves the
stack `s` and the table `g` with slot `t` replaced by `v`; `load-global` with the
immediate index `t` then leaves the stack `s ++ [v]` and the same table. No other
global and no slot of `s` changes. The table size is one that the cast
`(int) fGlobals.size()` of the source keeps. -/
theorem C20_store_global_then_load_global (T : Target) (code : List Nat) (ip ip' b b' : Nat)
    (s g : List Value) (t v : Nat)
    (hop : code[ip]? = some b) (hdec : T.decode b = some .kStoreGlobal)
    (hop' : code[ip']? = some b') (hdec' : T.decode b' = some .kLoadGlobal)
    (hidx : code[ip' + 1]? = some t)
    (ht : t < g.length) (hlen : g.length < 2 ^ 31) :
    step T code ip ⟨s ++ [t, v], g⟩ = .ok (.next (ip + 1) ⟨s, g.set t v⟩) ∧
    step T code ip' ⟨s, g.set t v⟩ = .ok (.next (ip' + 2) ⟨s ++ [v], g.set t v⟩) := by
  refine ⟨step_kStoreGlobal s g t v hop hdec ht hlen, ?_⟩
  have h := step_kLoadGlobal (T := T) s (g.set t v) t hop' hdec' hidx (by simpa using ht)
    (by simpa using hlen)
  simpa using h

/-- C20 at a concrete input: global 1 of `[10, 11, 12]` is stored to and read back. -/
theorem C20_store_global_then_load_global_witness :
    step demoTarget [49, 30, 1] 0 ⟨[6] ++ [1, 5], [10, 11, 12]⟩
      = .ok (.next (0 + 1) ⟨[6], [10, 11, 12].set 1 5⟩) ∧
    step demoTarget [49, 30, 1] 1 ⟨[6], [10, 11, 12].set 1 5⟩
      = .ok (.next (1 + 2) ⟨[6] ++ [5], [10, 11, 12].set 1 5⟩) :=
  C20_store_global_then_load_global demoTarget [49, 30, 1] 0 1 49 30 [6] [10, 11, 12] 1 5
    (by decide) (by decide) (by decide) (by decide) (by decide) (by decide) (by decide)

/-! ## `kSwizzle` -/

theorem bufferGet_of {buf : Buffer} {i : Nat} {v : Value} (h : buf[i]? = some (some v)) :
    bufferGet buf i = .ok v := by
  simp only [bufferGet, h]

/-- The second loop of `kSwizzle`: each turn reads the next index byte and pushes the
buffer element it names. -/
theorem swizzle_push_loop (code : List Nat) (vec : Buffer) (g : List Value) :
    ∀ (idx : List Nat) (vals : List Value),
      List.Forall₂ (fun (i : Nat) (v : Value) => vec[i]? = some (some v)) idx vals →
      ∀ (ip : Nat) (acc : List Value),
        (∀ j, j < idx.length → code[ip + j]? = idx[j]?) →
        forDown (fun _ (st : Nat × Interpreter) => do
          let (index, ip) ← READ8 code st.1
          let v ← bufferGet vec index
          pure (ip, st.2.push v)) idx.length (ip, ⟨acc, g⟩)
        = .ok (ip + idx.length, ⟨acc ++ vals, g⟩) := by
  intro idx vals h
  induction h with
  | nil =>
    intro ip acc _
    simp [forDown]
  | @cons i v idx vals hiv _ ih =>
    intro ip acc hcode
    have hread : READ8 code ip = .ok (i, ip + 1) := by
      apply READ8_of
      have := hcode 0 (by simp)
      simpa using this
    have hget : bufferGet vec i = .ok v := bufferGet_of hiv
    have hrec := ih (ip + 1) (acc ++ [v])
      (by
        intro j hj
        have := hcode (j + 1) (by simp; omega)
        simpa [Nat.add_assoc, Nat.add_comm 1 j] using this)
    simp only [List.length_cons]
    rw [forDown]
    simp only [hread, hget, Interpreter.push, bind_ok_eq, bind, Except.bind, pure, Except.pure]
      at hrec ⊢
    rw [hrec]
    simp only [List.append_assoc, List.singleton_append, Nat.add_assoc, Nat.add_comm 1]

theorem code_layout (pre mid post : List Nat) (j : Nat) (hj : j < mid.length) :
    (pre ++ mid ++ post)[pre.length + j]? = mid[j]? := by
  rw [List.append_assoc, List.getElem?_append_right (by omega)]
  simp only [Nat.add_sub_cancel_left]
  exact List.getElem?_append_left hj

/-- The instruction `kSwizzle` whose source count fits the buffer `vec[4]`. -/
theorem step_kSwizzle (T : Target) (pre post idx : List Nat) (b srcCount : Nat)
    (s vs vals g : List Value) (hdec : T.decode b = some .kSwizzle)
    (hsrc : srcCount ≤ 4) (hvs : vs.length = srcCount)
    (hvals : List.Forall₂ (fun (i : Nat) (v : Value) => vs[i]? = some v) idx vals) :
    step T (pre ++ (b :: srcCount :: idx.length :: idx) ++ post) pre.length ⟨s ++ vs, g⟩
      = .ok (.next (pre.length + 3 + idx.length) ⟨s ++ vals, g⟩) := by
  have hlay := code_layout pre (b :: srcCount :: idx.length :: idx) post
  have hop : (pre ++ (b :: srcCount :: idx.length :: idx) ++ post)[pre.length]? = some b := by
    simpa using hlay 0 (by simp)
  have hsrcb : (pre ++ (b :: srcCount :: idx.length :: idx) ++ post)[pre.length + 1]?
      = some srcCount := by
    simpa using hlay 1 (by simp)
  have hdstb : (pre ++ (b :: srcCount :: idx.length :: idx) ++ post)[pre.length + 1 + 1]?
      = some idx.length := by
    rw [show pre.length + 1 + 1 = pre.length + 2 by omega, hlay 2 (by simp)]
    simp
  have hidx : ∀ j, j < idx.length →
      (pre ++ (b :: srcCount :: idx.length :: idx) ++ post)[pre.length + 1 + 1 + 1 + j]?
        = idx[j]? := by
    intro j hj
    have := hlay (j + 3) (by simp; omega)
    rw [show pre.length + 1 + 1 + 1 + j = pre.length + (j + 3) by omega, this]
    simp
  have h1 := vector_pop_loop s g srcCount vs (newBuffer 4) hvs
    (by rw [newBuffer_length]; exact hsrc)
  have h2 := swizzle_push_loop (pre ++ (b :: srcCount :: idx.length :: idx) ++ post)
    (vs.map some ++ (newBuffer 4).drop srcCount) g idx vals
    (by
      refine List.Forall₂.imp ?_ hvals
      intro i v hiv
      have hlt : i < vs.length := by
        by_contra hge
        rw [List.getElem?_eq_none (by omega)] at hiv
        exact Option.noConfusion hiv
      rw [List.getElem?_append_left (by simpa using hlt)]
      simp [hiv])
    (pre.length + 1 + 1 + 1) s hidx
  have hv : binaryCase T .kSwizzle = none := rfl
  rw [step_eq_execute _ hop, hdec]
  simp only [execute, hv, READ8_of hsrcb, bind_ok_eq]
  simp only [bind, Except.bind, pure, Except.pure] at h1 h2 ⊢
  rw [h1]
  simp only [READ8_of hdstb]
  rw [h2]

/-- The instruction `kSwizzle` whose source count exceeds the buffer `vec[4]`: the first
turn of the first loop stores at index `srcCount - 1`, outside the buffer. -/
theorem step_kSwizzle_overrun (T : Target) (code : List Nat) (ip b srcCount : Nat)
    (s vs g : List Value) (hop : code[ip]? = some b) (hdec : T.decode b = some .kSwizzle)
    (hcnt : code[ip + 1]? = some srcCount) (hsrc : 4 < srcCount) (hvs : vs.length = srcCount) :
    step T code ip ⟨s ++ vs, g⟩ = .error .undefined := by
  obtain ⟨n, rfl⟩ : ∃ n, srcCount = n + 1 := ⟨srcCount - 1, by omega⟩
  obtain ⟨vs', v, rfl, _⟩ := exists_concat_of_length_succ vs hvs
  have hset : bufferSet (newBuffer 4) n v = .error .undefined := by
    have : ¬ n < 4 := by omega
    simp [bufferSet, newBuffer, this]
  have hv : binaryCase T .kSwizzle = none := rfl
  rw [step_eq_execute _ hop, hdec]
  simp only [execute, hv, READ8_of hcnt, bind_ok_eq, forDown, pop_append_concat, hset,
    bind_error_eq]

/-- C12: on a stack `s ++ vs` with `|vs| = srcCount`, `srcCount` within the width 4 of
the lane buffer `vec`, and for an index list `idx` with every `idx[j] < srcCount`,
`swizzle(srcCount, |idx|, idx)` pops the `srcCount` values and pushes
`vs[idx[0]], vs[idx[1]], ...` in list order (`vals` names them; repeats and omissions
are allowed), leaving `s ++ vals`, and `ip` ends after the last index byte. In
particular `swizzle(4, 2, [3, 0])` on `[a, b, c, d]` yields `[d, a]`. -/
theorem C12_swizzle_selects (T : Target) (pre post idx : List Nat) (b srcCount : Nat)
    (s vs vals g : List Value) (hdec : T.decode b = some .kSwizzle)
    (hsrc : srcCount ≤ 4) (hvs : vs.length = srcCount)
    (hvals : List.Forall₂ (fun (i : Nat) (v : Value) => vs[i]? = some v) idx vals) :
    step T (pre ++ (b :: srcCount :: idx.length :: idx) ++ post) pre.length ⟨s ++ vs, g⟩
      = .ok (.next (pre.length + 3 + idx.length) ⟨s ++ vals, g⟩) ∧
    ∀ x y z w : Value,
      step T (pre ++ (b :: 4 :: [3, 0].length :: [3, 0]) ++ post) pre.length
          ⟨[] ++ [x, y, z, w], g⟩
        = .ok (.next (pre.length + 3 + [3, 0].length) ⟨[] ++ [w, x], g⟩) :=
  ⟨step_kSwizzle T pre post idx b srcCount s vs vals g hdec hsrc hvs hvals,
    fun x y z w => step_kSwizzle T pre post [3, 0] b 4 [] [x, y, z, w] [w, x] g hdec
      (le_refl 4) rfl (.cons rfl (.cons rfl .nil))⟩

/-- C12 at a concrete input: `swizzle(4, 2, [3, 0])` on `[11, 12, 13, 14]` above the
slot 9 yields `[14, 11]`. -/
theorem C12_swizzle_selects_witness :
    step demoTarget ([37] ++ (53 :: 4 :: [3, 0].length :: [3, 0]) ++ [46, 0]) [37].length
        ⟨[9] ++ [11, 12, 13, 14], []⟩
      = .ok (.next ([37].length + 3 + [3, 0].length) ⟨[9] ++ [14, 11], []⟩) ∧
    ∀ x y z w : Value,
      step demoTarget ([37] ++ (53 :: 4 :: [3, 0].length :: [3, 0]) ++ [46, 0]) [37].length
          ⟨[] ++ [x, y, z, w], []⟩
        = .ok (.next ([37].length + 3 + [3, 0].length) ⟨[] ++ [w, x], []⟩) :=
  C12_swizzle_selects demoTarget [37] [46, 0] [3, 0] 53 4 [9] [11, 12, 13, 14] [14, 11] []
    (by decide) (by decide) (by decide) (.cons (by decide) (.cons (by decide) .nil))

/-- C16, at an input where it fails: with `srcCount = 5` on a stack of five slots the
first store of `swizzle` is `vec[4]`, beyond the four elements of `Value vec[4]`, an
access that the embedding records as `undefined`; with `srcCount = 4` every store is
inside the buffer and the instruction executes. -/
theorem C16_swizzle_five_overruns :
    bufferSet (newBuffer 4) 4 5 = .error .undefined ∧
    step demoTarget [53, 5, 1, 0] 0 ⟨[1, 2, 3, 4, 5], []⟩ = .error .undefined ∧
    step demoTarget [53, 4, 1, 0] 0 ⟨[1, 2, 3, 4, 5], []⟩ = .ok (.next 4 ⟨[1, 2], []⟩) :=
  ⟨rfl, rfl, rfl⟩

/-- The values that an index list selects exist when every index is inside the source. -/
theorem select_exists (vs : List Value) :
    ∀ idx : List Nat, (∀ i ∈ idx, i < vs.length) →
      ∃ vals : List Value,
        List.Forall₂ (fun (i : Nat) (v : Value) => vs[i]? = some v) idx vals := by
  intro idx
  induction idx with
  | nil =>
    intro _
    exact ⟨[], .nil⟩
  | cons i rest ih =>
    intro h
    obtain ⟨vals, hvals⟩ := ih (fun j hj => h j (List.mem_cons_of_mem i hj))
    have hi : i < vs.length := h i (List.mem_cons_self i rest)
    exact ⟨vs[i] :: vals, .cons (List.getElem?_eq_getElem hi) hvals⟩

/-- C16 as amended: the lane buffer of `swizzle` is `Value vec[4]`. For every `srcCount`
up to 4 and every stack `s ++ vs` holding the `srcCount` slots `vs`, the first loop
stores all popped values inside the buffer, element `i` holding `vs[i]`, and, if every
index byte is below `srcCount`, the instruction executes without fault and leaves the
selected values `vals`. For every larger `srcCount`, so from 5 to 16, the first store
is at the index `srcCount - 1`, beyond the buffer: an access that C++ leaves undefined,
which the embedding records as `undefined`. -/
theorem C16_swizzle_buffer_is_four (T : Target) (pre post idx : List Nat) (b srcCount : Nat)
    (s vs g : List Value) (hdec : T.decode b = some .kSwizzle)
    (hvs : vs.length = srcCount) :
    (srcCount ≤ 4 →
      forDown (fun i (st : Buffer × Interpreter) => do
        let (v, m) ← st.2.pop
        let vec ← bufferSet st.1 i v
        pure (vec, m)) srcCount (newBuffer 4, ⟨s ++ vs, g⟩)
        = .ok (vs.map some ++ List.replicate (4 - srcCount) none, ⟨s, g⟩) ∧
      ((∀ i ∈ idx, i < srcCount) →
        ∃ vals : List Value,
          List.Forall₂ (fun (i : Nat) (v : Value) => vs[i]? = some v) idx vals ∧
          step T (pre ++ (b :: srcCount :: idx.length :: idx) ++ post) pre.length
              ⟨s ++ vs, g⟩
            = .ok (.next (pre.length + 3 + idx.length) ⟨s ++ vals, g⟩))) ∧
    (4 < srcCount →
      (∀ v : Value, bufferSet (newBuffer 4) (srcCount - 1) v = .error .undefined) ∧
      step T (pre ++ (b :: srcCount :: idx.length :: idx) ++ post) pre.length ⟨s ++ vs, g⟩
        = .error .undefined) := by
  constructor
  · intro hsrc
    constructor
    · have h1 := vector_pop_loop s g srcCount vs (newBuffer 4) hvs
        (by rw [newBuffer_length]; exact hsrc)
      rw [h1]
      simp only [newBuffer, List.drop_replicate]
    · intro hidx
      obtain ⟨vals, hvals⟩ := select_exists vs idx (by rw [hvs]; exact hidx)
      exact ⟨vals, hvals, step_kSwizzle T pre post idx b srcCount s vs vals g hdec hsrc hvs
        hvals⟩
  · intro hsrc
    constructor
    · intro v
      have : ¬ srcCount - 1 < 4 := by omega
      simp [bufferSet, newBuffer, this]
    · have hlay := code_layout pre (b :: srcCount :: idx.length :: idx) post
      exact step_kSwizzle_overrun T _ pre.length b srcCount s vs g
        (by simpa using hlay 0 (by simp)) hdec (by simpa using hlay 1 (by simp))
        hsrc hvs

/-- C16 as amended, at a concrete input: `srcCount = 3` on the stack `[9, 11, 12, 13]`
with the index list `[2, 2]`. -/
theorem C16_swizzle_buffer_is_four_witness :
    (3 ≤ 4 →
      forDown (fun i (st : Buffer × Interpreter) => do
        let (v, m) ← st.2.pop
        let vec ← bufferSet st.1 i v
        pure (vec, m)) 3 (newBuffer 4, ⟨[9] ++ [11, 12, 13], []⟩)
        = .ok ([11, 12, 13].map some ++ List.replicate (4 - 3) none, ⟨[9], []⟩) ∧
      ((∀ i ∈ [2, 2], i < 3) →
        ∃ vals : List Value,
          List.Forall₂ (fun (i : Nat) (v : Value) => [11, 12, 13][i]? = some v) [2, 2] vals ∧
          step demoTarget ([] ++ (53 :: 3 :: [2, 2].length :: [2, 2]) ++ [])
              ([] : List Nat).length ⟨[9] ++ [11, 12, 13], []⟩
            = .ok (.next (([] : List Nat).length + 3 + [2, 2].length) ⟨[9] ++ vals, []⟩))) ∧
    (4 < 3 →
      (∀ v : Value, bufferSet (newBuffer 4) (3 - 1) v = .error .undefined) ∧
      step demoTarget ([] ++ (53 :: 3 :: [2, 2].length :: [2, 2]) ++ [])
          ([] : List Nat).length ⟨[9] ++ [11, 12, 13], []⟩
        = .error .undefined) :=
  C16_swizzle_buffer_is_four demoTarget [] [] [2, 2] 53 3 [9] [11, 12, 13] []
    (by decide) (by decide)

/-! ## `kDupDown` -/

theorem insertAt_of {xs : List Value} {i : Int} {n : Nat} (v : Value)
    (hi : i = (n : Int)) (hn : n ≤ xs.length) :
    insertAt xs i v = .ok (xs.take n ++ v :: xs.drop n) := by
  subst hi
  simp [insertAt, hn]

/-- The loop of `kDupDown` from index `i`: the copies of the last `i` of the `count` top
slots already stand beneath `t`. -/
theorem dupDown_loop (s g vs : List Value) (t : Value) :
    ∀ (n i : Nat), i + n = vs.length →
      forUp (fun i (m : Interpreter) => do
        let v ← elemAt m.fStack ((m.fStack.length : Int) - i - 1)
        let s ← insertAt m.fStack ((m.fStack.length : Int) - i - vs.length - 1) v
        pure { m with fStack := s }) n i ⟨s ++ vs.drop (vs.length - i) ++ [t] ++ vs, g⟩
      = .ok ⟨s ++ vs ++ [t] ++ vs, g⟩ := by
  intro n
  induction n with
  | zero =>
    intro i hi
    have : vs.length - i = 0 := by omega
    simp [forUp, this]
  | succ n ih =>
    intro i hi
    have hk : vs.length - i - 1 < vs.length := by omega
    have hlen : (s ++ vs.drop (vs.length - i) ++ [t] ++ vs).length
        = s.length + i + 1 + vs.length := by
      simp only [List.length_append, List.length_drop, List.length_singleton]
      omega
    have hget : elemAt (s ++ vs.drop (vs.length - i) ++ [t] ++ vs)
        (((s ++ vs.drop (vs.length - i) ++ [t] ++ vs).length : Int) - i - 1)
        = .ok vs[vs.length - i - 1] := by
      apply elemAt_of (n := s.length + i + 1 + (vs.length - i - 1))
      · rw [hlen]
        omega
      · rw [List.getElem?_append_right (by
          simp only [List.length_append, List.length_drop, List.length_singleton]
          omega)]
        have : s.length + i + 1 + (vs.length - i - 1)
            - (s ++ vs.drop (vs.length - i) ++ [t]).length = vs.length - i - 1 := by
          simp only [List.length_append, List.length_drop, List.length_singleton]
          omega
        rw [this]
        exact List.getElem?_eq_getElem hk
    have hins : insertAt (s ++ vs.drop (vs.length - i) ++ [t] ++ vs)
        (((s ++ vs.drop (vs.length - i) ++ [t] ++ vs).length : Int) - i - vs.length - 1)
        vs[vs.length - i - 1]
        = .ok (s ++ vs.drop (vs.length - (i + 1)) ++ [t] ++ vs) := by
      have hpos : ((s ++ vs.drop (vs.length - i) ++ [t] ++ vs).length : Int) - i - vs.length - 1
          = (s.length : Int) := by
        rw [hlen]
        omega
      rw [hpos]
      have hdrop : vs.drop (vs.length - (i + 1))
          = vs[vs.length - i - 1] :: vs.drop (vs.length - i) := by
        rw [show vs.length - (i + 1) = vs.length - i - 1 by omega,
          List.drop_eq_getElem_cons hk]
        congr 2
        omega
      rw [insertAt_of _ rfl (by rw [hlen]; omega), hdrop]
      simp only [List.append_assoc, List.take_left', List.drop_left', List.cons_append]
    have hrec := ih (i + 1) (by omega)
    rw [forUp]
    simp only [hget, hins, bind_ok_eq, bind, Except.bind, pure, Except.pure] at hrec ⊢
    exact hrec

/-- The instruction `kDupDown` on a stack `s ++ [t] ++ vs` with `|vs| = count`. -/
theorem step_kDupDown {T : Target} {code : List Nat} {ip b : Nat} (s g vs : List Value)
    (t : Value) (hop : code[ip]? = some b) (hdec : T.decode b = some .kDupDown)
    (hcnt : code[ip + 1]? = some vs.length) :
    step T code ip ⟨s ++ [t] ++ vs, g⟩ = .ok (.next (ip + 2) ⟨s ++ vs ++ [t] ++ vs, g⟩) := by
  have hloop := dupDown_loop s g vs t vs.length 0 (by omega)
  have hv : binaryCase T .kDupDown = none := rfl
  rw [step_eq_execute _ hop, hdec]
  simp only [execute, hv, READ8_of hcnt, bind_ok_eq]
  simp only [Nat.sub_zero, List.drop_length, List.append_nil, bind, Except.bind, pure,
    Except.pure] at hloop ⊢
  rw [hloop]

/-- C18: for every count and every stack `s ++ [t] ++ vs` with `|vs| = count`,
`dup-under(count)` (`kDupDown`) yields `s ++ vs ++ [t] ++ vs`: the stack grows by
exactly `count`, the top `count` slots and the slot `t` beneath them are unchanged, and
copies of the top `count` slots, in their order, stand beneath `t`. -/
theorem C18_dup_down (T : Target) (code : List Nat) (ip b count : Nat)
    (s g vs : List Value) (t : Value) (hop : code[ip]? = some b)
    (hdec : T.decode b = some .kDupDown) (hcnt : code[ip + 1]? = some count)
    (hvs : vs.length = count) :
    step T code ip ⟨s ++ [t] ++ vs, g⟩ = .ok (.next (ip + 2) ⟨s ++ vs ++ [t] ++ vs, g⟩) ∧
    (s ++ vs ++ [t] ++ vs).length = (s ++ [t] ++ vs).length + count := by
  subst hvs
  refine ⟨step_kDupDown s g vs t hop hdec hcnt, ?_⟩
  simp only [List.length_append, List.length_singleton]
  omega

/-- C18 at a concrete input: `dup-under(2)` on `[9, 7, 1, 2]`. -/
theorem C18_dup_down_witness :
    step demoTarget [27, 2] 0 ⟨[9] ++ [7] ++ [1, 2], []⟩
      = .ok (.next (0 + 2) ⟨[9] ++ [1, 2] ++ [7] ++ [1, 2], []⟩) ∧
    ([9] ++ [1, 2] ++ [7] ++ [1, 2] : List Value).length
      = ([9] ++ [7] ++ [1, 2] : List Value).length + 2 :=
  C18_dup_down demoTarget [27, 2] 0 27 2 [9] [] [1, 2] 7 (by decide) (by decide) (by decide)
    (by decide)

/-! ## `kStoreSwizzle` -/

/-- The loop of `kStoreSwizzle` for the indices `n - 1, ..., 0`: the slots of `cur` named
by these indices receive the values of the same indices, the least index winning. -/
theorem storeSwizzle_loop (code : List Nat) (ip target : Nat) (offs : List Nat)
    (vs g : List Value) (size : Nat) (hvs : vs.length = offs.length)
    (hcode : ∀ j, j < offs.length → code[ip + j]? = offs[j]?)
    (hrange : ∀ (j o : Nat), offs[j]? = some o →
      ∃ k : Nat, fSigned target + (o : Int) = (k : Int) ∧ k < size)
    (hlen : size + 1 + offs.length < 2 ^ 31) :
    ∀ (n : Nat) (cur : List Value), n ≤ offs.length → cur.length = size →
      ∃ cur', forDown (fun i (m : Interpreter) => do
          let off ← codeAt code (ip + i)
          SkASSERT (fSigned target + off < intCast m.fStack.length)
          let (v, m) ← m.pop
          m.setStack (fSigned target + off) v) n ⟨cur ++ [target] ++ vs.take n, g⟩
        = .ok ⟨cur' ++ [target], g⟩ ∧ cur'.length = size ∧
        (∀ k : Nat, (∀ (j o : Nat), j < n → offs[j]? = some o →
            fSigned target + (o : Int) ≠ (k : Int)) →
          cur'[k]? = cur[k]?) ∧
        (∀ (j o k : Nat), j < n → offs[j]? = some o → fSigned target + (o : Int) = (k : Int) →
          (∀ j', j' < j → offs[j']? ≠ some o) → cur'[k]? = vs[j]?) := by
  intro n
  induction n with
  | zero =>
    intro cur _ hcur
    refine ⟨cur, ?_, hcur, fun _ _ => rfl, ?_⟩
    · simp [forDown]
    · intro j o k hj
      omega
  | succ n ih =>
    intro cur hn hcur
    have hlt : n < offs.length := by omega
    have hltv : n < vs.length := by omega
    obtain ⟨k, hk, hksize⟩ := hrange n offs[n] (List.getElem?_eq_getElem hlt)
    have hoff : codeAt code (ip + n) = .ok offs[n] := by
      apply codeAt_of
      rw [hcode n hlt]
      exact List.getElem?_eq_getElem hlt
    have htake : vs.take (n + 1) = vs.take n ++ [vs[n]] := by
      rw [List.take_succ, List.getElem?_eq_getElem hltv]
      rfl
    have hstack : cur ++ [target] ++ vs.take (n + 1)
        = (cur ++ [target] ++ vs.take n) ++ [vs[n]] := by
      simp only [htake, List.append_assoc]
    have hassert : SkASSERT (decide (fSigned target + (offs[n] : Int)
        < intCast (cur ++ [target] ++ vs.take (n + 1)).length)) = .ok () := by
      have hl : (cur ++ [target] ++ vs.take (n + 1)).length = size + 1 + (n + 1) := by
        simp only [List.length_append, List.length_singleton, List.length_take, hcur]
        omega
      rw [hl, intCast_of_lt (by omega), hk]
      have : (k : Int) < ((size + 1 + (n + 1) : Nat) : Int) := by omega
      simp only [SkASSERT, this, decide_True, if_true]
    have hset : assignAt (cur ++ [target] ++ vs.take n) (fSigned target + (offs[n] : Int)) vs[n]
        = .ok (cur.set k vs[n] ++ [target] ++ vs.take n) := by
      rw [assignAt_of (n := k) _ hk (by
        simp only [List.length_append, List.length_singleton, hcur]
        omega)]
      rw [List.append_assoc, List.set_append_left _ _ (by omega), List.append_assoc]
    obtain ⟨cur', hrun, hl', hother, hhit⟩ := ih (cur.set k vs[n]) (by omega) (by simpa using hcur)
    refine ⟨cur', ?_, hl', ?_, ?_⟩
    · rw [forDown]
      simp only [hoff, hassert, bind_ok_eq]
      rw [hstack, pop_concat]
      simp only [bind_ok_eq, Interpreter.setStack, hset]
      simp only [bind, Except.bind, pure, Except.pure] at hrun ⊢
      exact hrun
    · intro k' hk'
      rw [hother k' (fun j o hj ho => hk' j o (by omega) ho), List.getElem?_set]
      have hne : k ≠ k' := by
        intro heq
        subst heq
        exact hk' n offs[n] (by omega) (List.getElem?_eq_getElem hlt) hk
      simp [hne]
    · intro j o k' hj ho hko hfirst
      by_cases hjn : j = n
      · subst hjn
        have ho' : o = offs[j] := by
          rw [List.getElem?_eq_getElem hlt] at ho
          exact (Option.some.inj ho).symm
        subst ho'
        have hkk : k' = k := by omega
        subst hkk
        rw [hother k' (fun j' o' hj' ho' heq => by
          have : o' = offs[j] := by omega
          subst this
          exact hfirst j' hj' ho'), List.getElem?_set]
        simp [show k' < cur.length by omega, List.getElem?_eq_getElem hltv]
      · exact hhit j o k' (by omega) ho hko hfirst

/-- The instruction `kStoreSwizzle` on a stack `s ++ [base] ++ vs`. -/
theorem step_kStoreSwizzle (T : Target) (pre post offs : List Nat) (b : Nat) (base : Int)
    (s vs g : List Value) (hdec : T.decode b = some .kStoreSwizzle)
    (hbase : -2 ^ 31 ≤ base ∧ base < 2 ^ 31) (hvs : vs.length = offs.length)
    (hrange : ∀ o : Nat, o ∈ offs → 0 ≤ base + (o : Int) ∧ base + (o : Int) < (s.length : Int))
    (hlen : s.length + 1 + offs.length < 2 ^ 31) :
    ∃ s', step T (pre ++ (b :: offs.length :: offs) ++ post) pre.length
          ⟨s ++ [ofSigned base] ++ vs, g⟩
        = .ok (.next (pre.length + 2 + offs.length) ⟨s', g⟩) ∧
      s'.length = s.length ∧
      (∀ (i j o k : Nat), offs[i]? = some o → offs[j]? = some o →
        (∀ j', j' < j → offs[j']? ≠ some o) → base + (o : Int) = (k : Int) →
        s'[k]? = vs[j]?) ∧
      (∀ k : Nat, (∀ o : Nat, o ∈ offs → base + (o : Int) ≠ (k : Int)) → s'[k]? = s[k]?) := by
  have hlay := code_layout pre (b :: offs.length :: offs) post
  have hop : (pre ++ (b :: offs.length :: offs) ++ post)[pre.length]? = some b := by
    simpa using hlay 0 (by simp)
  have hcnt : (pre ++ (b :: offs.length :: offs) ++ post)[pre.length + 1]?
      = some offs.length := by
    simpa using hlay 1 (by simp)
  have hoffs : ∀ j, j < offs.length →
      (pre ++ (b :: offs.length :: offs) ++ post)[pre.length + 1 + 1 + j]? = offs[j]? := by
    intro j hj
    have := hlay (j + 2) (by simp; omega)
    rw [show pre.length + 1 + 1 + j = pre.length + (j + 2) by omega, this]
    simp
  have hfs : fSigned (ofSigned base) = base := fSigned_ofSigned hbase.1 hbase.2
  obtain ⟨s', hrun, hl, hother, hhit⟩ := storeSwizzle_loop
    (pre ++ (b :: offs.length :: offs) ++ post) (pre.length + 1 + 1) (ofSigned base) offs vs g
    s.length hvs hoffs
    (by
      intro j o ho
      obtain ⟨h0, h1⟩ := hrange o (List.getElem?_mem ho)
      refine ⟨(base + (o : Int)).toNat, ?_, ?_⟩
      · rw [hfs]
        omega
      · omega)
    hlen offs.length s (le_refl _) rfl
  have hget : elemAt (s ++ [ofSigned base] ++ vs)
      (((s ++ [ofSigned base] ++ vs).length : Int) - (offs.length : Int) - 1)
      = .ok (ofSigned base) := by
    apply elemAt_of (n := s.length)
    · simp only [List.length_append, List.length_singleton, hvs]
      omega
    · rw [List.append_assoc, List.getElem?_append_right (le_refl _)]
      simp
  have hv : binaryCase T .kStoreSwizzle = none := rfl
  refine ⟨s', ?_, hl, ?_, ?_⟩
  · rw [step_eq_execute _ hop, hdec]
    simp only [execute, hv, READ8_of hcnt, bind_ok_eq, hget]
    have htk : vs.take offs.length = vs := by
      rw [← hvs]
      exact List.take_length vs
    rw [htk] at hrun
    simp only [bind, Except.bind, pure, Except.pure] at hrun ⊢
    rw [hrun]
    simp only [pop_concat]
  · intro i j o k _ hj hfirst hk
    have hjlt : j < offs.length := by
      by_contra hge
      rw [List.getElem?_eq_none (by omega)] at hj
      exact Option.noConfusion hj
    exact hhit j o k hjlt hj (by rw [hfs]; exact hk) hfirst
  · intro k hk
    apply hother k
    intro j o _ ho
    rw [hfs]
    exact hk o (List.getElem?_mem ho)

/-- C19: on a stack `s ++ [base] ++ vs` with `|vs| = N` and an offset list `offs` of
length `N` with every `base + offs[i]` an index of `s`, `store-swizzle` reads `base`
from the slot under the `N` values, removes `N + 1` slots and leaves a stack `s'` of
length `|s|` in which slot `base + offs[i]` holds `vs[j]` for the least `j` with
`offs[j] = offs[i]` (the writes run from `N - 1` down to 0), every other slot of `s` is
unchanged, and `ip` ends after the offset bytes. The stack size is one that the cast
`(int) fStack.size()` of the source keeps. -/
theorem C19_store_swizzle (T : Target) (pre post offs : List Nat) (b : Nat) (base : Int)
    (s vs g : List Value) (hdec : T.decode b = some .kStoreSwizzle)
    (hbase : -2 ^ 31 ≤ base ∧ base < 2 ^ 31) (hvs : vs.length = offs.length)
    (hrange : ∀ o : Nat, o ∈ offs → 0 ≤ base + (o : Int) ∧ base + (o : Int) < (s.length : Int))
    (hlen : s.length + 1 + offs.length < 2 ^ 31) :
    ∃ s', step T (pre ++ (b :: offs.length :: offs) ++ post) pre.length
          ⟨s ++ [ofSigned base] ++ vs, g⟩
        = .ok (.next (pre.length + 2 + offs.length) ⟨s', g⟩) ∧
      s'.length = s.length ∧
      (∀ (i j o k : Nat), offs[i]? = some o → offs[j]? = some o →
        (∀ j', j' < j → offs[j']? ≠ some o) → base + (o : Int) = (k : Int) →
        s'[k]? = vs[j]?) ∧
      (∀ k : Nat, (∀ o : Nat, o ∈ offs → base + (o : Int) ≠ (k : Int)) → s'[k]? = s[k]?) :=
  step_kStoreSwizzle T pre post offs b base s vs g hdec hbase hvs hrange hlen

/-- C19 at a concrete input: base 0, offsets `[2, 0, 2]` and values `[4, 5, 6]` over the
stack `[7, 8, 9]`; slot 2 is written twice and keeps the value of the lesser index. -/
theorem C19_store_swizzle_witness :
    ∃ s', step demoTarget ([] ++ (50 :: [2, 0, 2].length :: [2, 0, 2]) ++ [46, 0])
          ([] : List Nat).length ⟨[7, 8, 9] ++ [ofSigned 0] ++ [4, 5, 6], []⟩
        = .ok (.next (([] : List Nat).length + 2 + [2, 0, 2].length) ⟨s', []⟩) ∧
      s'.length = ([7, 8, 9] : List Value).length ∧
      (∀ (i j o k : Nat), [2, 0, 2][i]? = some o → [2, 0, 2][j]? = some o →
        (∀ j', j' < j → [2, 0, 2][j']? ≠ some o) → (0 : Int) + (o : Int) = (k : Int) →
        s'[k]? = ([4, 5, 6] : List Value)[j]?) ∧
      (∀ k : Nat, (∀ o : Nat, o ∈ [2, 0, 2] → (0 : Int) + (o : Int) ≠ (k : Int)) →
        s'[k]? = ([7, 8, 9] : List Value)[k]?) :=
  C19_store_swizzle demoTarget [] [46, 0] [2, 0, 2] 50 0 [7, 8, 9] [4, 5, 6] []
    (by decide) (by decide) (by decide) (by decide) (by decide)

/-! ## The lane-width `kStore` -/

theorem take_set_of_le {α : Type} (a : α) :
    ∀ (l : List α) (n k : Nat), n ≤ k → (l.set k a).take n = l.take n := by
  intro l
  induction l with
  | nil => intro n k _; simp
  | cons x xs ih =>
    intro n k h
    cases n with
    | zero => simp
    | succ n =>
      cases k with
      | zero => omega
      | succ k =>
        simp only [List.set_cons_succ, List.take_succ_cons]
        rw [ih n k (by omega)]

/-- The loop of the lane-width `kStore` for the lanes `n - 1, ..., 0`: lane `i` is
written to slot `base + i`; the slot holding the base stays on the stack. -/
theorem vectorStore_loop (g vs : List Value) (base : Nat) (bv : Value) :
    ∀ (n : Nat) (cur : List Value), n ≤ vs.length → base + vs.length ≤ cur.length →
      cur.length + 1 + vs.length < 2 ^ 31 →
      forDown (fun _ (st : Int × Interpreter) => do
        SkASSERT (st.1 < intCast st.2.fStack.length)
        let (v, m) ← st.2.pop
        let m ← m.setStack (st.1 - 1) v
        pure (st.1 - 1, m)) n ((base : Int) + (n : Int), ⟨cur ++ [bv] ++ vs.take n, g⟩)
      = .ok ((base : Int),
          ⟨cur.take base ++ vs.take n ++ cur.drop (base + n) ++ [bv], g⟩) := by
  intro n
  induction n with
  | zero =>
    intro cur _ _ _
    simp [forDown]
  | succ n ih =>
    intro cur hn hcur hlen
    have hltv : n < vs.length := by omega
    have htake : vs.take (n + 1) = vs.take n ++ [vs[n]] := by
      rw [List.take_succ, List.getElem?_eq_getElem hltv]
      rfl
    have hstack : cur ++ [bv] ++ vs.take (n + 1) = (cur ++ [bv] ++ vs.take n) ++ [vs[n]] := by
      simp only [htake, List.append_assoc]
    have hassert : SkASSERT (decide ((base : Int) + ((n + 1 : Nat) : Int)
        < intCast (cur ++ [bv] ++ vs.take (n + 1)).length)) = .ok () := by
      have hl : (cur ++ [bv] ++ vs.take (n + 1)).length = cur.length + 1 + (n + 1) := by
        simp only [List.length_append, List.length_singleton, List.length_take]
        omega
      rw [hl, intCast_of_lt (by omega)]
      have : (base : Int) + ((n + 1 : Nat) : Int) < ((cur.length + 1 + (n + 1) : Nat) : Int) := by
        omega
      simp only [SkASSERT, this, decide_True, if_true]
    have hset : assignAt (cur ++ [bv] ++ vs.take n) ((base : Int) + ((n + 1 : Nat) : Int) - 1)
        vs[n] = .ok (cur.set (base + n) vs[n] ++ [bv] ++ vs.take n) := by
      rw [assignAt_of (n := base + n) _ (by omega) (by
        simp only [List.length_append, List.length_singleton]
        omega)]
      rw [List.append_assoc, List.set_append_left _ _ (by omega), List.append_assoc]
    have hidx : (base : Int) + ((n + 1 : Nat) : Int) - 1 = (base : Int) + (n : Int) := by omega
    have hrec := ih (cur.set (base + n) vs[n]) (by omega) (by simpa using hcur)
      (by simpa using hlen)
    rw [forDown]
    simp only [hassert, bind_ok_eq]
    rw [hstack, pop_concat]
    simp only [bind_ok_eq, Interpreter.setStack, hset]
    simp only [bind, Except.bind, pure, Except.pure, hidx, Interpreter.setStack] at hrec ⊢
    rw [hrec, take_set_of_le _ _ _ _ (by omega), drop_set_self _ _ _ (by omega), htake]
    simp only [List.append_assoc, List.singleton_append, List.cons_append, List.nil_append]
    rfl

/-- The instruction `vector(count, store)` on a stack `s ++ [base] ++ vs`: the lanes go
to the slots `base, ..., base + count - 1` of `s`, the `count` values are popped, and
the slot holding the base is left on top of the stack. -/
theorem step_vector_kStore {T : Target} {code : List Nat} {ip b c : Nat}
    (s vs g : List Value) (base : Nat)
    (hop : code[ip]? = some b) (hdec : T.decode b = some .kVector)
    (hcnt : code[ip + 1]? = some vs.length) (hsub : code[ip + 2]? = some c)
    (hinst : T.decode c = some .kStore)
    (hrange : base + vs.length ≤ s.length) (hlen : s.length + 1 + vs.length < 2 ^ 31) :
    step T code ip ⟨s ++ [base] ++ vs, g⟩
      = .ok (.next (ip + 3) ⟨s.take base ++ vs ++ s.drop (base + vs.length) ++ [base], g⟩) := by
  have hloop := vectorStore_loop g vs base base vs.length s (le_refl _) hrange hlen
  have hget : elemAt (s ++ [base] ++ vs)
      (((s ++ [base] ++ vs).length : Int) - (vs.length : Int) - 1) = .ok base := by
    apply elemAt_of (n := s.length)
    · simp only [List.length_append, List.length_singleton]
      omega
    · rw [List.append_assoc, List.getElem?_append_right (le_refl _)]
      simp
  have hv : binaryCase T .kVector = none := rfl
  have hv' : binaryCase T .kStore = none := rfl
  rw [step_eq_execute _ hop, hdec]
  simp only [execute, hv, READ8_of hcnt, READ8_of hsub, bind_ok_eq, hinst, executeVector, hv',
    hget, fSigned_of_lt (show base < 2 ^ 31 by omega)]
  rw [List.take_length] at hloop
  simp only [bind, Except.bind, pure, Except.pure] at hloop ⊢
  rw [hloop]

/-- C17, at an input where it fails: `vector(2, store)` on the stack `[7, 8, 9, 1, 5, 6]`
(base 1 under the values 5 and 6) writes 5 and 6 to the slots 1 and 2 and leaves
`[7, 5, 6, 1]`: the stack shrinks by the 2 values only, the base index stays on top. -/
theorem C17_vector_store_keeps_base :
    step demoTarget [55, 2, 48] 0 ⟨[7, 8, 9] ++ [1] ++ [5, 6], []⟩
      = .ok (.next 3 ⟨[7, 5, 6, 1], []⟩) ∧
    ([7, 5, 6, 1] : List Value).length + 2 = ([7, 8, 9] ++ [1] ++ [5, 6] : List Value).length :=
  ⟨rfl, rfl⟩

/-! ## `kConditionalBranch` and the maximum of two integers -/

/-- The instruction `kConditionalBranch`: one slot is popped and read as a boolean; `ip`
becomes the 16-bit operand if it is true and stands after the operand otherwise. -/
theorem step_kConditionalBranch {T : Target} {code : List Nat} {ip b : Nat}
    (lo hi : Nat) (s g : List Value) (v : Value)
    (hop : code[ip]? = some b) (hdec : T.decode b = some .kConditionalBranch)
    (hal : (ip + 1) % 2 = 0) (hlo : code[ip + 1]? = some lo) (hhi : code[ip + 2]? = some hi) :
    step T code ip ⟨s ++ [v], g⟩
      = .ok (.next (if fBool v then lo + 256 * hi else ip + 3) ⟨s, g⟩) := by
  rw [step_eq_execute _ hop, hdec]
  have hv : binaryCase T .kConditionalBranch = none := rfl
  simp [execute, hv, READ16, SkASSERT, hal, hlo, hhi, pop_concat, bind, Except.bind, pure,
    Except.pure]

/-- The instruction `return 1` on a one-slot stack. -/
theorem step_return_one {T : Target} {code : List Nat} {ip b : Nat} (g : List Value)
    (x : Value) (hop : code[ip]? = some b) (hdec : T.decode b = some .kReturn)
    (hcnt : code[ip + 1]? = some 1) :
    step T code ip ⟨[x], g⟩ = .ok (.returned ⟨[x], g⟩) := by
  rw [step_eq_execute _ hop, hdec]
  have hv : binaryCase T .kReturn = none := rfl
  simp [execute, hv, READ8_of hcnt, forUp, elemAt, Interpreter.setStack, assignAt, bind,
    Except.bind, pure, Except.pure]

/-- The loop on the byte-code `maxProgram`, from the empty stack. -/
theorem maxProgram_loop (T : Target) (nop push sgt cbr ret a b k : Nat)
    (hnop : T.decode nop = some .kNop) (hpush : T.decode push = some .kPushImmediate)
    (hsgt : T.decode sgt = some .kCompareSGT)
    (hcbr : T.decode cbr = some .kConditionalBranch) (hret : T.decode ret = some .kReturn)
    (ha : a < 2 ^ 32) (hb : b < 2 ^ 32) :
    runLoop T (maxProgram nop push sgt cbr ret a b) (k + 15) 0 ⟨[], []⟩
      = .finished ⟨[if twosComplement a > twosComplement b then a else b], []⟩ := by
  rw [runLoop_next _ (step_kNop _ (b := nop) (by simp [maxProgram]) hnop)]
  rw [runLoop_next _ (step_kNop _ (b := nop) (by simp [maxProgram]) hnop)]
  rw [runLoop_next _ (step_kNop _ (b := nop) (by simp [maxProgram]) hnop)]
  rw [runLoop_next _ (step_kPushImmediate _ (b := push) (w := a % 256)
    (x := a / 256 % 256) (y := a / 65536 % 256) (z := a / 16777216 % 256)
    (by simp [maxProgram]) hpush (by decide) (by simp [maxProgram, le32])
    (by simp [maxProgram, le32]) (by simp [maxProgram, le32]) (by simp [maxProgram, le32]))]
  rw [le32_value a ha, ofUnsigned_of_lt ha]
  rw [runLoop_next _ (step_kNop _ (b := nop) (by simp [maxProgram, le32]) hnop)]
  rw [runLoop_next _ (step_kNop _ (b := nop) (by simp [maxProgram, le32]) hnop)]
  rw [runLoop_next _ (step_kNop _ (b := nop) (by simp [maxProgram, le32]) hnop)]
  rw [runLoop_next _ (step_kPushImmediate _ (b := push) (w := b % 256)
    (x := b / 256 % 256) (y := b / 65536 % 256) (z := b / 16777216 % 256)
    (by simp [maxProgram, le32]) hpush (by decide) (by simp [maxProgram, le32])
    (by simp [maxProgram, le32]) (by simp [maxProgram, le32]) (by simp [maxProgram, le32]))]
  rw [le32_value b hb, ofUnsigned_of_lt hb]
  have hst : (Interpreter.push (Interpreter.push ⟨[], []⟩ a) b) = ⟨[] ++ [a, b], []⟩ := rfl
  rw [hst]
  rw [runLoop_next _ (step_compare (r := decide (twosComplement a > twosComplement b)) [] []
    a b (c := sgt) (by simp [maxProgram, le32]) hsgt ha hb rfl)]
  rw [runLoop_next _ (step_kConditionalBranch 30 0 [] []
    (boolSlot (T.boolPad .kCompareSGT a b) (decide (twosComplement a > twosComplement b)))
    (b := cbr)
    (by simp [maxProgram, le32]) hcbr (by decide) (by simp [maxProgram, le32])
    (by simp [maxProgram, le32]))]
  rw [fBool_boolSlot]
  by_cases h : twosComplement a > twosComplement b
  · simp only [h, decide_True, if_true]
    rw [runLoop_next _ (step_kNop _ (b := nop) (by simp [maxProgram, le32]) hnop)]
    rw [runLoop_next _ (step_kPushImmediate _ (b := push) (w := a % 256)
      (x := a / 256 % 256) (y := a / 65536 % 256) (z := a / 16777216 % 256)
      (by simp [maxProgram, le32]) hpush (by decide) (by simp [maxProgram, le32])
      (by simp [maxProgram, le32]) (by simp [maxProgram, le32]) (by simp [maxProgram, le32]))]
    rw [le32_value a ha, ofUnsigned_of_lt ha]
    exact runLoop_returned _ (step_return_one [] a (b := ret) (by simp [maxProgram, le32]) hret
      (by simp [maxProgram, le32]))
  · simp only [h, decide_False, if_false, Bool.false_eq_true]
    rw [runLoop_next _ (step_kNop _ (b := nop) (by simp [maxProgram, le32]) hnop)]
    rw [runLoop_next _ (step_kNop _ (b := nop) (by simp [maxProgram, le32]) hnop)]
    rw [runLoop_next _ (step_kNop _ (b := nop) (by simp [maxProgram, le32]) hnop)]
    rw [runLoop_next _ (step_kPushImmediate _ (b := push) (w := b % 256)
      (x := b / 256 % 256) (y := b / 65536 % 256) (z := b / 16777216 % 256)
      (by simp [maxProgram, le32]) hpush (by decide) (by simp [maxProgram, le32])
      (by simp [maxProgram, le32]) (by simp [maxProgram, le32]) (by simp [maxProgram, le32]))]
    rw [le32_value b hb, ofUnsigned_of_lt hb]
    exact runLoop_returned _ (step_return_one [] b (b := ret) (by simp [maxProgram, le32]) hret
      (by simp [maxProgram, le32]))

/-- C13: for 32-bit `a` and `b`, the function whose body is `maxProgram` (the byte-code
of `a > b ? a : b`) finishes within fifteen turns and its result slot 0 holds `a` if
`a > b` as signed integers and `b` otherwise, which is the signed maximum of the two;
`conditionalBranch` pops exactly one slot, read as a boolean, sets `ip` to its 16-bit
operand when it is true and otherwise goes on after the operand. -/
theorem C13_max_by_conditional_branch (T : Target) (nop push sgt cbr ret a b fuel : Nat)
    (m0 : Interpreter)
    (hnop : T.decode nop = some .kNop) (hpush : T.decode push = some .kPushImmediate)
    (hsgt : T.decode sgt = some .kCompareSGT)
    (hcbr : T.decode cbr = some .kConditionalBranch) (hret : T.decode ret = some .kReturn)
    (ha : a < 2 ^ 32) (hb : b < 2 ^ 32) (hfuel : 15 ≤ fuel) :
    run T fuel (bareFunction (maxProgram nop push sgt cbr ret a b)) [] [] m0
      = .finished ([], ⟨[if twosComplement a > twosComplement b then a else b], []⟩) ∧
    twosComplement (if twosComplement a > twosComplement b then a else b)
      = max (twosComplement a) (twosComplement b) ∧
    (∀ (code : List Nat) (ip lo hi : Nat) (s g : List Value) (v : Value),
      code[ip]? = some cbr → (ip + 1) % 2 = 0 → code[ip + 1]? = some lo →
      code[ip + 2]? = some hi →
      step T code ip ⟨s ++ [v], g⟩
        = .ok (.next (if fBool v then lo + 256 * hi else ip + 3) ⟨s, g⟩)) := by
  obtain ⟨k, rfl⟩ : ∃ k, fuel = k + 15 := ⟨fuel - 15, by omega⟩
  refine ⟨?_, ?_, ?_⟩
  · have hsetup : setup (bareFunction (maxProgram nop push sgt cbr ret a b)) [] [] m0
        = .ok ⟨[], []⟩ := by
      simp [setup, bareFunction, forUp, forDown, bind, Except.bind]
    have hcode : (bareFunction (maxProgram nop push sgt cbr ret a b)).fCode
        = maxProgram nop push sgt cbr ret a b := rfl
    simp only [run, hsetup]
    rw [hcode, maxProgram_loop T nop push sgt cbr ret a b k hnop hpush hsgt hcbr hret ha hb]
    simp [bareFunction, writeBack]
  · by_cases h : twosComplement a > twosComplement b
    · rw [if_pos h, max_eq_left (le_of_lt h)]
    · rw [if_neg h, max_eq_right (not_lt.mp h)]
  · intro code ip lo hi s g v hop hal hlo hhi
    exact step_kConditionalBranch lo hi s g v hop hcbr hal hlo hhi

/-- C13 at `a = 3`, `b = 7` on the demo target: the result is `[7]`. -/
theorem C13_max_by_conditional_branch_witness :
    run demoTarget 15 (bareFunction (maxProgram 37 43 13 21 46 3 7)) [] [] ⟨[1], [2]⟩
      = .finished ([], ⟨[7], []⟩) ∧
    twosComplement 7 = max (twosComplement 3) (twosComplement 7) ∧
    (∀ (code : List Nat) (ip lo hi : Nat) (s g : List Value) (v : Value),
      code[ip]? = some 21 → (ip + 1) % 2 = 0 → code[ip + 1]? = some lo →
      code[ip + 2]? = some hi →
      step demoTarget code ip ⟨s ++ [v], g⟩
        = .ok (.next (if fBool v then lo + 256 * hi else ip + 3) ⟨s, g⟩)) :=
  C13_max_by_conditional_branch demoTarget 37 43 13 21 46 3 7 15 ⟨[1], [2]⟩ (by decide)
    (by decide) (by decide) (by decide) (by decide) (by decide) (by decide) (by decide)

/-! ## Integer division and remainder -/

theorem tdiv_eq_truncQuotient (a b : Int) : Int.tdiv a b = truncQuotient a b := by
  unfold truncQuotient
  obtain ⟨n, rfl | rfl⟩ := Int.eq_nat_or_neg a <;> obtain ⟨m, rfl | rfl⟩ := Int.eq_nat_or_neg b
  all_goals
    rcases Nat.eq_zero_or_pos n with rfl | hn <;> rcases Nat.eq_zero_or_pos m with rfl | hm
  all_goals
    simp only [Int.neg_tdiv, Int.tdiv_neg, Int.natAbs_neg, Int.natAbs_ofNat, Int.sign_neg,
      Int.sign_zero, Int.natAbs_zero, Nat.div_zero, Nat.zero_div, Int.zero_tdiv, Int.tdiv_zero,
      Nat.cast_zero, Int.neg_zero, mul_zero, zero_mul, neg_zero]
  all_goals
    rw [Int.sign_ofNat_of_nonzero (Nat.pos_iff_ne_zero.mp hn),
      Int.sign_ofNat_of_nonzero (Nat.pos_iff_ne_zero.mp hm), ← Int.ofNat_tdiv]
    ring

theorem neg_tmod (a b : Int) : Int.tmod (-a) b = -Int.tmod a b := by
  rw [Int.tmod_def, Int.tmod_def, Int.neg_tdiv]
  ring

/-- The remainder of the truncated division: smaller in magnitude than the divisor and
of the sign of the dividend. -/
theorem tmod_bounds (a b : Int) (h0 : b ≠ 0) :
    (Int.tmod a b).natAbs < b.natAbs ∧ (0 ≤ a → 0 ≤ Int.tmod a b) ∧
      (a ≤ 0 → Int.tmod a b ≤ 0) := by
  have key : ∀ (n : Nat) (c : Int), c ≠ 0 →
      0 ≤ Int.tmod (n : Int) c ∧ (Int.tmod (n : Int) c).natAbs < c.natAbs := by
    intro n c hc
    obtain ⟨m, rfl | rfl⟩ := Int.eq_nat_or_neg c
    · have hm : 0 < m := by omega
      have := Nat.mod_lt n hm
      rw [← Int.ofNat_tmod]
      omega
    · have hm : 0 < m := by omega
      have := Nat.mod_lt n hm
      rw [Int.tmod_neg, ← Int.ofNat_tmod]
      omega
  obtain ⟨n, rfl | rfl⟩ := Int.eq_nat_or_neg a
  · obtain ⟨h1, h2⟩ := key n b h0
    refine ⟨h2, fun _ => h1, fun h => ?_⟩
    have hn : n = 0 := by omega
    subst hn
    simp
  · obtain ⟨h1, h2⟩ := key n b h0
    rw [neg_tmod]
    refine ⟨by rw [Int.natAbs_neg]; exact h2, fun h => ?_, fun _ => by omega⟩
    have hn : n = 0 := by omega
    subst hn
    simp

/-- The truncated quotient of two `int32_t` values is an `int32_t` value, but for
`INT_MIN / -1`. -/
theorem tdiv_range (a b : Int) (ha : -2 ^ 31 ≤ a ∧ a < 2 ^ 31)
    (hov : ¬ (a = -2 ^ 31 ∧ b = -1)) :
    -2 ^ 31 ≤ Int.tdiv a b ∧ Int.tdiv a b < 2 ^ 31 := by
  have hnat : (Int.tdiv a b).natAbs = a.natAbs / b.natAbs := Int.natAbs_tdiv a b
  have hle : a.natAbs / b.natAbs ≤ a.natAbs := Nat.div_le_self _ _
  constructor
  · omega
  · by_contra hge
    have ha' : a = -2 ^ 31 := by omega
    subst ha'
    have h31 : (-2 ^ 31 : Int).natAbs = 2 ^ 31 := by decide
    rw [h31] at hnat hle
    rcases Nat.lt_or_ge b.natAbs 2 with hb2 | hb2
    · have hcases : b = 0 ∨ b = 1 ∨ b = -1 := by omega
      rcases hcases with rfl | rfl | rfl
      · simp at hge
      · simp at hge
      · exact hov ⟨rfl, rfl⟩
    · have : 2 ^ 31 / b.natAbs ≤ 2 ^ 31 / 2 := Nat.div_le_div_left hb2 (by decide)
      omega

theorem ofSigned_lt (i : Int) : ofSigned i < 2 ^ 32 := by
  unfold ofSigned
  omega

theorem twosComplement_ofSigned {i : Int} (h1 : -2 ^ 31 ≤ i) (h2 : i < 2 ^ 31) :
    twosComplement (ofSigned i) = i := by
  rw [← fSigned_eq_twosComplement (ofSigned_lt i)]
  exact fSigned_ofSigned h1 h2

theorem twosComplement_range {a : Nat} (ha : a < 2 ^ 32) :
    -2 ^ 31 ≤ twosComplement a ∧ twosComplement a < 2 ^ 31 := by
  unfold twosComplement
  split <;> omega

theorem twosComplement_eq_zero {b : Nat} (hb : b < 2 ^ 32) (h : twosComplement b = 0) :
    b = 0 := by
  unfold twosComplement at h
  split at h <;> omega

/-- The value that the two unsigned division opcodes compute is what `divisionSpec`
asks. -/
theorem unsigned_division_value (T : Target) (inst : ByteCodeInstruction) (a b : Nat)
    (hinst : inst ∈ [ByteCodeInstruction.kDivideU, .kRemainderU])
    (ha : a < 2 ^ 32) (hb : b < 2 ^ 32) (hb0 : b ≠ 0) :
    ∃ f q, binaryCase T inst = some f ∧ f a b = .ok q ∧ divisionSpec inst a b q = true := by
  simp only [List.mem_cons, List.mem_singleton, List.not_mem_nil, or_false] at hinst
  rcases hinst with rfl | rfl
  · have hq : a / b < 2 ^ 32 := lt_of_le_of_lt (Nat.div_le_self a b) ha
    refine ⟨_, a / b, rfl, by
      simp only [uint32Div, fUnsigned_of_lt ha, fUnsigned_of_lt hb, hb0, if_false,
        ofUnsigned_of_lt hq], ?_⟩
    simp only [divisionSpec, decide_eq_true_eq, and_true]
    exact hq
  · have hq : a % b < 2 ^ 32 := lt_of_le_of_lt (Nat.mod_le a b) ha
    refine ⟨_, a % b, rfl, by
      simp only [uint32Div, fUnsigned_of_lt ha, fUnsigned_of_lt hb, hb0, if_false,
        ofUnsigned_of_lt hq], ?_⟩
    simp only [divisionSpec, decide_eq_true_eq, true_and]
    exact ⟨hq, (Nat.div_add_mod a b).symm⟩

/-- The value that the four integer division opcodes compute is what `divisionSpec`
asks. -/
theorem division_value (T : Target) (inst : ByteCodeInstruction) (a b : Nat)
    (hinst : inst ∈ [ByteCodeInstruction.kDivideS, .kRemainderS, .kDivideU, .kRemainderU])
    (ha : a < 2 ^ 32) (hb : b < 2 ^ 32) (hb0 : b ≠ 0)
    (hov : ¬ (twosComplement a = -2 ^ 31 ∧ twosComplement b = -1)) :
    ∃ f q, binaryCase T inst = some f ∧ f a b = .ok q ∧ divisionSpec inst a b q = true := by
  have hsa := fSigned_eq_twosComplement ha
  have hsb := fSigned_eq_twosComplement hb
  have hra := twosComplement_range ha
  have hsb0 : twosComplement b ≠ 0 := fun h => hb0 (twosComplement_eq_zero hb h)
  have hguard : ¬ (twosComplement b = 0 ∨
      (twosComplement a = -2 ^ 31 ∧ twosComplement b = -1)) := by
    intro h
    rcases h with h | h
    · exact hsb0 h
    · exact hov h
  simp only [List.mem_cons, List.mem_singleton, List.not_mem_nil, or_false] at hinst
  rcases hinst with rfl | rfl | rfl | rfl
  · have hq := tdiv_range (twosComplement a) (twosComplement b) hra hov
    refine ⟨_, ofSigned (Int.tdiv (twosComplement a) (twosComplement b)), rfl,
      by simp only [int32Div, hsa, hsb, hguard, if_false], ?_⟩
    simp only [divisionSpec, decide_eq_true_eq]
    exact ⟨ofSigned_lt _, by
      rw [twosComplement_ofSigned hq.1 hq.2, tdiv_eq_truncQuotient]⟩
  · obtain ⟨hm1, hm2, hm3⟩ := tmod_bounds (twosComplement a) (twosComplement b) hsb0
    have hrb := twosComplement_range hb
    have hr1 : -2 ^ 31 ≤ Int.tmod (twosComplement a) (twosComplement b) := by omega
    have hr2 : Int.tmod (twosComplement a) (twosComplement b) < 2 ^ 31 := by omega
    refine ⟨_, ofSigned (Int.tmod (twosComplement a) (twosComplement b)), rfl,
      by simp only [int32Div, hsa, hsb, hguard, if_false], ?_⟩
    simp only [divisionSpec, decide_eq_true_eq]
    rw [twosComplement_ofSigned hr1 hr2, ← tdiv_eq_truncQuotient]
    exact ⟨ofSigned_lt _, (Int.tdiv_add_tmod _ _).symm, hm2, hm3⟩
  · exact unsigned_division_value T _ a b (by simp) ha hb hb0
  · exact unsigned_division_value T _ a b (by simp) ha hb hb0

/-- The four integer division opcodes compute what `divisionSpec` asks. -/
theorem step_division {T : Target} {code : List Nat} {ip c : Nat}
    {inst : ByteCodeInstruction} (s g : List Value) (a b : Nat)
    (hop : code[ip]? = some c) (hdec : T.decode c = some inst)
    (hinst : inst ∈ [ByteCodeInstruction.kDivideS, .kRemainderS, .kDivideU, .kRemainderU])
    (ha : a < 2 ^ 32) (hb : b < 2 ^ 32) (hb0 : b ≠ 0)
    (hov : ¬ (twosComplement a = -2 ^ 31 ∧ twosComplement b = -1)) :
    ∃ q, step T code ip ⟨s ++ [a, b], g⟩ = .ok (.next (ip + 1) ⟨s ++ [q], g⟩) ∧
      divisionSpec inst a b q = true := by
  obtain ⟨f, q, hf, hq, hspec⟩ := division_value T inst a b hinst ha hb hb0 hov
  exact ⟨q, step_binary s g hop hdec hf hq, hspec⟩

/-- C21: for 32-bit slots `a` (below) and `b` (top) with `b` non-zero, the pair
`a = -2^31`, `b = -1` excluded, `divideS` replaces the two slots with the quotient of the
signed readings truncated toward zero, `remainderS` with the `r` satisfying
`a = b * trunc(a / b) + r`, whose sign follows the dividend `a`, and `divideU`,
`remainderU` with the quotient and remainder of the patterns read as natural numbers
below `2 ^ 32` (`divisionSpec` says this of the slot `q` left). -/
theorem C21_integer_division (T : Target) (code : List Nat) (ip c : Nat)
    (inst : ByteCodeInstruction) (s g : List Value) (a b : Nat)
    (hop : code[ip]? = some c) (hdec : T.decode c = some inst)
    (hinst : inst ∈ [ByteCodeInstruction.kDivideS, .kRemainderS, .kDivideU, .kRemainderU])
    (ha : a < 2 ^ 32) (hb : b < 2 ^ 32) (hb0 : b ≠ 0)
    (hov : ¬ (twosComplement a = -2 ^ 31 ∧ twosComplement b = -1)) :
    ∃ q, step T code ip ⟨s ++ [a, b], g⟩ = .ok (.next (ip + 1) ⟨s ++ [q], g⟩) ∧
      divisionSpec inst a b q = true :=
  step_division s g a b hop hdec hinst ha hb hb0 hov

/-- C21 at a concrete input: `remainderS` on `a = -7` (the slot `0xFFFFFFF9`) and
`b = 2`; the slot left is `-1`. -/
theorem C21_integer_division_witness :
    ∃ q, step demoTarget [44] 0 ⟨[3] ++ [0xFFFFFFF9, 2], []⟩
        = .ok (.next (0 + 1) ⟨[3] ++ [q], []⟩) ∧
      divisionSpec .kRemainderS 0xFFFFFFF9 2 q = true :=
  C21_integer_division demoTarget [44] 0 44 .kRemainderS [3] [] 0xFFFFFFF9 2 (by decide)
    (by decide) (by decide) (by decide) (by decide) (by decide) (by decide)

/-! ## Only `kReturn` ends the loop -/

theorem next_of_bind {α : Type} (x : Exec α) (f : α → Exec Step)
    (hf : ∀ a r, f a = .ok r → ∃ ip m, r = .next ip m) :
    ∀ r, (x >>= f) = .ok r → ∃ ip m, r = .next ip m := by
  intro r h
  obtain ⟨a, _, ha⟩ := bind_eq_ok h
  exact hf a r ha

theorem next_of_pure (ip : Nat) (m : Interpreter) :
    ∀ r, (pure (.next ip m) : Exec Step) = .ok r → ∃ ip m, r = .next ip m := by
  intro r h
  cases h
  exact ⟨ip, m, rfl⟩

theorem next_of_unsupported (ip : Nat) (m : Interpreter) :
    ∀ r, unsupported ip m = .ok r → ∃ ip m, r = .next ip m := by
  intro r h
  exact Except.noConfusion h

/-- The inner switch never ends the loop. -/
theorem executeVector_next (T : Target) (code : List Nat) (count : Nat)
    (o : Option ByteCodeInstruction) (ip : Nat) (m : Interpreter) :
    ∀ r, executeVector T code count o ip m = .ok r → ∃ ip m, r = .next ip m := by
  cases o with
  | none => exact next_of_unsupported ip m
  | some inst =>
    cases inst <;> simp only [executeVector, binaryCase] <;>
      repeat (first
        | exact next_of_unsupported _ _
        | exact next_of_pure _ _
        | (refine next_of_bind _ _ (Prod.rec ?_); intro _ _)
        | (refine next_of_bind _ _ ?_; intro _))

/-- The outer switch ends the loop under the opcode `kReturn` only. -/
theorem execute_next (T : Target) (code : List Nat) (inst : ByteCodeInstruction)
    (ip : Nat) (m : Interpreter) (hne : inst ≠ .kReturn) :
    ∀ r, execute T code (some inst) ip m = .ok r → ∃ ip m, r = .next ip m := by
  cases inst <;> simp only [execute, binaryCase] <;>
    repeat (first
      | exact absurd rfl hne
      | exact next_of_unsupported _ _
      | exact next_of_pure _ _
      | exact executeVector_next _ _ _ _ _ _
      | (refine next_of_bind _ _ (Prod.rec ?_); intro _ _)
      | (refine next_of_bind _ _ ?_; intro _))

/-- A `return(count)` on a stack shorter than `count` reads below the stack. -/
theorem execute_kReturn_short (T : Target) (code : List Nat) (ip count : Nat)
    (s g : List Value) (hcnt : code[ip]? = some count) (hlt : s.length < count) :
    execute T code (some .kReturn) ip ⟨s, g⟩ = .error .undefined := by
  obtain ⟨n, rfl⟩ : ∃ n, count = n + 1 := ⟨count - 1, by omega⟩
  have hget : elemAt s ((s.length : Int) - ((n + 1 : Nat) : Int) + ((0 : Nat) : Int))
      = .error .undefined := by
    have : (s.length : Int) - ((n + 1 : Nat) : Int) + ((0 : Nat) : Int) < 0 := by omega
    simp only [elemAt, this, if_true]
  have hv : binaryCase T .kReturn = none := rfl
  simp only [execute, hv, READ8_of hcnt, bind_ok_eq, forUp, hget, bind_error_eq]

/-- A turn that ends the loop is a `return(count)` on a stack of at least `count`
slots, and the final stack is the one `kReturn` builds. -/
theorem step_returned_inv (T : Target) (code : List Nat) (ip : Nat) (mb m' : Interpreter)
    (h : step T code ip mb = .ok (.returned m')) :
    ∃ b count, code[ip]? = some b ∧ T.decode b = some .kReturn ∧
      code[ip + 1]? = some count ∧ count ≤ mb.fStack.length ∧
      m'.fGlobals = mb.fGlobals ∧ m'.fStack.length = mb.fStack.length ∧
      (∀ i, i < count → m'.fStack[i]? = mb.fStack[mb.fStack.length - count + i]?) ∧
      (∀ i, count ≤ i → m'.fStack[i]? = mb.fStack[i]?) := by
  cases hc : code[ip]? with
  | none =>
    simp [step, READ8, hc, bind, Except.bind] at h
  | some b =>
    rw [step_eq_execute _ hc] at h
    cases hd : T.decode b with
    | none =>
      rw [hd] at h
      exact Except.noConfusion h
    | some inst =>
      rw [hd] at h
      by_cases hinst : inst = .kReturn
      · subst hinst
        cases hcnt : code[ip + 1]? with
        | none =>
          have hv : binaryCase T .kReturn = none := rfl
          simp [execute, hv, READ8, hcnt, bind, Except.bind] at h
        | some count =>
          obtain ⟨s, g⟩ := mb
          by_cases hle : count ≤ s.length
          · obtain ⟨s', hs, _, hl, hlo, hhi⟩ := step_kReturn T code ip b count s g hc hd hcnt hle
            rw [step_eq_execute _ hc, hd, h] at hs
            have hm : m' = ⟨s', g⟩ := by
              injection hs with hs
              injection hs
            subst hm
            exact ⟨b, count, rfl, hd, rfl, hle, rfl, hl, hlo, hhi⟩
          · rw [execute_kReturn_short T code (ip + 1) count s g hcnt (by omega)] at h
            exact Except.noConfusion h
      · obtain ⟨ip', m'', hr⟩ := execute_next T code inst (ip + 1) mb hinst _ h
        exact Step.noConfusion hr

/-- A loop that finishes does so by a turn that ends in `returned`. -/
theorem runLoop_finished_inv (T : Target) (code : List Nat) (m' : Interpreter) :
    ∀ (fuel ip : Nat) (m : Interpreter), runLoop T code fuel ip m = .finished m' →
      ∃ ip1 m1, step T code ip1 m1 = .ok (.returned m') := by
  intro fuel
  induction fuel with
  | zero =>
    intro ip m h
    exact Outcome.noConfusion h
  | succ fuel ih =>
    intro ip m h
    rw [runLoop] at h
    cases hs : step T code ip m with
    | error e =>
      rw [hs] at h
      exact Outcome.noConfusion h
    | ok r =>
      rw [hs] at h
      cases r with
      | next ip2 m2 => exact ih ip2 m2 h
      | returned m1 =>
        have hm : m1 = m' := by
          injection h
        subst hm
        exact ⟨ip, m, hs⟩

/-- The copy-back after the `return(count)` that ended the loop on the state `mb`. -/
theorem run_out_after_return (T : Target) (fuel : Nat) (f : ByteCodeFunction)
    (args inputs : List Value) (m0 : Interpreter) (args' : List Value) (m' : Interpreter)
    (hrun : run T fuel f args inputs m0 = .finished (args', m')) :
    ∃ ip mb b count, f.fCode[ip]? = some b ∧ T.decode b = some .kReturn ∧
      f.fCode[ip + 1]? = some count ∧ step T f.fCode ip mb = .ok (.returned m') ∧
      count ≤ mb.fStack.length ∧
      ∀ pre p post, f.fParameters = pre ++ p :: post → p.out = true →
        ∀ k, k < p.columns * p.rows →
          (widthSum pre + k < count →
            ∃ v, args'[widthSum pre + k]? = some v ∧ m'.fStack[widthSum pre + k]? = some v ∧
              mb.fStack[mb.fStack.length - count + (widthSum pre + k)]? = some v) ∧
          (count ≤ widthSum pre + k →
            ∃ v, args'[widthSum pre + k]? = some v ∧ mb.fStack[widthSum pre + k]? = some v) := by
  obtain ⟨m, _, hloop, hw⟩ := run_finished hrun
  obtain ⟨ip, mb, hstep⟩ := runLoop_finished_inv T f.fCode m' fuel 0 m hloop
  obtain ⟨b, count, hop, hdec, hcnt, hle, _, _, hlo, hhi⟩ :=
    step_returned_inv T f.fCode ip mb m' hstep
  obtain ⟨_, _, hps⟩ := writeBack_spec m'.fStack f.fParameters 0 args args' hw
  refine ⟨ip, mb, b, count, hop, hdec, hcnt, hstep, hle, ?_⟩
  intro pre p post hsplit hout k hk
  obtain ⟨v, hv, hav⟩ := (hps pre p post hsplit k hk).1 hout
  simp only [Nat.zero_add] at hv hav
  constructor
  · intro hlt
    exact ⟨v, hav, hv, by rw [← hlo _ hlt]; exact hv⟩
  · intro hge
    exact ⟨v, hav, by rw [← hhi _ hge]; exact hv⟩

/-- C22: when `run` completes, the loop was ended by a `return(count)` on some state
`mb`, and the copy-back reads the stack `m'.fStack` that this return left: for every
entry of an "out" parameter at offset `c < count`, `args[c]` after the call equals
result slot `c`, the returned value `mb.fStack[n - count + c]`, not the value at offset
`c` before the return; for every such entry at offset `c ≥ count`, `args[c]` is the
value the parameter held before the return. In `returnScenario` the "out" parameter
holds 10 when `return 1` returns 99, and `args` ends as `[99]`. -/
theorem C22_out_parameters_after_return (T : Target) (fuel : Nat) (f : ByteCodeFunction)
    (args inputs : List Value) (m0 : Interpreter) (args' : List Value) (m' : Interpreter)
    (hrun : run T fuel f args inputs m0 = .finished (args', m')) :
    (∃ ip mb b count, f.fCode[ip]? = some b ∧ T.decode b = some .kReturn ∧
      f.fCode[ip + 1]? = some count ∧ step T f.fCode ip mb = .ok (.returned m') ∧
      count ≤ mb.fStack.length ∧
      ∀ pre p post, f.fParameters = pre ++ p :: post → p.out = true →
        ∀ k, k < p.columns * p.rows →
          (widthSum pre + k < count →
            ∃ v, args'[widthSum pre + k]? = some v ∧ m'.fStack[widthSum pre + k]? = some v ∧
              mb.fStack[mb.fStack.length - count + (widthSum pre + k)]? = some v) ∧
          (count ≤ widthSum pre + k →
            ∃ v, args'[widthSum pre + k]? = some v ∧
              mb.fStack[widthSum pre + k]? = some v)) ∧
    (step demoTarget returnScenario.fCode 8 ⟨[10, 99], []⟩ = .ok (.returned ⟨[99, 99], []⟩) ∧
      run demoTarget 5 returnScenario [10] [] ⟨[], []⟩ = .finished ([99], ⟨[99, 99], []⟩)) :=
  ⟨run_out_after_return T fuel f args inputs m0 args' m' hrun, rfl, by decide⟩

/-- C22 at a concrete input: the run of `returnScenario` on `args = [10]`. -/
theorem C22_out_parameters_after_return_witness :
    (∃ ip mb b count, returnScenario.fCode[ip]? = some b ∧
      demoTarget.decode b = some .kReturn ∧
      returnScenario.fCode[ip + 1]? = some count ∧
      step demoTarget returnScenario.fCode ip mb = .ok (.returned ⟨[99, 99], []⟩) ∧
      count ≤ mb.fStack.length ∧
      ∀ pre p post, returnScenario.fParameters = pre ++ p :: post → p.out = true →
        ∀ k, k < p.columns * p.rows →
          (widthSum pre + k < count →
            ∃ v, ([99] : List Value)[widthSum pre + k]? = some v ∧
              (Interpreter.mk [99, 99] []).fStack[widthSum pre + k]? = some v ∧
              mb.fStack[mb.fStack.length - count + (widthSum pre + k)]? = some v) ∧
          (count ≤ widthSum pre + k →
            ∃ v, ([99] : List Value)[widthSum pre + k]? = some v ∧
              mb.fStack[widthSum pre + k]? = some v)) ∧
    (step demoTarget returnScenario.fCode 8 ⟨[10, 99], []⟩ = .ok (.returned ⟨[99, 99], []⟩) ∧
      run demoTarget 5 returnScenario [10] [] ⟨[], []⟩ = .finished ([99], ⟨[99, 99], []⟩)) :=
  C22_out_parameters_after_return demoTarget 5 returnScenario [10] [] ⟨[], []⟩ [99]
    ⟨[99, 99], []⟩ (by decide)

/-! ## What the integer cases of `VECTOR_BINARY_OP` compute -/

theorem twosComplement_ofSigned_wrap (i : Int) : twosComplement (ofSigned i) = wrap32 i := by
  unfold twosComplement ofSigned wrap32
  split <;> omega

/-- Both switches have a `BINARY_OP` case for every integer binary opcode. -/
theorem integerBinary_case (T : Target) {inst : ByteCodeInstruction}
    (hint : inst ∈ integerBinary) : ∃ f, binaryCase T inst = some f := by
  simp only [integerBinary, List.mem_cons, List.mem_singleton, List.not_mem_nil,
    or_false] at hint
  rcases hint with rfl | rfl | rfl | rfl | rfl | rfl | rfl | rfl | rfl | rfl | rfl | rfl |
    rfl | rfl | rfl | rfl | rfl | rfl <;> exact ⟨_, rfl⟩

/-- The value that an integer binary opcode computes for one pair of operands is what
`laneSpec` asks. -/
theorem lane_value (T : Target) {inst : ByteCodeInstruction} (a b : Nat)
    (f : Value → Value → Exec Value) (hf : binaryCase T inst = some f)
    (hint : inst ∈ integerBinary) (ha : a < 2 ^ 32) (hb : b < 2 ^ 32)
    (hdef : laneDefined inst a b = true) :
    ∃ q, f a b = .ok q ∧ laneSpec inst a b q = true := by
  have hsa := fSigned_eq_twosComplement ha
  have hsb := fSigned_eq_twosComplement hb
  have hua := fUnsigned_of_lt ha
  have hub := fUnsigned_of_lt hb
  simp only [integerBinary, List.mem_cons, List.mem_singleton, List.not_mem_nil,
    or_false] at hint
  rcases hint with rfl | rfl | rfl | rfl | rfl | rfl | rfl | rfl | rfl | rfl | rfl | rfl |
    rfl | rfl | rfl | rfl | rfl | rfl <;>
    simp only [binaryCase, Option.some.injEq] at hf <;> subst hf
  · refine ⟨_, rfl, ?_⟩
    simp only [laneSpec, decide_eq_true_eq, ← hsa, ← hsb]
    exact ⟨ofSigned_lt _, twosComplement_ofSigned_wrap _⟩
  · refine ⟨_, rfl, ?_⟩
    simp only [laneSpec, decide_eq_true_eq, ← hsa, ← hsb]
    exact ⟨ofSigned_lt _, twosComplement_ofSigned_wrap _⟩
  · refine ⟨_, rfl, ?_⟩
    simp only [laneSpec, decide_eq_true_eq, ← hsa, ← hsb]
    exact ⟨ofSigned_lt _, twosComplement_ofSigned_wrap _⟩
  · refine ⟨_, rfl, ?_⟩
    simp only [laneSpec, decide_eq_true_eq, ofUnsigned, hua, hub]
  · simp only [laneDefined, decide_eq_true_eq] at hdef
    obtain ⟨f, q, hf, hq, hs⟩ := division_value T .kDivideS a b (by simp) ha hb
      hdef.1 hdef.2
    cases hf
    exact ⟨q, hq, hs⟩
  · simp only [laneDefined, decide_eq_true_eq] at hdef
    obtain ⟨f, q, hf, hq, hs⟩ := unsigned_division_value T .kDivideU a b
      (by simp) ha hb hdef
    cases hf
    exact ⟨q, hq, hs⟩
  · simp only [laneDefined, decide_eq_true_eq] at hdef
    obtain ⟨f, q, hf, hq, hs⟩ := division_value T .kRemainderS a b (by simp) ha hb
      hdef.1 hdef.2
    cases hf
    exact ⟨q, hq, hs⟩
  · simp only [laneDefined, decide_eq_true_eq] at hdef
    obtain ⟨f, q, hf, hq, hs⟩ := unsigned_division_value T .kRemainderU a b
      (by simp) ha hb hdef
    cases hf
    exact ⟨q, hq, hs⟩
  all_goals
    refine ⟨_, rfl, ?_⟩
    simp only [laneSpec, compareSpec, decide_eq_true_eq, ← hsa, ← hsb]
    first
      | exact ⟨boolSlot_lt _ _, fBool_boolSlot _ _⟩
      | (refine ⟨boolSlot_lt _ _, ?_⟩
         simp only [uint32Cmp, Except.ok.injEq, fBool_boolSlot, hua, hub])

/-- Lane by lane: if every pair of operands has a value, the lanes have a list of values. -/
theorem lanes_exist (f : Value → Value → Exec Value) (P : Nat → Nat → Nat → Prop) :
    ∀ (L R : List Value), L.length = R.length →
      (∀ (i : Nat) (x y : Value), L[i]? = some x → R[i]? = some y →
        ∃ q, f x y = .ok q ∧ P x y q) →
      ∃ res : List Value, res.length = L.length ∧
        List.zipWith f L R = res.map Except.ok ∧
        ∀ (i : Nat) (x y : Value), L[i]? = some x → R[i]? = some y →
          ∃ q, res[i]? = some q ∧ P x y q := by
  intro L
  induction L with
  | nil =>
    intro R _ _
    exact ⟨[], rfl, by simp, by intro i x y h; simp at h⟩
  | cons a L ih =>
    intro R hlen h
    cases R with
    | nil => simp at hlen
    | cons b R =>
      obtain ⟨q, hq, hP⟩ := h 0 a b (by simp) (by simp)
      obtain ⟨res, hl, hz, hs⟩ := ih R (by simpa using hlen)
        (fun i x y hx hy => h (i + 1) x y (by simpa using hx) (by simpa using hy))
      refine ⟨q :: res, by simp [hl], by simp [hq, hz], ?_⟩
      intro i x y hx hy
      cases i with
      | zero =>
        simp only [List.getElem?_cons_zero, Option.some.injEq] at hx hy
        subst hx
        subst hy
        exact ⟨q, by simp, hP⟩
      | succ i =>
        simpa using hs i x y (by simpa using hx) (by simpa using hy)

/-- The instruction `vector(N, op)` for an integer binary opcode `op`. -/
theorem vector_integer_lanes (T : Target) (code : List Nat) (ip b c N : Nat)
    (inst : ByteCodeInstruction) (s L R g : List Value)
    (hop : code[ip]? = some b) (hdec : T.decode b = some .kVector)
    (hcnt : code[ip + 1]? = some N) (hsub : code[ip + 2]? = some c)
    (hinst : T.decode c = some inst) (hint : inst ∈ integerBinary)
    (hN : N ≤ 16) (hL : L.length = N) (hR : R.length = N)
    (hL32 : ∀ v ∈ L, v < 2 ^ 32) (hR32 : ∀ v ∈ R, v < 2 ^ 32)
    (hdef : ∀ (i : Nat) (x y : Value), L[i]? = some x → R[i]? = some y →
      laneDefined inst x y = true) :
    ∃ res : List Value,
      step T code ip ⟨s ++ L ++ R, g⟩ = .ok (.next (ip + 3) ⟨s ++ res, g⟩) ∧
      res.length = N ∧
      ∀ (i : Nat) (x y : Value), L[i]? = some x → R[i]? = some y →
        ∃ q, res[i]? = some q ∧ laneSpec inst x y q = true := by
  obtain ⟨f, hf⟩ := integerBinary_case T hint
  obtain ⟨res, hl, hz, hs⟩ := lanes_exist f (fun x y q => laneSpec inst x y q = true) L R
    (by omega)
    (fun i x y hx hy => lane_value T x y f hf hint (hL32 x (List.getElem?_mem hx))
      (hR32 y (List.getElem?_mem hy)) (hdef i x y hx hy))
  exact ⟨res, step_vector_binary s L R res g hop hdec hcnt hsub hinst hf hN hL hR (by omega) hz,
    by omega, hs⟩

/-- C3: for a lane count `N ≤ 16` (so for every `1 ≤ N ≤ 16`), an integer binary
arithmetic or comparison opcode `op` (`integerBinary` lists them) and a stack
`s ++ L ++ R` of 32-bit slots with `|L| = |R| = N`, `R` on top, `vector(N, op)` yields
`s ++ res` with `|res| = N` where `res[i]` is `L[i] op R[i]` for every lane `i`: the
wrapped sum, difference or product, the quotient or remainder, or a slot whose boolean
view is the comparison, as `laneSpec` says it of the operands `L[i]` and `R[i]`. Lane
`i` pairs left operand `i` with right operand `i`, and the results stand in the
original order. For a division every lane has a non-zero divisor (and not `-2 ^ 31` by
`-1`), since `L[i] op R[i]` has no value otherwise. `vector(2, addI)` on
`[1, 2, 10, 20]` yields `[11, 22]`. -/
theorem C3_vector_binary_lanes (T : Target) (code : List Nat) (ip b c N : Nat)
    (inst : ByteCodeInstruction) (s L R g : List Value)
    (hop : code[ip]? = some b) (hdec : T.decode b = some .kVector)
    (hcnt : code[ip + 1]? = some N) (hsub : code[ip + 2]? = some c)
    (hinst : T.decode c = some inst) (hint : inst ∈ integerBinary)
    (hN : N ≤ 16) (hL : L.length = N) (hR : R.length = N)
    (hL32 : ∀ v ∈ L, v < 2 ^ 32) (hR32 : ∀ v ∈ R, v < 2 ^ 32)
    (hdef : ∀ (i : Nat) (x y : Value), L[i]? = some x → R[i]? = some y →
      laneDefined inst x y = true) :
    (∃ res : List Value,
      step T code ip ⟨s ++ L ++ R, g⟩ = .ok (.next (ip + 3) ⟨s ++ res, g⟩) ∧
      res.length = N ∧
      ∀ (i : Nat) (x y : Value), L[i]? = some x → R[i]? = some y →
        ∃ q, res[i]? = some q ∧ laneSpec inst x y q = true) ∧
    step demoTarget [55, 2, 1] 0 ⟨[1, 2, 10, 20], []⟩ = .ok (.next 3 ⟨[11, 22], []⟩) :=
  ⟨vector_integer_lanes T code ip b c N inst s L R g hop hdec hcnt hsub hinst hint hN hL hR
    hL32 hR32 hdef, rfl⟩

/-- C3 at a concrete input: `vector(2, addI)` on the stack `[1, 2, 10, 20]`. -/
theorem C3_vector_binary_lanes_witness :
    (∃ res : List Value,
      step demoTarget [55, 2, 1] 0 ⟨[] ++ [1, 2] ++ [10, 20], []⟩
        = .ok (.next (0 + 3) ⟨[] ++ res, []⟩) ∧
      res.length = 2 ∧
      ∀ (i : Nat) (x y : Value), [1, 2][i]? = some x → [10, 20][i]? = some y →
        ∃ q, res[i]? = some q ∧ laneSpec .kAddI x y q = true) ∧
    step demoTarget [55, 2, 1] 0 ⟨[1, 2, 10, 20], []⟩ = .ok (.next 3 ⟨[11, 22], []⟩) :=
  C3_vector_binary_lanes demoTarget [55, 2, 1] 0 55 1 2 .kAddI [] [1, 2] [10, 20] []
    (by decide) (by decide) (by decide) (by decide) (by decide) (by decide) (by decide)
    (by decide) (by decide) (by decide) (by decide) (fun _ _ _ _ _ => rfl)

end SkSL
